import Mathlib

/-!
Shallow embedding of the sliding-puzzle solver (Rust crate `puzzle`) and proofs
about it.  The embedding follows the source files under `src/`:

* `puzzle_state/direction.rs`, `puzzle_state/coordinates.rs`,
  `puzzle_state/mod.rs`, `puzzle_state/parity_check_permutation.rs` —
  board representation, encoding, moves, solvability test, parsing/printing;
* `heuristics/manhattan_distance.rs`, `heuristics/disjoint_databases/*` —
  the two heuristics and the pattern-database construction;
* `astar_state.rs`, `lib.rs` — the A* search loop.

Machine integers are modelled as `Nat`; the places where Rust would overflow
are unreachable on the inputs the theorems quantify over (the 4×4 board packs
exactly 16 four-bit fields into a `u64`, and search costs stay far below
`u8::MAX` under the admissibility hypotheses used).
-/

namespace Puzzle

/-- `Direction` of a blank move, from `puzzle_state/direction.rs`. -/
inductive Direction : Type where
  | up : Direction
  | down : Direction
  | left : Direction
  | right : Direction
deriving DecidableEq

/-- `Direction::as_coordinates`: the `(row, column)` difference of a move. -/
def Direction.asCoordinates : Direction → Int × Int
  | .up => (-1, 0)
  | .down => (1, 0)
  | .left => (0, -1)
  | .right => (0, 1)

/-- `Direction::opposite`. -/
def Direction.opposite : Direction → Direction
  | .up => .down
  | .down => .up
  | .left => .right
  | .right => .left

@[simp] theorem Direction.opposite_opposite (d : Direction) : d.opposite.opposite = d := by
  cases d <;> rfl

/-- A readable board: the `[[Option<u8>; N]; N]` array of cell contents. -/
def Board (n : Nat) : Type := Fin n → Fin n → Option Nat

instance (n : Nat) : DecidableEq (Board n) := by
  unfold Board; infer_instance

/-- Row-major flat index of a cell, as used by the 4-bit packing. -/
def flatIdx {n : Nat} (rc : Fin n × Fin n) : Nat := rc.1.val * n + rc.2.val

theorem pos_of_fin_mul {n : Nat} (i : Fin (n * n)) : 0 < n := by
  rcases Nat.eq_zero_or_pos n with h | h
  · exact absurd i.isLt (by simp [h])
  · exact h

/-- The cell sitting at row-major position `i`. -/
def cellOfIdx {n : Nat} (i : Fin (n * n)) : Fin n × Fin n :=
  (⟨i.val / n, Nat.div_lt_of_lt_mul i.isLt⟩,
   ⟨i.val % n, Nat.mod_lt _ (pos_of_fin_mul i)⟩)

/-- The row-major enumeration of all cells of an `n × n` board. -/
def cellList (n : Nat) : List (Fin n × Fin n) :=
  (List.finRange (n * n)).map cellOfIdx

theorem flatIdx_lt {n : Nat} (rc : Fin n × Fin n) : flatIdx rc < n * n := by
  obtain ⟨⟨r, hr⟩, ⟨c, hc⟩⟩ := rc
  show r * n + c < n * n
  calc r * n + c < r * n + n := by omega
    _ ≤ n * n := by
        have : r + 1 ≤ n := hr
        calc r * n + n = (r + 1) * n := by ring
          _ ≤ n * n := Nat.mul_le_mul_right n hr

@[simp] theorem flatIdx_cellOfIdx {n : Nat} (i : Fin (n * n)) :
    flatIdx (cellOfIdx i) = i.val := by
  show i.val / n * n + i.val % n = i.val
  rw [Nat.mul_comm]
  exact Nat.div_add_mod _ _

@[simp] theorem cellOfIdx_flatIdx {n : Nat} (rc : Fin n × Fin n) :
    cellOfIdx ⟨flatIdx rc, flatIdx_lt rc⟩ = rc := by
  obtain ⟨⟨r, hr⟩, ⟨c, hc⟩⟩ := rc
  have hn : 0 < n := by omega
  refine Prod.ext (Fin.ext ?_) (Fin.ext ?_)
  · show (r * n + c) / n = r
    rw [Nat.mul_comm r n, Nat.mul_add_div hn, Nat.div_eq_of_lt hc]
    exact Nat.add_zero r
  · show (r * n + c) % n = c
    rw [Nat.mul_comm r n, Nat.mul_add_mod, Nat.mod_eq_of_lt hc]

theorem cellList_length (n : Nat) : (cellList n).length = n * n := by
  simp [cellList]

theorem mem_cellList {n : Nat} (rc : Fin n × Fin n) : rc ∈ cellList n := by
  have : rc = cellOfIdx ⟨flatIdx rc, flatIdx_lt rc⟩ := (cellOfIdx_flatIdx rc).symm
  rw [this]
  exact List.mem_map_of_mem _ (List.mem_finRange _)

theorem cellList_nodup (n : Nat) : (cellList n).Nodup := by
  refine List.Nodup.map ?_ (List.nodup_finRange _)
  intro i j hij
  have : (flatIdx (cellOfIdx i) : Nat) = flatIdx (cellOfIdx j) := by rw [hij]
  simpa [Fin.ext_iff] using this

/-- The 4-bit field stored for one cell: `value - 1` for a tile, the sentinel
`0b1111` for the blank (`BLANK_NUMBER` in `puzzle_state/mod.rs`). -/
def cellField : Option Nat → Nat
  | some v => v - 1
  | none => 15

/-- Little-endian base-16 packing of a list of 4-bit fields; field `i` of the
source's `numbers_from_readable` sits at bit `4*i`, i.e. at base-16 digit `i`. -/
def packFields : List Nat → Nat
  | [] => 0
  | d :: ds => d + 16 * packFields ds

/-- `PuzzleState::numbers_from_readable`: pack the row-major cell fields. -/
def numbersFromReadable {n : Nat} (b : Board n) : Nat :=
  packFields ((cellList n).map fun rc => cellField (b rc.1 rc.2))

/-- `PuzzleState::numbers_into_readable`: extract the 4-bit field of each cell;
a field below the blank sentinel decodes to `Some (field + 1)`. -/
def numbersIntoReadable {n : Nat} (x : Nat) : Board n := fun r c =>
  let f := x / 16 ^ flatIdx (r, c) % 16
  if f < 15 then some (f + 1) else none

theorem packFields_extract (ds : List Nat) (h : ∀ d ∈ ds, d < 16) (i : Nat) :
    packFields ds / 16 ^ i % 16 = ds.getD i 0 := by
  induction ds generalizing i with
  | nil => simp [packFields]
  | cons d ds ih =>
      cases i with
      | zero =>
          have hd : d < 16 := h d (by simp)
          simp [packFields, Nat.add_mul_mod_self_left, Nat.mod_eq_of_lt hd]
      | succ i =>
          show (d + 16 * packFields ds) / 16 ^ (i + 1) % 16 = (d :: ds).getD (i + 1) 0
          have hstep : (d + 16 * packFields ds) / 16 ^ (i + 1) = packFields ds / 16 ^ i := by
            rw [pow_succ, Nat.mul_comm (16 ^ i) 16, ← Nat.div_div_eq_div_mul]
            congr 1
            rw [Nat.add_mul_div_left _ _ (by norm_num : (0:Nat) < 16)]
            simp [Nat.div_eq_of_lt (h d (by simp))]
          rw [hstep, ih (fun d hd => h d (by simp [hd]))]
          simp

theorem cellList_map_getD {n : Nat} (f : Fin n × Fin n → Nat) (rc : Fin n × Fin n) :
    (((cellList n).map f).getD (flatIdx rc) 0) = f rc := by
  have hlt : flatIdx rc < ((cellList n).map f).length := by
    simpa [cellList_length] using flatIdx_lt rc
  rw [List.getD_eq_getElem _ _ hlt]
  rw [List.getElem_map]
  unfold cellList
  rw [List.getElem_map, List.getElem_finRange]
  congr 1
  exact cellOfIdx_flatIdx rc

/-- All cell values lie in `1..15`; this is what the 4-bit packing needs, and it
holds for every valid board of size at most 4. -/
def FieldsInRange {n : Nat} (b : Board n) : Prop :=
  ∀ r c v, b r c = some v → 1 ≤ v ∧ v ≤ 15

theorem roundtrip_readable {n : Nat} (b : Board n) (h : FieldsInRange b) :
    numbersIntoReadable (numbersFromReadable b) = b := by
  funext r c
  have hfields : ∀ d ∈ (cellList n).map fun rc => cellField (b rc.1 rc.2), d < 16 := by
    intro d hd
    rcases List.mem_map.mp hd with ⟨rc, _, rfl⟩
    cases hb : b rc.1 rc.2 with
    | none => simp [cellField, hb]
    | some v =>
        have := h _ _ _ hb
        simp only [cellField, hb]
        omega
  show (if numbersFromReadable b / 16 ^ flatIdx (r, c) % 16 < 15
        then some (numbersFromReadable b / 16 ^ flatIdx (r, c) % 16 + 1) else none) = b r c
  rw [numbersFromReadable, packFields_extract _ hfields, cellList_map_getD]
  cases hb : b r c with
  | none => simp [cellField]
  | some v =>
      have := h _ _ _ hb
      simp only [cellField]
      rw [if_pos (by omega)]
      congr 1
      omega

/-- A valid readable board: the cell contents are a permutation of
`{None} ∪ {Some 1, …, Some (n²-1)}` — exactly one blank, each tile value
once.  This is the property `PuzzleState::check_numbers` accepts. -/
def ValidBoard {n : Nat} (b : Board n) : Prop :=
  ((cellList n).map fun rc => b rc.1 rc.2).Perm
    (none :: (List.range (n * n - 1)).map fun k => some (k + 1))

instance {n : Nat} (b : Board n) : Decidable (ValidBoard b) := by
  unfold ValidBoard; infer_instance

theorem ValidBoard.mem_values {n : Nat} {b : Board n} (h : ValidBoard b)
    {r c : Fin n} {v : Nat} (hv : b r c = some v) : 1 ≤ v ∧ v ≤ n * n - 1 := by
  have hmem : some v ∈ (cellList n).map fun rc => b rc.1 rc.2 :=
    List.mem_map.mpr ⟨(r, c), mem_cellList _, hv⟩
  rcases List.mem_cons.mp (h.mem_iff.mp hmem) with h1 | h1
  · exact absurd h1 (by simp)
  · rcases List.mem_map.mp h1 with ⟨k, hk, hkv⟩
    have : k + 1 = v := by simpa using hkv
    have hk' := List.mem_range.mp hk
    omega

theorem ValidBoard.fieldsInRange {n : Nat} (hn : n ≤ 4) {b : Board n}
    (h : ValidBoard b) : FieldsInRange b := by
  intro r c v hv
  have := h.mem_values hv
  have hsq : n * n ≤ 16 := Nat.mul_le_mul hn hn
  omega

/-- `BoardCoordinates::manhattan_distance` (`coordinates.rs`), with `u8::abs_diff`
modelled by `Nat.dist`. -/
def manhattanDist {n : Nat} (a b : Fin n × Fin n) : Nat :=
  Nat.dist a.1.val b.1.val + Nat.dist a.2.val b.2.val

/-- The bottom-right cell, the blank's home (`coordinates.rs`). -/
def homeCell (n : Nat) [NeZero n] : Fin n × Fin n :=
  (⟨n - 1, by have := NeZero.pos n; omega⟩, ⟨n - 1, by have := NeZero.pos n; omega⟩)

/-- `BoardCoordinates::blank_manhattan_distance`. -/
def blankManhattanDistance {n : Nat} [NeZero n] (rc : Fin n × Fin n) : Nat :=
  manhattanDist rc (homeCell n)

/-- Edge predicates from `coordinates.rs`. -/
def atUpperEdge {n : Nat} (rc : Fin n × Fin n) : Prop := rc.1.val = 0

def atBottomEdge {n : Nat} (rc : Fin n × Fin n) : Prop := rc.1.val = n - 1

def atLeftEdge {n : Nat} (rc : Fin n × Fin n) : Prop := rc.2.val = 0

def atRightEdge {n : Nat} (rc : Fin n × Fin n) : Prop := rc.2.val = n - 1

instance {n : Nat} (rc : Fin n × Fin n) : Decidable (atUpperEdge rc) := by
  unfold atUpperEdge; infer_instance

instance {n : Nat} (rc : Fin n × Fin n) : Decidable (atBottomEdge rc) := by
  unfold atBottomEdge; infer_instance

instance {n : Nat} (rc : Fin n × Fin n) : Decidable (atLeftEdge rc) := by
  unfold atLeftEdge; infer_instance

instance {n : Nat} (rc : Fin n × Fin n) : Decidable (atRightEdge rc) := by
  unfold atRightEdge; infer_instance

/-- `PuzzleState::blank_position`: the first cell, in row-major order, holding
`None`.  The fallback value is never reached on a board that has a blank
(the source marks that case `unreachable!`). -/
def blankPos {n : Nat} [NeZero n] (b : Board n) : Fin n × Fin n :=
  ((cellList n).find? fun rc => (b rc.1 rc.2).isNone).getD
    (⟨0, NeZero.pos n⟩, ⟨0, NeZero.pos n⟩)

theorem find?_first_of_split {α : Type _} (p : α → Bool) (l1 l2 : List α) (x : α)
    (h1 : ∀ y ∈ l1, p y = false) (hx : p x = true) :
    (l1 ++ x :: l2).find? p = some x := by
  induction l1 with
  | nil => simpa using List.find?_cons_of_pos l2 hx
  | cons a l1 ih =>
      have ha : p a = false := h1 a (by simp)
      rw [List.cons_append, List.find?_cons_of_neg _ (by simp [ha])]
      exact ih fun y hy => h1 y (by simp [hy])

theorem blankPos_eq {n : Nat} [NeZero n] {b : Board n} {rc : Fin n × Fin n}
    (hnone : b rc.1 rc.2 = none)
    (hfirst : ∀ rc' : Fin n × Fin n, b rc'.1 rc'.2 = none → flatIdx rc ≤ flatIdx rc') :
    blankPos b = rc := by
  have hk : flatIdx rc < (cellList n).length := by
    simpa [cellList_length] using flatIdx_lt rc
  have hsplit : cellList n =
      (cellList n).take (flatIdx rc) ++ rc :: (cellList n).drop (flatIdx rc + 1) := by
    conv_lhs => rw [← List.take_append_drop (flatIdx rc) (cellList n)]
    congr 1
    rw [List.drop_eq_getElem_cons hk]
    congr 1
    unfold cellList
    rw [List.getElem_map, List.getElem_finRange]
    exact cellOfIdx_flatIdx rc
  have hfind : (cellList n).find? (fun q => (b q.1 q.2).isNone) = some rc := by
    rw [hsplit]
    refine find?_first_of_split _ _ _ _ ?_ (by simp [hnone])
    intro y hy
    rcases List.mem_take_iff_getElem.mp hy with ⟨j, hj, rfl⟩
    have hjlt : j < flatIdx rc := lt_of_lt_of_le hj (by simp)
    have hjl : j < (cellList n).length := by
      simp only [cellList_length]
      exact lt_of_lt_of_le hjlt (Nat.le_of_lt_succ (Nat.lt_succ_of_lt (by
        simpa [cellList_length] using hk)))
    by_contra hcon
    have hnone' : b ((cellList n)[j]).1 ((cellList n)[j]).2 = none := by
      cases hb : b ((cellList n)[j]).1 ((cellList n)[j]).2 with
      | none => rfl
      | some v => simp [hb] at hcon
    have hflat : flatIdx ((cellList n)[j]) = j := by
      unfold cellList
      rw [List.getElem_map, List.getElem_finRange]
      simp
    have := hfirst _ hnone'
    omega
  unfold blankPos
  rw [hfind]
  rfl

theorem blankPos_none {n : Nat} [NeZero n] {b : Board n} {rc : Fin n × Fin n}
    (h : b rc.1 rc.2 = none) : b (blankPos b).1 (blankPos b).2 = none := by
  unfold blankPos
  cases hf : (cellList n).find? fun rc => (b rc.1 rc.2).isNone with
  | none =>
      exfalso
      have := List.find?_eq_none.mp hf rc (mem_cellList rc)
      simp [h] at this
  | some p =>
      have := List.find?_some hf
      simpa using this

/-- The board obtained by moving the blank in direction `d`
(`PuzzleState::create_neighbour_move_state`).  The out-of-bounds branch is
unreachable under the edge guards of `neighbours`. -/
def createNeighbourMoveState {n : Nat} [NeZero n] (b : Board n) (d : Direction) :
    Board n :=
  let diff := d.asCoordinates
  let bp := blankPos b
  let sr : Int := (bp.1.val : Int) + diff.1
  let sc : Int := (bp.2.val : Int) + diff.2
  if h : 0 ≤ sr ∧ sr < n ∧ 0 ≤ sc ∧ sc < n then
    let sw : Fin n × Fin n :=
      (⟨sr.toNat, by omega⟩, ⟨sc.toNat, by omega⟩)
    fun r c =>
      if (r, c) = bp then b sw.1 sw.2
      else if (r, c) = sw then none
      else b r c
  else b

/-- `PuzzleState::neighbours`: the legal moves, in the source's order
Up, Down, Left, Right, each paired with the board it produces. -/
def boardNeighbours {n : Nat} [NeZero n] (b : Board n) : List (Direction × Board n) :=
  (if ¬atUpperEdge (blankPos b) then
    [(Direction.up, createNeighbourMoveState b .up)] else []) ++
  (if ¬atBottomEdge (blankPos b) then
    [(Direction.down, createNeighbourMoveState b .down)] else []) ++
  (if ¬atLeftEdge (blankPos b) then
    [(Direction.left, createNeighbourMoveState b .left)] else []) ++
  (if ¬atRightEdge (blankPos b) then
    [(Direction.right, createNeighbourMoveState b .right)] else [])

/-- `PuzzleState::is_solved_permutation`: every cell before the last holds the
next expected tile value. -/
def isSolvedPermutation {n : Nat} (b : Board n) : Prop :=
  ∀ i : Fin (n * n), i.val < n * n - 1 →
    b (cellOfIdx i).1 (cellOfIdx i).2 = some (i.val + 1)

instance {n : Nat} (b : Board n) : Decidable (isSolvedPermutation b) := by
  unfold isSolvedPermutation; infer_instance

/-- `PuzzleState::is_solved`. -/
def boardIsSolved {n : Nat} [NeZero n] (b : Board n) : Prop :=
  blankManhattanDistance (blankPos b) = 0 ∧ isSolvedPermutation b

instance {n : Nat} [NeZero n] (b : Board n) : Decidable (boardIsSolved b) := by
  unfold boardIsSolved; infer_instance

/-- The goal configuration: tiles `1..n²-1` in row-major order, blank last. -/
def goalBoard (n : Nat) : Board n := fun r c =>
  if flatIdx (r, c) = n * n - 1 then none else some (flatIdx (r, c) + 1)

theorem flatIdx_inj {n : Nat} {a b : Fin n × Fin n} (h : flatIdx a = flatIdx b) :
    a = b := by
  have ha := cellOfIdx_flatIdx a
  have hb := cellOfIdx_flatIdx b
  rw [← ha, ← hb]
  congr 1
  exact Fin.ext h

theorem flatIdx_homeCell (n : Nat) [NeZero n] : flatIdx (homeCell n) = n * n - 1 := by
  show (n - 1) * n + (n - 1) = n * n - 1
  have := NeZero.pos n
  cases n with
  | zero => omega
  | succ m =>
      have h1 : (m + 1) * (m + 1) = m * m + 2 * m + 1 := by ring
      have h2 : m * (m + 1) = m * m + m := by ring
      simp only [Nat.add_sub_cancel]
      omega

theorem blankPos_goalBoard (n : Nat) [NeZero n] :
    blankPos (goalBoard n) = homeCell n := by
  refine blankPos_eq ?_ ?_
  · simp [goalBoard, flatIdx_homeCell]
  · intro rc' h'
    simp only [goalBoard] at h'
    rcases Nat.decEq (flatIdx rc') (n * n - 1) with hne | he
    · rw [if_neg hne] at h'; exact absurd h' (by simp)
    · rw [flatIdx_homeCell, he]

theorem boardIsSolved_iff {n : Nat} [NeZero n] (hn : 2 ≤ n) (b : Board n) :
    boardIsSolved b ↔ b = goalBoard n := by
  constructor
  · rintro ⟨hdist, hperm⟩
    funext r c
    rcases Nat.lt_or_ge (flatIdx (r, c)) (n * n - 1) with hlt | hge
    · have := hperm ⟨flatIdx (r, c), flatIdx_lt _⟩ hlt
      rw [cellOfIdx_flatIdx] at this
      simp [goalBoard, this, Nat.ne_of_lt hlt]
    · have heq : flatIdx (r, c) = n * n - 1 := by
        have := flatIdx_lt (r, c); omega
      have hblank : (blankPos b) = homeCell n := by
        have h0 : Nat.dist (blankPos b).1.val (n - 1) +
            Nat.dist (blankPos b).2.val (n - 1) = 0 := hdist
        have h2 := Nat.eq_of_dist_eq_zero (show Nat.dist (blankPos b).1.val (n-1) = 0 by omega)
        have h3 := Nat.eq_of_dist_eq_zero (show Nat.dist (blankPos b).2.val (n-1) = 0 by omega)
        exact Prod.ext (Fin.ext h2) (Fin.ext h3)
      have hrc : (r, c) = homeCell n :=
        flatIdx_inj (heq.trans (flatIdx_homeCell n).symm)
      have hbnone : b (homeCell n).1 (homeCell n).2 = none := by
        unfold blankPos at hblank
        cases hf : (cellList n).find? fun rc => (b rc.1 rc.2).isNone with
        | none =>
            rw [hf] at hblank
            simp only [Option.getD_none] at hblank
            have : (0 : Nat) = n - 1 := congrArg (fun p => p.1.val) hblank
            omega
        | some p =>
            rw [hf] at hblank
            simp only [Option.getD_some] at hblank
            have hp := List.find?_some hf
            rw [hblank] at hp
            simpa using hp
      have hr1 : r = (homeCell n).1 := congrArg Prod.fst hrc
      have hc1 : c = (homeCell n).2 := congrArg Prod.snd hrc
      rw [hr1, hc1]
      simp only [goalBoard]
      rw [if_pos (by simpa using flatIdx_homeCell n)]
      exact hbnone
  · rintro rfl
    constructor
    · rw [blankPos_goalBoard]
      unfold blankManhattanDistance manhattanDist
      simp [Nat.dist_self]
    · intro i hi
      have : flatIdx (cellOfIdx i) = i.val := flatIdx_cellOfIdx i
      simp [goalBoard, this, Nat.ne_of_lt hi]

/-- `PuzzleStateCreationError` from `puzzle_state/errors.rs`. -/
inductive CreationError : Type where
  | notPermutation : CreationError
  | twoBlanks : CreationError
deriving DecidableEq

/-- The loop of `PuzzleState::check_numbers`: scan the cells, erasing each tile
value from the set of still-missing values, tracking whether a blank was seen. -/
def checkNumbersAux : List (Option Nat) → List Nat → Bool → Except CreationError Unit
  | [], remaining, _ =>
      if remaining.isEmpty then .ok () else .error .notPermutation
  | some v :: rest, remaining, blankFound =>
      if v ∈ remaining then checkNumbersAux rest (remaining.erase v) blankFound
      else .error .notPermutation
  | none :: rest, remaining, blankFound =>
      if blankFound then .error .twoBlanks else checkNumbersAux rest remaining true

/-- The row-major cell contents of a board. -/
def boardValues {n : Nat} (b : Board n) : List (Option Nat) :=
  (cellList n).map fun rc => b rc.1 rc.2

/-- `PuzzleState::check_numbers`: the missing-value set starts as `{1..n²-1}`. -/
def checkNumbers {n : Nat} (b : Board n) : Except CreationError Unit :=
  checkNumbersAux (boardValues b) ((List.range (n * n - 1)).map fun k => k + 1) false

/-- The number of blank cells in a list of cell contents. -/
def blanksCount {α : Type _} (l : List (Option α)) : Nat :=
  (l.filter fun v => v.isNone).length

@[simp] theorem blanksCount_nil {α : Type _} : blanksCount ([] : List (Option α)) = 0 :=
  rfl

@[simp] theorem blanksCount_cons_some {α : Type _} (v : α) (l : List (Option α)) :
    blanksCount (some v :: l) = blanksCount l := by
  simp [blanksCount]

@[simp] theorem blanksCount_cons_none {α : Type _} (l : List (Option α)) :
    blanksCount (none :: l) = blanksCount l + 1 := by
  simp [blanksCount, List.filter_cons]

theorem Perm.blanksCount_eq {α : Type _} {l₁ l₂ : List (Option α)} (h : l₁.Perm l₂) :
    blanksCount l₁ = blanksCount l₂ :=
  (h.filter _).length_eq

theorem checkNumbersAux_ok_iff (vs : List (Option Nat)) (remaining : List Nat)
    (bf : Bool) :
    checkNumbersAux vs remaining bf = .ok () ↔
      (vs.filterMap id).Perm remaining ∧ blanksCount vs + (cond bf 1 0) ≤ 1 := by
  induction vs generalizing remaining bf with
  | nil =>
      simp only [checkNumbersAux, List.filterMap_nil, blanksCount_nil]
      constructor
      · intro h
        by_cases hr : remaining.isEmpty
        · refine ⟨?_, by cases bf <;> simp⟩
          rw [List.isEmpty_iff] at hr
          simp [hr]
        · rw [if_neg hr] at h; exact absurd h (by simp)
      · rintro ⟨hperm, -⟩
        have : remaining = [] := hperm.symm.eq_nil
        simp [this]
  | cons v rest ih =>
      cases v with
      | some v =>
          have hf : (some v :: rest).filterMap id = v :: rest.filterMap id := by simp
          have hc : blanksCount (some v :: rest) = blanksCount rest := by simp
          by_cases hv : v ∈ remaining
          · have hstep : checkNumbersAux (some v :: rest) remaining bf =
                checkNumbersAux rest (remaining.erase v) bf := by
              simp [checkNumbersAux, hv]
            rw [hstep, ih, hf, hc]
            constructor
            · rintro ⟨h1, h2⟩
              exact ⟨List.cons_perm_iff_perm_erase.mpr ⟨hv, h1⟩, h2⟩
            · rintro ⟨h1, h2⟩
              exact ⟨(List.cons_perm_iff_perm_erase.mp h1).2, h2⟩
          · have hstep : checkNumbersAux (some v :: rest) remaining bf =
                .error .notPermutation := by
              simp [checkNumbersAux, hv]
            rw [hstep, hf]
            constructor
            · intro h; exact absurd h (by simp)
            · rintro ⟨h1, -⟩
              exact absurd (h1.mem_iff.mp (by simp)) hv
      | none =>
          have hc : blanksCount (none :: rest) = blanksCount rest + 1 := by simp
          cases bf with
          | true =>
              constructor
              · intro h
                exact absurd h (by simp [checkNumbersAux])
              · rintro ⟨-, hcount⟩
                rw [hc] at hcount
                simp only [cond] at hcount
                omega
          | false =>
              have hstep : checkNumbersAux (none :: rest) remaining false =
                  checkNumbersAux rest remaining true := by
                simp [checkNumbersAux]
              have hf : (none :: rest).filterMap id = rest.filterMap id := by simp
              rw [hstep, ih, hf, hc,
                show (cond true 1 0 : Nat) = 1 from rfl,
                show (cond false 1 0 : Nat) = 0 from rfl]

theorem length_eq_filterMap_add_count {α : Type _} (l : List (Option α)) :
    l.length = (l.filterMap id).length + blanksCount l := by
  induction l with
  | nil => simp
  | cons v rest ih =>
      cases v with
      | some v =>
          have hf : (some v :: rest).filterMap id = v :: rest.filterMap id := by simp
          rw [List.length_cons, hf, blanksCount_cons_some, List.length_cons, ih]
          omega
      | none =>
          have hf : (none :: rest).filterMap id = rest.filterMap id := by simp
          rw [List.length_cons, hf, blanksCount_cons_none, ih]
          omega

theorem option_list_perm {α : Type _} (l : List (Option α)) :
    l.Perm (List.replicate (blanksCount l) none ++ (l.filterMap id).map some) := by
  induction l with
  | nil => simp
  | cons v rest ih =>
      cases v with
      | some v =>
          have hf : (some v :: rest).filterMap id = v :: rest.filterMap id := by simp
          rw [hf, blanksCount_cons_some, List.map_cons]
          exact (ih.cons (some v)).trans List.perm_middle.symm
      | none =>
          have hf : (none :: rest).filterMap id = rest.filterMap id := by simp
          rw [hf, blanksCount_cons_none, List.replicate_succ]
          simpa using ih.cons none

theorem checkNumbers_ok_iff {n : Nat} (hn : 1 ≤ n) (b : Board n) :
    checkNumbers b = .ok () ↔ ValidBoard b := by
  rw [checkNumbers, checkNumbersAux_ok_iff]
  constructor
  · rintro ⟨hperm, hcount⟩
    have hlen : (boardValues b).length = n * n := by
      simp [boardValues, cellList_length]
    have hflen : ((boardValues b).filterMap id).length = n * n - 1 := by
      rw [hperm.length_eq]; simp
    have hcnt : blanksCount (boardValues b) = 1 := by
      have := length_eq_filterMap_add_count (boardValues b)
      have hsq : 1 ≤ n * n := Nat.one_le_iff_ne_zero.mpr (by positivity)
      simp only [cond] at hcount
      omega
    unfold ValidBoard
    refine (option_list_perm (boardValues b)).trans ?_
    rw [hcnt]
    simpa using (hperm.map some).cons none
  · intro hvalid
    unfold ValidBoard at hvalid
    constructor
    · have hr : (none :: (List.range (n * n - 1)).map fun k => some (k + 1)).filterMap id
          = (List.range (n * n - 1)).map fun k => k + 1 := by
        induction List.range (n * n - 1) with
        | nil => simp
        | cons a l ihl => simpa using ihl
      have h1 := hvalid.filterMap id
      rw [hr] at h1
      exact h1
    · have h1 := Perm.blanksCount_eq hvalid
      have h2 : blanksCount
          (none :: (List.range (n * n - 1)).map fun k => some (k + 1)) = 1 := by
        have h0 : blanksCount ((List.range (n * n - 1)).map fun k => some (k + 1)) = 0 := by
          unfold blanksCount
          rw [List.length_eq_zero]
          rw [List.filter_eq_nil_iff]
          intro a ha
          rcases List.mem_map.mp ha with ⟨k, -, rfl⟩
          simp
        rw [blanksCount_cons_none, h0]
      have h3 : blanksCount (boardValues b) = 1 := by
        unfold boardValues
        unfold boardValues at h1
        rw [h1, h2]
      rw [h3]
      decide

theorem cellList_coe_multiset (n : Nat) :
    ((cellList n : List (Fin n × Fin n)) : Multiset (Fin n × Fin n)) =
      (Finset.univ : Finset (Fin n × Fin n)).val := by
  have hnd := cellList_nodup n
  have htf : (cellList n).toFinset = (Finset.univ : Finset (Fin n × Fin n)) :=
    Finset.eq_univ_iff_forall.mpr fun rc => List.mem_toFinset.mpr (mem_cellList rc)
  calc ((cellList n : List _) : Multiset _) = (cellList n).dedup := by
        rw [List.dedup_eq_self.mpr hnd]
    _ = (cellList n).toFinset.val := rfl
    _ = (Finset.univ : Finset (Fin n × Fin n)).val := by rw [htf]

theorem cellList_map_equiv_perm {n : Nat} (e : Equiv.Perm (Fin n × Fin n)) :
    ((cellList n).map fun rc => e rc).Perm (cellList n) := by
  refine List.perm_of_nodup_nodup_toFinset_eq ?_ (cellList_nodup n) ?_
  · exact (cellList_nodup n).map (fun a b hab => e.injective hab)
  · ext x
    simp only [List.mem_toFinset, List.mem_map]
    constructor
    · intro _; exact mem_cellList x
    · intro _; exact ⟨e.symm x, mem_cellList _, e.apply_symm_apply x⟩

theorem boardValues_comp_equiv {n : Nat} (b : Board n) (e : Equiv.Perm (Fin n × Fin n)) :
    (boardValues fun r c => b (e (r, c)).1 (e (r, c)).2).Perm (boardValues b) := by
  have h1 : (boardValues fun r c => b (e (r, c)).1 (e (r, c)).2)
      = ((cellList n).map fun rc => e rc).map fun rc => b rc.1 rc.2 := by
    rw [List.map_map]
    rfl
  rw [h1]
  exact (cellList_map_equiv_perm e).map _

theorem ValidBoard.swapCells {n : Nat} {b : Board n} (h : ValidBoard b)
    (p q : Fin n × Fin n) :
    ValidBoard fun r c => b (Equiv.swap p q (r, c)).1 (Equiv.swap p q (r, c)).2 := by
  unfold ValidBoard at h ⊢
  exact (boardValues_comp_equiv b (Equiv.swap p q)).trans h

/-- `ParityCheckPermutation::from_numbers`: the row-major cell values with the
blank replaced by `n²` (`parity_check_permutation.rs`). -/
def parityCheckPermutation {n : Nat} (b : Board n) : List Nat :=
  (cellList n).map fun rc =>
    match b rc.1 rc.2 with
    | some v => v
    | none => n * n

/-- The inner loop of `ParityCheckPermutation::is_even`: walk the cycle that
starts at `beg`, erasing visited values from the not-checked set and counting
the steps.  The fuel is never exhausted on a genuine permutation, where the
walk returns to `beg` within `perm.length` steps. -/
def walkCycle (perm : List Nat) (beg : Nat) : Nat → Nat → List Nat → Nat × List Nat
  | 0, _, nc => (0, nc)
  | fuel + 1, idx, nc =>
      let cur := perm.getD idx 0
      if cur = beg then (0, nc)
      else
        let w := walkCycle perm beg fuel (cur - 1) (nc.erase cur)
        (w.1 + 1, w.2)

/-- The outer loop of `ParityCheckPermutation::is_even`: repeatedly pick the
next not-checked value as a cycle beginning (the source picks an arbitrary
element of a hash set; the resulting swap count does not depend on the pick
order, and the ascending order is used here), and sum the cycle walks. -/
def sumSwapsLoop (perm : List Nat) : Nat → List Nat → Nat
  | 0, _ => 0
  | _ + 1, [] => 0
  | fuel + 1, beg :: rest =>
      let w := walkCycle perm beg perm.length (beg - 1) rest
      w.1 + sumSwapsLoop perm fuel w.2

/-- `ParityCheckPermutation::is_even`: the swap count over all cycles is even.
The not-checked set starts as `{1, …, perm.length}`. -/
def isEvenPerm (perm : List Nat) : Prop :=
  sumSwapsLoop perm perm.length ((List.range perm.length).map fun k => k + 1) % 2 = 0

instance (perm : List Nat) : Decidable (isEvenPerm perm) := by
  unfold isEvenPerm; infer_instance

/-- `PuzzleState::is_solvable`: permutation parity and blank-distance parity
must agree. -/
def boardIsSolvable {n : Nat} [NeZero n] (b : Board n) : Prop :=
  (isEvenPerm (parityCheckPermutation b) ∧
    blankManhattanDistance (blankPos b) % 2 = 0) ∨
  (¬isEvenPerm (parityCheckPermutation b) ∧
    ¬blankManhattanDistance (blankPos b) % 2 = 0)

instance {n : Nat} [NeZero n] (b : Board n) : Decidable (boardIsSolvable b) := by
  unfold boardIsSolvable; infer_instance

/-- A heuristic, as the `Heuristic` trait: a cost estimate from the readable
cell array (`heuristics/mod.rs`). -/
def Heuristic (n : Nat) : Type := Board n → Nat

/-- `ManhattanDistance::calculate`: over the occupied cells, sum the Manhattan
distance from the actual cell to the tile's solved cell `((v-1)/n, (v-1)%n)`
(`heuristics/manhattan_distance.rs`). -/
def manhattanHeuristic {n : Nat} : Heuristic n := fun b =>
  ((cellList n).map fun rc =>
    match b rc.1 rc.2 with
    | some v => Nat.dist rc.1.val ((v - 1) / n) + Nat.dist rc.2.val ((v - 1) % n)
    | none => 0).sum

/-- `PuzzleState` (`puzzle_state/mod.rs`): the packed `u64` cell encoding. -/
structure PuzzleState (n : Nat) where
  numbers : Nat
deriving DecidableEq

/-- The internal constructor `PuzzleState { numbers: numbers_from_readable(...) }`. -/
def PuzzleState.ofBoard {n : Nat} (b : Board n) : PuzzleState n :=
  ⟨numbersFromReadable b⟩

/-- `PuzzleState::readable_numbers`. -/
def PuzzleState.readableNumbers {n : Nat} (s : PuzzleState n) : Board n :=
  numbersIntoReadable s.numbers

/-- `PuzzleState::new`: validate, then encode. -/
def PuzzleState.new {n : Nat} (b : Board n) : Except CreationError (PuzzleState n) :=
  match checkNumbers b with
  | .ok _ => .ok (PuzzleState.ofBoard b)
  | .error e => .error e

/-- `PuzzleState::is_solved`. -/
def PuzzleState.isSolved {n : Nat} [NeZero n] (s : PuzzleState n) : Prop :=
  boardIsSolved s.readableNumbers

instance {n : Nat} [NeZero n] (s : PuzzleState n) : Decidable s.isSolved := by
  unfold PuzzleState.isSolved; infer_instance

/-- `PuzzleState::is_solvable`. -/
def PuzzleState.isSolvable {n : Nat} [NeZero n] (s : PuzzleState n) : Prop :=
  boardIsSolvable s.readableNumbers

instance {n : Nat} [NeZero n] (s : PuzzleState n) : Decidable s.isSolvable := by
  unfold PuzzleState.isSolvable; infer_instance

/-- `PuzzleState::create_neighbour_move_state` at the `PuzzleState` level. -/
def PuzzleState.createNeighbourMoveState {n : Nat} [NeZero n] (s : PuzzleState n)
    (d : Direction) : PuzzleState n :=
  PuzzleState.ofBoard (Puzzle.createNeighbourMoveState s.readableNumbers d)

/-- `PuzzleState::neighbours`: each legal `Move` as direction and obtained state. -/
def PuzzleState.neighbours {n : Nat} [NeZero n] (s : PuzzleState n) :
    List (Direction × PuzzleState n) :=
  (boardNeighbours s.readableNumbers).map fun dm => (dm.1, PuzzleState.ofBoard dm.2)

/-- `PuzzleState::calculate_heuristic`. -/
def PuzzleState.calculateHeuristic {n : Nat} (s : PuzzleState n) (h : Heuristic n) :
    Nat :=
  h s.readableNumbers

/-- `Solution` from `lib.rs`. -/
structure Solution where
  steps : List Direction
  noOfVisitedStates : Nat
deriving DecidableEq

/-- `AstarStateError` from `astar_state.rs`. -/
inductive AstarStateError : Type where
  | initialStateNotSolvable : AstarStateError
deriving DecidableEq

/-- `AstarState` from `astar_state.rs`. -/
structure AstarState (n : Nat) where
  fValue : Nat
  lastDirection : Option Direction
  distanceFromStart : Nat
  puzzleState : PuzzleState n

/-- `AstarState::inital` (the source spells it so): reject unsolvable starts,
otherwise seed with `f = h(start)`, no last direction, distance 0. -/
def AstarState.inital {n : Nat} [NeZero n] (ps : PuzzleState n) (h : Heuristic n) :
    Except AstarStateError (AstarState n) :=
  if ps.isSolvable then
    .ok ⟨ps.calculateHeuristic h, none, 0, ps⟩
  else
    .error .initialStateNotSolvable

/-- `AstarState::moved_to_neighbour`: distance grows by one, `f = g + h`. -/
def AstarState.movedToNeighbour {n : Nat} (s : AstarState n) (d : Direction)
    (obtained : PuzzleState n) (h : Heuristic n) : AstarState n :=
  ⟨s.distanceFromStart + 1 + obtained.calculateHeuristic h, some d,
    s.distanceFromStart + 1, obtained⟩

/-- `AstarState::neighbours`. -/
def AstarState.neighbours {n : Nat} [NeZero n] (s : AstarState n) :
    List (Direction × PuzzleState n) :=
  s.puzzleState.neighbours

/-- `AstarState::is_solved`. -/
def AstarState.isSolved {n : Nat} [NeZero n] (s : AstarState n) : Prop :=
  s.puzzleState.isSolved

instance {n : Nat} [NeZero n] (s : AstarState n) : Decidable s.isSolved := by
  unfold AstarState.isSolved; infer_instance

/-- The `last_directions` provenance map, modelled as an association list with
`HashMap::get` as `lookupDir`. -/
def lookupDir {n : Nat} (m : List (PuzzleState n × Option Direction))
    (s : PuzzleState n) : Option (Option Direction) :=
  (m.find? fun e => decide (e.1 = s)).map fun e => e.2

/-- The loop of `AstarState::create_route`, walking provenance backwards; the
result is the reversed route.  Fuel `m.length + 1` always suffices because the
walk visits pairwise distinct states recorded in the map; a failed lookup
models the source's `expect` panic and is unreachable on search output. -/
def createRouteAux {n : Nat} [NeZero n] (m : List (PuzzleState n × Option Direction)) :
    Nat → PuzzleState n → Option Direction → Option (List Direction)
  | 0, _, _ => none
  | _ + 1, _, none => some []
  | fuel + 1, ps, some d =>
      let prev := ps.createNeighbourMoveState d.opposite
      match lookupDir m prev with
      | none => none
      | some d2 => (createRouteAux m fuel prev d2).map fun l => d :: l

/-- `AstarState::create_route`: walk back and reverse. -/
def AstarState.createRoute {n : Nat} [NeZero n] (s : AstarState n)
    (m : List (PuzzleState n × Option Direction)) : Option (List Direction) :=
  (createRouteAux m (m.length + 1) s.puzzleState s.lastDirection).map List.reverse

/-- The state of `solve_with_heuristic`'s loop: the current A* state, the
provenance map, and the frontier (`BinaryHeap` as a bag of states). -/
structure SolveLoopState (n : Nat) where
  curr : AstarState n
  lastDirections : List (PuzzleState n × Option Direction)
  frontier : List (AstarState n)

/-- A pop of Rust's `BinaryHeap<Reverse<AstarState>>`: some element whose
`f`-value is minimal is removed; which minimal element is unspecified. -/
def PopMin {n : Nat} (frontier : List (AstarState n)) (x : AstarState n)
    (rest : List (AstarState n)) : Prop :=
  (∃ i : Fin frontier.length, frontier.get i = x ∧ rest = frontier.eraseIdx i.val) ∧
    ∀ y ∈ frontier, x.fValue ≤ y.fValue

/-- The neighbour pushes of one expansion: neighbours whose state is not yet in
the (already updated) provenance map, in source order. -/
def expandPushes {n : Nat} [NeZero n] (h : Heuristic n) (x : AstarState n)
    (m : List (PuzzleState n × Option Direction)) : List (AstarState n) :=
  (x.neighbours.filter fun dm => (lookupDir m dm.2).isNone).map
    fun dm => x.movedToNeighbour dm.1 dm.2 h

/-- One iteration of the `while !curr_state.is_solved()` loop in
`solve_with_heuristic` (`lib.rs`): pop a minimal-`f` state; if its
configuration is already recorded, only the current state changes; otherwise
record its direction, then push the not-yet-recorded neighbours. -/
inductive SolveStep {n : Nat} [NeZero n] (h : Heuristic n) :
    SolveLoopState n → SolveLoopState n → Prop
  | skip (st : SolveLoopState n) (x : AstarState n) (rest : List (AstarState n))
      (hns : ¬st.curr.isSolved) (hpop : PopMin st.frontier x rest)
      (hvisited : lookupDir st.lastDirections x.puzzleState ≠ none) :
      SolveStep h st ⟨x, st.lastDirections, rest⟩
  | expand (st : SolveLoopState n) (x : AstarState n) (rest : List (AstarState n))
      (hns : ¬st.curr.isSolved) (hpop : PopMin st.frontier x rest)
      (hnew : lookupDir st.lastDirections x.puzzleState = none) :
      SolveStep h st
        ⟨x, st.lastDirections ++ [(x.puzzleState, x.lastDirection)],
          rest ++ expandPushes h x
            (st.lastDirections ++ [(x.puzzleState, x.lastDirection)])⟩

/-- Zero or more loop iterations. -/
def SolveReaches {n : Nat} [NeZero n] (h : Heuristic n) :
    SolveLoopState n → SolveLoopState n → Prop :=
  Relation.ReflTransGen (SolveStep h)

/-- The observable behaviour of `solve_with_heuristic`: `none` exactly when the
solvability check fails, otherwise the route of the final (solved) loop state
together with the size of the provenance map as the visited-state count. -/
inductive SolveWithHeuristicR {n : Nat} [NeZero n] (h : Heuristic n)
    (ps : PuzzleState n) : Option Solution → Prop
  | unsolvable (e : AstarStateError) (herr : AstarState.inital ps h = .error e) :
      SolveWithHeuristicR h ps none
  | solved (c0 : AstarState n) (stf : SolveLoopState n) (route : List Direction)
      (hok : AstarState.inital ps h = .ok c0)
      (hrun : SolveReaches h ⟨c0, [], [c0]⟩ stf)
      (hsolved : stf.curr.isSolved)
      (hroute : stf.curr.createRoute stf.lastDirections = some route) :
      SolveWithHeuristicR h ps (some ⟨route, stf.lastDirections.length⟩)

/-- The solved 4×4 configuration as a `PuzzleState`. -/
def goalState4 : PuzzleState 4 := PuzzleState.ofBoard (goalBoard 4)

theorem goalState4_isSolved : goalState4.isSolved := by decide

theorem goalState4_isSolvable : goalState4.isSolvable := by decide

theorem inital_of_solvable {n : Nat} [NeZero n] (ps : PuzzleState n)
    (h : Heuristic n) (hs : ps.isSolvable) :
    AstarState.inital ps h = .ok ⟨ps.calculateHeuristic h, none, 0, ps⟩ := by
  unfold AstarState.inital
  rw [if_pos hs]

theorem createRoute_of_none {n : Nat} [NeZero n] (s : AstarState n)
    (m : List (PuzzleState n × Option Direction)) (hdir : s.lastDirection = none) :
    s.createRoute m = some [] := by
  unfold AstarState.createRoute
  rw [hdir]
  rfl

theorem solve_on_goal_helper (h : Heuristic 4) :
    SolveWithHeuristicR h goalState4 (some ⟨[], 0⟩) ∧
      ∀ r, SolveWithHeuristicR h goalState4 r → r = some ⟨[], 0⟩ := by
  have hok := inital_of_solvable goalState4 h goalState4_isSolvable
  constructor
  · exact SolveWithHeuristicR.solved _ ⟨_, [], [_]⟩ []
      hok (Relation.ReflTransGen.refl) goalState4_isSolved
      (createRoute_of_none _ _ rfl)
  · intro r hr
    cases hr with
    | unsolvable e herr => rw [hok] at herr; exact absurd herr (by simp)
    | solved c0 stf route hok2 hrun hsolved hroute =>
        rw [hok] at hok2
        have hc0 : c0 = ⟨goalState4.calculateHeuristic h, none, 0, goalState4⟩ := by
          cases hok2; rfl
        subst hc0
        have hstf : stf = ⟨⟨goalState4.calculateHeuristic h, none, 0, goalState4⟩,
            [], [⟨goalState4.calculateHeuristic h, none, 0, goalState4⟩]⟩ := by
          rcases Relation.ReflTransGen.cases_head hrun with heq | ⟨c, hstep, -⟩
          · exact heq.symm
          · cases hstep with
            | skip _ _ hns => exact absurd goalState4_isSolved hns
            | expand _ _ hns => exact absurd goalState4_isSolved hns
        subst hstf
        rw [createRoute_of_none _ _ rfl] at hroute
        cases hroute
        rfl

/-- C6 (counterexample): on the already-solved 4×4 goal configuration,
`solve_with_heuristic` does not return a solution with visited-state count 1 —
the loop body never runs, so the provenance map stays empty. -/
theorem C6_visited_one_false :
    ¬ SolveWithHeuristicR manhattanHeuristic goalState4
        (some { steps := [], noOfVisitedStates := 1 }) := by
  intro hcontra
  have := (solve_on_goal_helper manhattanHeuristic).2 _ hcontra
  have h01 : (1 : Nat) = 0 := congrArg
    (fun r : Option Solution => (r.map Solution.noOfVisitedStates).getD 7) this
  exact absurd h01 (by simp)

/-- C6 (amended): calling `solve_with_heuristic` on the already-solved 4×4 goal
configuration, with any heuristic, returns `Some` solution whose direction
sequence is empty and whose visited-state count equals 0. -/
theorem C6_solve_on_goal (h : Heuristic 4) (r : Option Solution)
    (hr : SolveWithHeuristicR h goalState4 r) :
    r = some { steps := [], noOfVisitedStates := 0 } ∧
      SolveWithHeuristicR h goalState4 (some { steps := [], noOfVisitedStates := 0 }) :=
  ⟨(solve_on_goal_helper h).2 r hr, (solve_on_goal_helper h).1⟩

/-- C6 witness: the amended theorem applied at the Manhattan heuristic and the
behaviour established for it. -/
theorem C6_solve_on_goal_witness :
    (some { steps := [], noOfVisitedStates := 0 } : Option Solution)
        = some { steps := [], noOfVisitedStates := 0 } ∧
      SolveWithHeuristicR manhattanHeuristic goalState4
        (some { steps := [], noOfVisitedStates := 0 }) :=
  C6_solve_on_goal manhattanHeuristic _ (solve_on_goal_helper manhattanHeuristic).1

/-- `PuzzleStateParseError` from `puzzle_state/errors.rs`, together with the
`From<PuzzleStateCreationError>` conversion. -/
inductive ParseError : Type where
  | noBrackets : ParseError
  | notEnoughNumbers : ParseError
  | tooManyNumbers : ParseError
  | numberParseError : ParseError
  | notPermutation : ParseError
  | twoBlanks : ParseError
deriving DecidableEq

/-- `From<PuzzleStateCreationError> for PuzzleStateParseError`. -/
def CreationError.toParseError : CreationError → ParseError
  | .notPermutation => .notPermutation
  | .twoBlanks => .twoBlanks

/-- Text is modelled as a list of characters.  `str::trim`: strip whitespace
from both ends (the source strips the full Unicode whitespace set; only the ASCII
whitespace matters for the texts produced and consumed here). -/
def trimChars (s : List Char) : List Char :=
  ((s.dropWhile Char.isWhitespace).reverse.dropWhile Char.isWhitespace).reverse

/-- `u8::from_str`: an optional leading plus sign, then one or more ASCII
digits, rejecting values above `u8::MAX`. -/
def parseU8 (s : List Char) : Option Nat :=
  let digs := if s.head? = some '+' then s.tail else s
  if digs = [] then none
  else if digs.all Char.isDigit then
    let v := digs.foldl (fun acc c => acc * 10 + (c.toNat - 48)) 0
    if v ≤ 255 then some v else none
  else none

/-- The cell-filling loop of `FromStr for PuzzleState`: take the next
comma-separated member for each of the `n²` cells, a trimmed empty member
denoting the blank; return the leftover members for the too-many check. -/
def parseCellsAux : Nat → List (List Char) →
    Except ParseError (List (Option Nat) × List (List Char))
  | 0, members => .ok ([], members)
  | _ + 1, [] => .error .notEnoughNumbers
  | k + 1, m :: rest =>
      let t := trimChars m
      if t = [] then
        (parseCellsAux k rest).map fun cr => (none :: cr.1, cr.2)
      else
        match parseU8 t with
        | some v => (parseCellsAux k rest).map fun cr => (some v :: cr.1, cr.2)
        | none => .error .numberParseError

/-- A board from the row-major cell list just parsed. -/
def boardOfCells {n : Nat} (cells : List (Option Nat)) : Board n := fun r c =>
  cells.getD (flatIdx (r, c)) none

/-- The possible outcomes of `FromStr for PuzzleState`: a state, a classified
error, or a panic.  The panic arises from the slice
`&s[permutation_start_index..permutation_end_index]` when the start index
exceeds the end index. -/
inductive ParseOutcome (n : Nat) : Type where
  | ok : PuzzleState n → ParseOutcome n
  | err : ParseError → ParseOutcome n
  | panic : ParseOutcome n
deriving DecidableEq

/-- `str::find(char)`: the index of the first occurrence. -/
def firstIdxOf (c : Char) : List Char → Option Nat
  | [] => none
  | a :: t => if a = c then some 0 else (firstIdxOf c t).map fun i => i + 1

/-- `FromStr for PuzzleState` (`puzzle_state/mod.rs`): trim, locate the first
`[` and the first `]` (each missing one is `NoBrackets`), slice between them
(a reversed pair of brackets makes the slice panic), split on commas, fill the
cells, reject leftovers, and validate via `PuzzleState::new`. -/
def fromStrChars (n : Nat) [NeZero n] (s : List Char) : ParseOutcome n :=
  match firstIdxOf '[' (trimChars s), firstIdxOf ']' (trimChars s) with
  | none, _ => .err .noBrackets
  | some _, none => .err .noBrackets
  | some i, some j =>
      if i + 1 ≤ j then
        match parseCellsAux (n * n)
            ((((trimChars s).drop (i + 1)).take (j - (i + 1))).splitOn ',') with
        | .error e => .err e
        | .ok (cells, leftover) =>
            if leftover ≠ [] then .err .tooManyNumbers
            else
              match PuzzleState.new (@boardOfCells n cells) with
              | .ok st => .ok st
              | .error e => .err e.toParseError
      else .panic

/-- The decimal digits of a value, as written by `u8::to_string`. -/
def natToCharsAux : Nat → Nat → List Char → List Char
  | 0, _, acc => acc
  | fuel + 1, v, acc =>
      let d := Char.ofNat (48 + v % 10)
      if v < 10 then d :: acc else natToCharsAux fuel (v / 10) (d :: acc)

/-- `u8::to_string` on a tile value. -/
def natToChars (v : Nat) : List Char := natToCharsAux (v + 1) v []

/-- One cell of `Display for PuzzleState`: the tile's decimal digits, or the
empty text for the blank. -/
def renderCell : Option Nat → List Char
  | some v => natToChars v
  | none => []

/-- `Display for PuzzleState`: the row-major cells joined by a comma and a
space, wrapped in brackets. -/
def renderBoard {n : Nat} (b : Board n) : List Char :=
  '[' :: (List.intercalate [',', ' ']
    ((cellList n).map fun rc => renderCell (b rc.1 rc.2))) ++ [']']

/-- `PuzzleState::to_string`. -/
def PuzzleState.render {n : Nat} (s : PuzzleState n) : List Char :=
  renderBoard s.readableNumbers

theorem dropWhile_eq_self_of_clean {p : Char → Bool} {l : List Char}
    (h : ∀ c ∈ l, ¬p c) : l.dropWhile p = l := by
  cases l with
  | nil => rfl
  | cons a t => rw [List.dropWhile_cons_of_neg (by simpa using h a (by simp))]

/-- Trimming is the identity on whitespace-free text. -/
theorem trimChars_of_clean {l : List Char} (h : ∀ c ∈ l, ¬c.isWhitespace) :
    trimChars l = l := by
  unfold trimChars
  rw [dropWhile_eq_self_of_clean h,
    dropWhile_eq_self_of_clean (fun c hc => h c (List.mem_reverse.mp hc)),
    List.reverse_reverse]

/-- Trimming strips one leading space from whitespace-free text. -/
theorem trimChars_space_cons {l : List Char} (h : ∀ c ∈ l, ¬c.isWhitespace) :
    trimChars (' ' :: l) = l := by
  unfold trimChars
  rw [List.dropWhile_cons_of_pos (by rfl),
    dropWhile_eq_self_of_clean h,
    dropWhile_eq_self_of_clean (fun c hc => h c (List.mem_reverse.mp hc)),
    List.reverse_reverse]

theorem natToCharsAux_acc (fuel : Nat) : ∀ (v : Nat) (acc : List Char),
    natToCharsAux fuel v acc = natToCharsAux fuel v [] ++ acc := by
  induction fuel with
  | zero => intro v acc; rfl
  | succ fuel ih =>
      intro v acc
      show (if v < 10 then _ else _) = (if v < 10 then _ else _) ++ acc
      by_cases hv : v < 10
      · rw [if_pos hv, if_pos hv]
        rfl
      · rw [if_neg hv, if_neg hv, ih (v / 10) (Char.ofNat (48 + v % 10) :: acc),
          ih (v / 10) [Char.ofNat (48 + v % 10)], List.append_assoc]
        rfl

theorem natToCharsAux_fuel_eq : ∀ (v f1 f2 : Nat) (acc : List Char), v < f1 → v < f2 →
    natToCharsAux f1 v acc = natToCharsAux f2 v acc := by
  intro v
  induction v using Nat.strong_induction_on with
  | _ v ih =>
      intro f1 f2 acc h1 h2
      cases f1 with
      | zero => omega
      | succ f1 =>
          cases f2 with
          | zero => omega
          | succ f2 =>
              show (if v < 10 then _ else _) = (if v < 10 then _ else _)
              by_cases hv : v < 10
              · rw [if_pos hv, if_pos hv]
              · rw [if_neg hv, if_neg hv]
                have hdiv : v / 10 < v := Nat.div_lt_self (by omega) (by omega)
                exact ih (v / 10) hdiv f1 f2 _ (by omega) (by omega)

theorem natToChars_step {v : Nat} (hv : 10 ≤ v) :
    natToChars v = natToChars (v / 10) ++ [Char.ofNat (48 + v % 10)] := by
  show natToCharsAux (v + 1) v [] = _
  have h1 : natToCharsAux (v + 1) v [] =
      natToCharsAux v (v / 10) [Char.ofNat (48 + v % 10)] := by
    show (if v < 10 then _ else _) = _
    rw [if_neg (by omega)]
  have hdiv : v / 10 < v := Nat.div_lt_self (by omega) (by omega)
  rw [h1, natToCharsAux_acc, natToCharsAux_fuel_eq (v / 10) v (v / 10 + 1) [] hdiv
    (by omega)]
  rfl

theorem natToChars_base {v : Nat} (hv : v < 10) :
    natToChars v = [Char.ofNat (48 + v)] := by
  show (if v < 10 then _ else _) = _
  rw [if_pos hv]
  have : v % 10 = v := Nat.mod_eq_of_lt hv
  rw [this]

theorem digitChar_isDigit {d : Nat} (hd : d < 10) :
    (Char.ofNat (48 + d)).isDigit := by
  interval_cases d <;> decide

theorem digitChar_toNat {d : Nat} (hd : d < 10) :
    (Char.ofNat (48 + d)).toNat = 48 + d := by
  interval_cases d <;> decide

theorem natToChars_ne_nil (v : Nat) : natToChars v ≠ [] := by
  by_cases hv : v < 10
  · rw [natToChars_base hv]; simp
  · rw [natToChars_step (by omega)]; simp

theorem digitChar_not_whitespace {d : Nat} (hd : d < 10) :
    ¬(Char.ofNat (48 + d)).isWhitespace := by
  interval_cases d <;> decide

theorem natToChars_struct (v : Nat) :
    ∀ c ∈ natToChars v, ∃ d, d < 10 ∧ c = Char.ofNat (48 + d) := by
  induction v using Nat.strong_induction_on with
  | _ v ih =>
      by_cases hv : v < 10
      · rw [natToChars_base hv]
        intro c hc
        rw [List.mem_singleton] at hc
        exact ⟨v, hv, hc⟩
      · rw [natToChars_step (by omega)]
        intro c hc
        rcases List.mem_append.mp hc with hc | hc
        · exact ih (v / 10) (Nat.div_lt_self (by omega) (by omega)) c hc
        · rw [List.mem_singleton] at hc
          exact ⟨v % 10, Nat.mod_lt _ (by omega), hc⟩

theorem natToChars_all_digits (v : Nat) : ∀ c ∈ natToChars v, c.isDigit := by
  intro c hc
  rcases natToChars_struct v c hc with ⟨d, hd, rfl⟩
  exact digitChar_isDigit hd

theorem charsVal_natToChars (v : Nat) :
    (natToChars v).foldl (fun acc c => acc * 10 + (c.toNat - 48)) 0 = v := by
  induction v using Nat.strong_induction_on with
  | _ v ih =>
      by_cases hv : v < 10
      · rw [natToChars_base hv]
        show 0 * 10 + ((Char.ofNat (48 + v)).toNat - 48) = v
        rw [digitChar_toNat hv]
        omega
      · rw [natToChars_step (by omega), List.foldl_append]
        rw [ih (v / 10) (Nat.div_lt_self (by omega) (by omega))]
        show v / 10 * 10 + ((Char.ofNat (48 + v % 10)).toNat - 48) = v
        rw [digitChar_toNat (Nat.mod_lt _ (by omega))]
        omega

theorem parseU8_natToChars {v : Nat} (hv : v ≤ 255) :
    parseU8 (natToChars v) = some v := by
  have hne := natToChars_ne_nil v
  have hdigs := natToChars_all_digits v
  have hhead : (natToChars v).head? ≠ some '+' := by
    cases hh : natToChars v with
    | nil => exact absurd hh hne
    | cons c t =>
        have hc : c.isDigit := hdigs c (by rw [hh]; simp)
        simp only [List.head?_cons]
        intro hcon
        rw [Option.some_inj] at hcon
        subst hcon
        exact absurd hc (by decide)
  unfold parseU8
  rw [if_neg hhead, if_neg hne, if_pos (by
    rw [List.all_eq_true]
    intro c hc
    exact hdigs c hc)]
  rw [charsVal_natToChars v, if_pos hv]

theorem firstIdxOf_append {c : Char} {l : List Char} (hl : c ∉ l) (r : List Char) :
    firstIdxOf c (l ++ c :: r) = some l.length := by
  induction l with
  | nil => simp [firstIdxOf]
  | cons a t ih =>
      have ha : ¬a = c := fun h => hl (by simp [h])
      rw [List.cons_append]
      show (if a = c then some 0 else (firstIdxOf c (t ++ c :: r)).map fun i => i + 1)
        = some (t.length + 1)
      rw [if_neg ha, ih (fun h => hl (by simp [h]))]
      rfl

theorem trimChars_eq_self {s : List Char} {a z : Char}
    (hhead : s.head? = some a) (ha : ¬a.isWhitespace)
    (hlast : s.getLast? = some z) (hz : ¬z.isWhitespace) :
    trimChars s = s := by
  unfold trimChars
  have h1 : s.dropWhile Char.isWhitespace = s := by
    cases s with
    | nil => rfl
    | cons x t =>
        have hx : x = a := by simpa using hhead
        rw [List.dropWhile_cons_of_neg]
        rw [hx]
        simpa using ha
  rw [h1]
  have h2 : s.reverse.dropWhile Char.isWhitespace = s.reverse := by
    cases hrev : s.reverse with
    | nil => rfl
    | cons x t =>
        have hx : x = z := by
          have hh := List.head?_reverse s
          rw [hrev, hlast] at hh
          simpa using hh
        rw [List.dropWhile_cons_of_neg]
        rw [hx]
        simpa using hz
  rw [h2, List.reverse_reverse]

theorem intercalate_eq_flatMap {α : Type _} (sep : List α) (p : List α)
    (ps : List (List α)) :
    List.intercalate sep (p :: ps) = p ++ ps.flatMap fun q => sep ++ q := by
  induction ps generalizing p with
  | nil => simp [List.intercalate]
  | cons q qs ih =>
      have hstep : List.intercalate sep (p :: q :: qs)
          = p ++ sep ++ List.intercalate sep (q :: qs) := by
        simp [List.intercalate, List.intersperse]
      rw [hstep, ih q]
      simp [List.flatMap_cons, List.append_assoc]

theorem intercalate_comma_space (p : List Char) (ps : List (List Char)) :
    List.intercalate [',', ' '] (p :: ps)
      = List.intercalate [','] (p :: ps.map fun q => ' ' :: q) := by
  rw [intercalate_eq_flatMap, intercalate_eq_flatMap, List.flatMap_map]
  rfl

theorem parseCellsAux_spec {vs : List (Option Nat)} {ms : List (List Char)}
    (h : List.Forall₂ (fun (m : List Char) (v : Option Nat) =>
      trimChars m = renderCell v ∧ ∀ x, v = some x → x ≤ 255) ms vs) :
    parseCellsAux vs.length ms = .ok (vs, []) := by
  induction h with
  | nil => rfl
  | cons hmv htail ih =>
      rename_i m v ms2 vs2
      show parseCellsAux (vs2.length + 1) (m :: ms2) = _
      cases v with
      | none =>
          have ht : trimChars m = [] := hmv.1
          show (if trimChars m = [] then _ else _) = _
          rw [if_pos ht, ih]
          rfl
      | some x =>
          have ht : trimChars m = natToChars x := hmv.1
          have hx : x ≤ 255 := hmv.2 x rfl
          show (if trimChars m = [] then _ else _) = _
          rw [if_neg (by rw [ht]; exact natToChars_ne_nil x), ht,
            parseU8_natToChars hx, ih]
          rfl

theorem cellList_map_getD_gen {n : Nat} {β : Type _} (f : Fin n × Fin n → β) (d : β)
    (rc : Fin n × Fin n) :
    (((cellList n).map f).getD (flatIdx rc) d) = f rc := by
  have hlt : flatIdx rc < ((cellList n).map f).length := by
    simpa [cellList_length] using flatIdx_lt rc
  rw [List.getD_eq_getElem _ _ hlt, List.getElem_map]
  unfold cellList
  rw [List.getElem_map, List.getElem_finRange]
  congr 1
  exact cellOfIdx_flatIdx rc

theorem boardOfCells_boardValues {n : Nat} (b : Board n) :
    @boardOfCells n (boardValues b) = b := by
  funext r c
  exact cellList_map_getD_gen (fun rc => b rc.1 rc.2) none (r, c)

theorem renderCell_clean {n : Nat} (hn : n ≤ 4) {b : Board n} (hb : ValidBoard b)
    (rc : Fin n × Fin n) :
    ∀ c ∈ renderCell (b rc.1 rc.2), c.isDigit := by
  intro c hc
  cases hv : b rc.1 rc.2 with
  | none => rw [hv] at hc; exact absurd hc (by simp [renderCell])
  | some v =>
      rw [hv] at hc
      exact natToChars_all_digits v c hc

theorem boardValues_range {n : Nat} (hn : n ≤ 4) {b : Board n} (hb : ValidBoard b) :
    ∀ v ∈ boardValues b, ∀ x, v = some x → x ≤ 255 := by
  intro v hv x hx
  subst hx
  rcases List.mem_map.mp hv with ⟨rc, -, hrc⟩
  have := hb.mem_values hrc
  have hsq : n * n ≤ 16 := Nat.mul_le_mul hn hn
  omega

theorem members_forall2 (v0 : Option Nat) (vs : List (Option Nat))
    (h0 : ∀ x, v0 = some x → x ≤ 255)
    (hr : ∀ v ∈ vs, ∀ x, v = some x → x ≤ 255) :
    List.Forall₂ (fun (m : List Char) (v : Option Nat) =>
        trimChars m = renderCell v ∧ ∀ x, v = some x → x ≤ 255)
      (renderCell v0 :: vs.map fun v => ' ' :: renderCell v) (v0 :: vs) := by
  have hclean : ∀ v : Option Nat, ∀ c ∈ renderCell v, ¬c.isWhitespace := by
    intro v c hc
    cases v with
    | none => exact absurd hc (by simp [renderCell])
    | some x =>
        rcases natToChars_struct x c hc with ⟨d, hd, rfl⟩
        exact digitChar_not_whitespace hd
  refine List.Forall₂.cons ⟨trimChars_of_clean (hclean v0), h0⟩ ?_
  rw [List.forall₂_map_left_iff]
  rw [List.forall₂_same]
  intro v hv
  exact ⟨trimChars_space_cons (hclean v), hr v hv⟩

theorem fromStr_renderBoard {n : Nat} [NeZero n] (hn : n ≤ 4) (b : Board n)
    (hb : ValidBoard b) :
    fromStrChars n (renderBoard b) = .ok (PuzzleState.ofBoard b) := by
  have hpos := NeZero.pos n
  have hpieces2 : ((cellList n).map fun rc => renderCell (b rc.1 rc.2))
      = (boardValues b).map renderCell := by
    rw [boardValues, List.map_map]
    rfl
  have hvslen : (boardValues b).length = n * n := by
    simp [boardValues, cellList_length]
  obtain ⟨v0, vs, hvcons⟩ : ∃ v0 vs, boardValues b = v0 :: vs := by
    cases hv : boardValues b with
    | nil => rw [hv] at hvslen; simp at hvslen; omega
    | cons a t => exact ⟨a, t, rfl⟩
  have hmid : List.intercalate [',', ' ']
      ((cellList n).map fun rc => renderCell (b rc.1 rc.2))
      = List.intercalate [',']
        (renderCell v0 :: (vs.map fun v => ' ' :: renderCell v)) := by
    rw [hpieces2, hvcons, List.map_cons]
    rw [intercalate_comma_space]
    congr 1
    rw [List.map_map]
    rfl
  set mid := List.intercalate [',', ' ']
    ((cellList n).map fun rc => renderCell (b rc.1 rc.2)) with hmiddef
  have hrange := boardValues_range hn hb
  have hmid_chars : ∀ c ∈ mid, c.isDigit ∨ c = ',' ∨ c = ' ' := by
    intro c hc
    rw [hmiddef, hpieces2, hvcons, List.map_cons, intercalate_eq_flatMap] at hc
    rcases List.mem_append.mp hc with hc | hc
    · left
      cases v0 with
      | none => exact absurd hc (by simp [renderCell])
      | some x => exact natToChars_all_digits x c hc
    · rcases List.mem_flatMap.mp hc with ⟨q, hq, hcq⟩
      rcases List.mem_append.mp hcq with hsep | hcq
      · rcases (by simpa using hsep : c = ',' ∨ c = ' ') with h | h
        · exact Or.inr (Or.inl h)
        · exact Or.inr (Or.inr h)
      · rcases List.mem_map.mp hq with ⟨v, -, rfl⟩
        left
        cases v with
        | none => exact absurd hcq (by simp [renderCell])
        | some x => exact natToChars_all_digits x c hcq
  have hrender : renderBoard b = '[' :: mid ++ [']'] := rfl
  have hne_rsb : ']' ∉ mid := by
    intro hmem
    rcases hmid_chars _ hmem with h | h | h
    · exact absurd h (by decide)
    · exact absurd h (by decide)
    · exact absurd h (by decide)
  have htrim : trimChars (renderBoard b) = renderBoard b := by
    refine @trimChars_eq_self _ '[' ']' ?_ (by decide) ?_ (by decide)
    · rw [hrender]; rfl
    · rw [hrender]
      show ('[' :: mid ++ [']']).getLast? = some ']'
      have : '[' :: mid ++ [']'] = ('[' :: mid) ++ [']'] := by simp
      rw [this]
      exact List.getLast?_concat _
  have hfind1 : firstIdxOf '[' (renderBoard b) = some 0 := by
    rw [hrender]
    show (if '[' = '[' then some 0 else _) = some 0
    rw [if_pos rfl]
  have hfind2 : firstIdxOf ']' (renderBoard b) = some (mid.length + 1) := by
    rw [hrender]
    show (if '[' = ']' then some 0
      else (firstIdxOf ']' (mid ++ [']'])).map fun i => i + 1) = some (mid.length + 1)
    rw [if_neg (by decide)]
    have : mid ++ [']'] = mid ++ ']' :: [] := rfl
    rw [this, firstIdxOf_append hne_rsb]
    rfl
  have hslice : ((renderBoard b).drop (0 + 1)).take (mid.length + 1 - (0 + 1)) = mid := by
    rw [hrender]
    show (('[' :: (mid ++ [']'])).drop 1).take (mid.length + 1 - 1) = mid
    rw [List.drop_succ_cons, List.drop_zero, Nat.add_sub_cancel]
    exact List.take_left mid [']']
  have hsplit : mid.splitOn ',' = renderCell v0 :: (vs.map fun v => ' ' :: renderCell v) := by
    rw [hmid]
    refine List.splitOn_intercalate _ ',' ?_ (by simp)
    intro l hl
    rcases List.mem_cons.mp hl with rfl | hl
    · intro hc
      cases hv0 : v0 with
      | none => rw [hv0] at hc; exact absurd hc (by simp [renderCell])
      | some x =>
          rw [hv0] at hc
          exact absurd (natToChars_all_digits x ',' hc) (by decide)
    · rcases List.mem_map.mp hl with ⟨v, -, rfl⟩
      intro hc
      rcases List.mem_cons.mp hc with h | h
      · exact absurd h (by decide)
      · cases hv' : v with
        | none => rw [hv'] at h; exact absurd h (by simp [renderCell])
        | some x =>
            rw [hv'] at h
            exact absurd (natToChars_all_digits x ',' h) (by decide)
  have hcells : parseCellsAux (n * n) (mid.splitOn ',') = .ok (boardValues b, []) := by
    rw [hsplit, ← hvslen, hvcons]
    exact parseCellsAux_spec (members_forall2 v0 vs
      (hrange v0 (by rw [hvcons]; simp))
      (fun v hv => hrange v (by rw [hvcons]; simp [hv])))
  have hnew : PuzzleState.new (@boardOfCells n (boardValues b))
      = .ok (PuzzleState.ofBoard b) := by
    rw [boardOfCells_boardValues]
    unfold PuzzleState.new
    rw [(checkNumbers_ok_iff hpos b).mpr hb]
  unfold fromStrChars
  rw [htrim, hfind1, hfind2]
  show (if 0 + 1 ≤ mid.length + 1 then _ else ParseOutcome.panic) = _
  rw [if_pos (by omega)]
  rw [hslice, hcells]
  show (if ¬([] : List (List Char)) = [] then _ else _) = _
  rw [if_neg (by simp)]
  rw [hnew]

theorem firstIdxOf_some {c : Char} : ∀ {l : List Char} {i : Nat},
    firstIdxOf c l = some i → ∃ h : i < l.length, l.get ⟨i, h⟩ = c := by
  intro l
  induction l with
  | nil => intro i h; exact absurd h (by simp [firstIdxOf])
  | cons a t ih =>
      intro i h
      rw [show firstIdxOf c (a :: t)
        = if a = c then some 0 else (firstIdxOf c t).map fun i => i + 1 from rfl] at h
      by_cases ha : a = c
      · rw [if_pos ha] at h
        cases h
        exact ⟨by simp, ha⟩
      · rw [if_neg ha] at h
        cases hfi : firstIdxOf c t with
        | none => rw [hfi] at h; exact absurd h (by simp)
        | some k =>
            rw [hfi] at h
            have hik : i = k + 1 := by
              have h2 : some (k + 1) = some i := h
              exact (Option.some_inj.mp h2).symm
            subst hik
            rcases ih hfi with ⟨hk, hget⟩
            refine ⟨by simpa using hk, ?_⟩
            simpa using hget

/-- C8: decoding after encoding is the identity on valid boards, and rendering
a valid configuration, parsing that text, and rendering again reproduces the
original text. -/
theorem C8_roundtrips {n : Nat} [NeZero n] (hn : n ≤ 4) (b : Board n)
    (hb : ValidBoard b) :
    numbersIntoReadable (numbersFromReadable b) = b ∧
      fromStrChars n (renderBoard b) = .ok (PuzzleState.ofBoard b) ∧
      ∀ s : PuzzleState n, fromStrChars n (renderBoard b) = .ok s →
        s.render = renderBoard b := by
  have hrt := roundtrip_readable b (hb.fieldsInRange hn)
  refine ⟨hrt, fromStr_renderBoard hn b hb, ?_⟩
  intro s hs
  rw [fromStr_renderBoard hn b hb] at hs
  have hsb : s = PuzzleState.ofBoard b := by
    cases hs
    rfl
  subst hsb
  show renderBoard (PuzzleState.ofBoard b).readableNumbers = renderBoard b
  have : (PuzzleState.ofBoard b).readableNumbers = b := hrt
  rw [this]

/-- C8 witness: the round trips evaluated at the solved 4×4 board. -/
theorem C8_roundtrips_witness :
    numbersIntoReadable (numbersFromReadable (goalBoard 4)) = goalBoard 4 ∧
      fromStrChars 4 (renderBoard (goalBoard 4)) = .ok (PuzzleState.ofBoard (goalBoard 4)) ∧
      ∀ s : PuzzleState 4, fromStrChars 4 (renderBoard (goalBoard 4)) = .ok s →
        s.render = renderBoard (goalBoard 4) :=
  C8_roundtrips (by omega) (goalBoard 4) (by decide)

/-- C10 (counterexample): on the input whose first `]` precedes the first `[`,
the slice bounds in `from_str` are reversed and the parse panics instead of
returning a classified error. -/
theorem C10_panic_on_reversed_brackets :
    fromStrChars 4 [']', '['] = ParseOutcome.panic := by decide

/-- C10 (amended): for every input in which it is not the case that the first
`]` of the trimmed text precedes the first `[`, parsing is total: it returns
`Ok` of a valid configuration or a classified parse error, and never panics. -/
theorem C10_parse_total {n : Nat} [NeZero n] (hn : n ≤ 4) (s : List Char)
    (hno : ¬∃ i j, firstIdxOf '[' (trimChars s) = some i ∧
      firstIdxOf ']' (trimChars s) = some j ∧ j < i) :
    (∃ st : PuzzleState n, fromStrChars n s = .ok st ∧ ValidBoard st.readableNumbers) ∨
      (∃ e, fromStrChars n s = .err e) := by
  cases h1 : firstIdxOf '[' (trimChars s) with
  | none => exact Or.inr ⟨.noBrackets, by simp only [fromStrChars, h1]⟩
  | some i =>
      cases h2 : firstIdxOf ']' (trimChars s) with
      | none => exact Or.inr ⟨.noBrackets, by simp only [fromStrChars, h1, h2]⟩
      | some j =>
          simp only [fromStrChars, h1, h2]
          have hij : i + 1 ≤ j := by
            have hne : i ≠ j := by
              intro hcon
              rcases firstIdxOf_some h1 with ⟨hi, hgi⟩
              rcases firstIdxOf_some h2 with ⟨hj, hgj⟩
              subst hcon
              rw [hgi] at hgj
              exact absurd hgj (by decide)
            have : ¬j < i := fun hcon => hno ⟨i, j, h1, h2, hcon⟩
            omega
          rw [if_pos hij]
          cases h3 : parseCellsAux (n * n)
              ((((trimChars s).drop (i + 1)).take (j - (i + 1))).splitOn ',') with
          | error e => exact Or.inr ⟨e, by simp only [h3]⟩
          | ok cl =>
              obtain ⟨cells, leftover⟩ := cl
              simp only [h3]
              by_cases h4 : leftover ≠ []
              · rw [if_pos h4]
                exact Or.inr ⟨.tooManyNumbers, rfl⟩
              · rw [if_neg h4]
                cases h5 : PuzzleState.new (@boardOfCells n cells) with
                | error e => exact Or.inr ⟨e.toParseError, by simp only [h5]⟩
                | ok st =>
                    refine Or.inl ⟨st, by simp only [h5], ?_⟩
                    unfold PuzzleState.new at h5
                    cases h6 : checkNumbers (@boardOfCells n cells) with
                    | error e => rw [h6] at h5; exact absurd h5 (by simp)
                    | ok u =>
                        rw [h6] at h5
                        have hst : st = PuzzleState.ofBoard (@boardOfCells n cells) := by
                          cases h5
                          rfl
                        subst hst
                        have hvb : ValidBoard (@boardOfCells n cells) := by
                          have hpos := NeZero.pos n
                          exact (checkNumbers_ok_iff hpos _).mp (by rw [h6])
                        have hr : (PuzzleState.ofBoard
                            (@boardOfCells n cells)).readableNumbers
                            = @boardOfCells n cells :=
                          roundtrip_readable _ (hvb.fieldsInRange hn)
                        rw [hr]
                        exact hvb

/-- C10 witness: the amended totality theorem applied to a concrete
well-bracketed input. -/
theorem C10_parse_total_witness :
    (∃ st : PuzzleState 4, fromStrChars 4 (renderBoard (goalBoard 4)) = .ok st ∧
        ValidBoard st.readableNumbers) ∨
      (∃ e, fromStrChars 4 (renderBoard (goalBoard 4)) = .err e) :=
  C10_parse_total (by omega) (renderBoard (goalBoard 4)) (by
    intro hcon
    rcases hcon with ⟨i, j, hi, hj, hlt⟩
    have h0 : firstIdxOf '[' (trimChars (renderBoard (goalBoard 4))) = some 0 := by
      decide
    rw [h0] at hi
    cases hi
    omega)

/-- The edge guard of `neighbours` for a direction: the blank must not sit at
the edge the move would cross. -/
def legalMove {n : Nat} [NeZero n] (b : Board n) : Direction → Prop
  | .up => ¬atUpperEdge (blankPos b)
  | .down => ¬atBottomEdge (blankPos b)
  | .left => ¬atLeftEdge (blankPos b)
  | .right => ¬atRightEdge (blankPos b)

instance {n : Nat} [NeZero n] (b : Board n) (d : Direction) :
    Decidable (legalMove b d) := by
  cases d <;> (unfold legalMove; infer_instance)

theorem mem_boardNeighbours_iff {n : Nat} [NeZero n] {b : Board n} {d : Direction}
    {bd : Board n} :
    (d, bd) ∈ boardNeighbours b ↔ legalMove b d ∧ bd = createNeighbourMoveState b d := by
  unfold boardNeighbours
  constructor
  · intro hmem
    rcases List.mem_append.mp hmem with hmem | hmem4
    rcases List.mem_append.mp hmem with hmem | hmem3
    rcases List.mem_append.mp hmem with hmem1 | hmem2
    · by_cases hg : ¬atUpperEdge (blankPos b)
      · rw [if_pos hg] at hmem1
        have h := List.mem_singleton.mp hmem1
        rw [Prod.mk.injEq] at h
        obtain ⟨rfl, rfl⟩ := h
        exact ⟨hg, rfl⟩
      · rw [if_neg hg] at hmem1
        exact absurd hmem1 (by simp)
    · by_cases hg : ¬atBottomEdge (blankPos b)
      · rw [if_pos hg] at hmem2
        have h := List.mem_singleton.mp hmem2
        rw [Prod.mk.injEq] at h
        obtain ⟨rfl, rfl⟩ := h
        exact ⟨hg, rfl⟩
      · rw [if_neg hg] at hmem2
        exact absurd hmem2 (by simp)
    · by_cases hg : ¬atLeftEdge (blankPos b)
      · rw [if_pos hg] at hmem3
        have h := List.mem_singleton.mp hmem3
        rw [Prod.mk.injEq] at h
        obtain ⟨rfl, rfl⟩ := h
        exact ⟨hg, rfl⟩
      · rw [if_neg hg] at hmem3
        exact absurd hmem3 (by simp)
    · by_cases hg : ¬atRightEdge (blankPos b)
      · rw [if_pos hg] at hmem4
        have h := List.mem_singleton.mp hmem4
        rw [Prod.mk.injEq] at h
        obtain ⟨rfl, rfl⟩ := h
        exact ⟨hg, rfl⟩
      · rw [if_neg hg] at hmem4
        exact absurd hmem4 (by simp)
  · rintro ⟨hleg, rfl⟩
    cases d with
    | up =>
        refine List.mem_append.mpr (Or.inl (List.mem_append.mpr (Or.inl
          (List.mem_append.mpr (Or.inl ?_)))))
        rw [if_pos (show ¬atUpperEdge (blankPos b) from hleg)]
        simp
    | down =>
        refine List.mem_append.mpr (Or.inl (List.mem_append.mpr (Or.inl
          (List.mem_append.mpr (Or.inr ?_)))))
        rw [if_pos (show ¬atBottomEdge (blankPos b) from hleg)]
        simp
    | left =>
        refine List.mem_append.mpr (Or.inl (List.mem_append.mpr (Or.inr ?_)))
        rw [if_pos (show ¬atLeftEdge (blankPos b) from hleg)]
        simp
    | right =>
        refine List.mem_append.mpr (Or.inr ?_)
        rw [if_pos (show ¬atRightEdge (blankPos b) from hleg)]
        simp

theorem ValidBoard.blank_none {n : Nat} [NeZero n] {b : Board n} (hb : ValidBoard b) :
    b (blankPos b).1 (blankPos b).2 = none := by
  have hmem : (none : Option Nat) ∈ (cellList n).map fun rc => b rc.1 rc.2 := by
    rw [hb.mem_iff]
    simp
  rcases List.mem_map.mp hmem with ⟨rc, -, hrc⟩
  exact blankPos_none hrc

theorem legalMove_swap {n : Nat} [NeZero n] (b : Board n) (d : Direction)
    (hd : legalMove b d) :
    ∃ sw : Fin n × Fin n, sw ≠ blankPos b ∧
      (sw.1.val : Int) = ((blankPos b).1.val : Int) + d.asCoordinates.1 ∧
      (sw.2.val : Int) = ((blankPos b).2.val : Int) + d.asCoordinates.2 ∧
      createNeighbourMoveState b d = fun r c =>
        if (r, c) = blankPos b then b sw.1 sw.2
        else if (r, c) = sw then none
        else b r c := by
  have hpos := NeZero.pos n
  have hr := (blankPos b).1.isLt
  have hc := (blankPos b).2.isLt
  cases d with
  | up =>
      have h0 : (blankPos b).1.val ≠ 0 := hd
      refine ⟨(⟨(((blankPos b).1.val : Int) + (Direction.up.asCoordinates).1).toNat, ?_⟩,
        ⟨(((blankPos b).2.val : Int) + (Direction.up.asCoordinates).2).toNat, ?_⟩), ?_, ?_, ?_, ?_⟩
      · simp only [Direction.asCoordinates]
        omega
      · simp only [Direction.asCoordinates]
        omega
      · intro hcon
        have hv := congrArg (fun p => p.1.val) hcon
        simp only [Direction.asCoordinates] at hv
        omega
      · simp only [Direction.asCoordinates]
        omega
      · simp only [Direction.asCoordinates]
        omega
      · unfold createNeighbourMoveState
        rw [dif_pos (by
          refine ⟨?_, ?_, ?_, ?_⟩ <;> simp only [Direction.asCoordinates] <;> omega)]
  | down =>
      have h0 : (blankPos b).1.val ≠ n - 1 := hd
      refine ⟨(⟨(((blankPos b).1.val : Int) + (Direction.down.asCoordinates).1).toNat, ?_⟩,
        ⟨(((blankPos b).2.val : Int) + (Direction.down.asCoordinates).2).toNat, ?_⟩), ?_, ?_, ?_, ?_⟩
      · simp only [Direction.asCoordinates]
        omega
      · simp only [Direction.asCoordinates]
        omega
      · intro hcon
        have hv := congrArg (fun p => p.1.val) hcon
        simp only [Direction.asCoordinates] at hv
        omega
      · simp only [Direction.asCoordinates]
        omega
      · simp only [Direction.asCoordinates]
        omega
      · unfold createNeighbourMoveState
        rw [dif_pos (by
          refine ⟨?_, ?_, ?_, ?_⟩ <;> simp only [Direction.asCoordinates] <;> omega)]
  | left =>
      have h0 : (blankPos b).2.val ≠ 0 := hd
      refine ⟨(⟨(((blankPos b).1.val : Int) + (Direction.left.asCoordinates).1).toNat, ?_⟩,
        ⟨(((blankPos b).2.val : Int) + (Direction.left.asCoordinates).2).toNat, ?_⟩), ?_, ?_, ?_, ?_⟩
      · simp only [Direction.asCoordinates]
        omega
      · simp only [Direction.asCoordinates]
        omega
      · intro hcon
        have hv := congrArg (fun p => p.2.val) hcon
        simp only [Direction.asCoordinates] at hv
        omega
      · simp only [Direction.asCoordinates]
        omega
      · simp only [Direction.asCoordinates]
        omega
      · unfold createNeighbourMoveState
        rw [dif_pos (by
          refine ⟨?_, ?_, ?_, ?_⟩ <;> simp only [Direction.asCoordinates] <;> omega)]
  | right =>
      have h0 : (blankPos b).2.val ≠ n - 1 := hd
      refine ⟨(⟨(((blankPos b).1.val : Int) + (Direction.right.asCoordinates).1).toNat, ?_⟩,
        ⟨(((blankPos b).2.val : Int) + (Direction.right.asCoordinates).2).toNat, ?_⟩), ?_, ?_, ?_, ?_⟩
      · simp only [Direction.asCoordinates]
        omega
      · simp only [Direction.asCoordinates]
        omega
      · intro hcon
        have hv := congrArg (fun p => p.2.val) hcon
        simp only [Direction.asCoordinates] at hv
        omega
      · simp only [Direction.asCoordinates]
        omega
      · simp only [Direction.asCoordinates]
        omega
      · unfold createNeighbourMoveState
        rw [dif_pos (by
          refine ⟨?_, ?_, ?_, ?_⟩ <;> simp only [Direction.asCoordinates] <;> omega)]

theorem ValidBoard.createNeighbour {n : Nat} [NeZero n] {b : Board n}
    (hb : ValidBoard b) {d : Direction} (hd : legalMove b d) :
    ValidBoard (createNeighbourMoveState b d) := by
  obtain ⟨sw, hsw_ne, -, -, heq⟩ := legalMove_swap b d hd
  rw [heq]
  have hbp := hb.blank_none
  have hfun : (fun r c =>
      if (r, c) = blankPos b then b sw.1 sw.2
      else if (r, c) = sw then none
      else b r c)
      = fun r c => b (Equiv.swap (blankPos b) sw (r, c)).1
          (Equiv.swap (blankPos b) sw (r, c)).2 := by
    funext r c
    by_cases h1 : (r, c) = blankPos b
    · rw [if_pos h1, h1, Equiv.swap_apply_left]
    · rw [if_neg h1]
      by_cases h2 : (r, c) = sw
      · rw [if_pos h2, h2, Equiv.swap_apply_right]
        exact hbp.symm
      · rw [if_neg h2, Equiv.swap_apply_of_ne_of_ne h1 h2]
  rw [hfun]
  exact hb.swapCells _ _

theorem PuzzleState.readable_ofBoard {n : Nat} (hn : n ≤ 4) {b : Board n}
    (hb : ValidBoard b) : (PuzzleState.ofBoard b).readableNumbers = b :=
  roundtrip_readable b (hb.fieldsInRange hn)

theorem new_ok_inv {n : Nat} {b : Board n} {s : PuzzleState n}
    (hnew : PuzzleState.new b = .ok s) :
    checkNumbers b = .ok () ∧ s = PuzzleState.ofBoard b := by
  unfold PuzzleState.new at hnew
  cases h : checkNumbers b with
  | ok u =>
      cases u
      rw [h] at hnew
      exact ⟨rfl, by cases hnew; rfl⟩
  | error e =>
      rw [h] at hnew
      exact absurd hnew (by simp)

/-- C9: validity is an invariant of move generation — from any configuration
accepted by `PuzzleState::new`, every move produced by `neighbours` yields a
configuration that again passes `check_numbers` (exactly one blank and a
permutation of `1..n²-1`). -/
theorem C9_neighbours_valid {n : Nat} [NeZero n] (hn : n ≤ 4) (b : Board n)
    (s : PuzzleState n) (hnew : PuzzleState.new b = .ok s) (d : Direction)
    (s2 : PuzzleState n) (hmem : (d, s2) ∈ s.neighbours) :
    checkNumbers s2.readableNumbers = .ok () := by
  obtain ⟨hok, rfl⟩ := new_ok_inv hnew
  have hb : ValidBoard b := (checkNumbers_ok_iff (NeZero.pos n) b).mp hok
  rw [PuzzleState.neighbours, PuzzleState.readable_ofBoard hn hb] at hmem
  rcases List.mem_map.mp hmem with ⟨dm, hdm, hpair⟩
  rw [Prod.mk.injEq] at hpair
  obtain ⟨hd1, hs2⟩ := hpair
  obtain ⟨dmd, dmb⟩ := dm
  simp only at hd1 hs2
  subst hd1
  obtain ⟨hleg, rfl⟩ := mem_boardNeighbours_iff.mp hdm
  have hvb : ValidBoard (createNeighbourMoveState b dmd) := hb.createNeighbour hleg
  rw [← hs2, PuzzleState.readable_ofBoard hn hvb]
  exact (checkNumbers_ok_iff (NeZero.pos n) _).mpr hvb

/-- C9 witness: a concrete move from the configuration one blank-move away
from the solved 4×4 board. -/
theorem C9_neighbours_valid_witness :
    checkNumbers (PuzzleState.createNeighbourMoveState goalState4
      Direction.up).readableNumbers = .ok () :=
  C9_neighbours_valid (by omega) (goalBoard 4) goalState4 rfl
    Direction.up (PuzzleState.createNeighbourMoveState goalState4 Direction.up)
    (by decide)

/-- The goal with tiles 13 and 14 swapped: an unsolvable 4×4 configuration. -/
def unsolvable4 : Board 4 := fun r c =>
  if (r.val, c.val) = (3, 0) then some 14
  else if (r.val, c.val) = (3, 1) then some 13
  else goalBoard 4 r c

/-- C5: `solve_with_heuristic` answers `none` exactly on unsolvable starts.
When the start is unsolvable, `AstarState::inital` fails with
`InitialStateNotSolvable` for every heuristic — the failing derivation never
applies the heuristic and involves no loop state, so no frontier exists — and
the overall result is `none`; conversely, any run that results in `none` had
an unsolvable start (`none` is produced only on that path). -/
theorem C5_none_iff_unsolvable {n : Nat} [NeZero n] (ps : PuzzleState n) :
    (¬ps.isSolvable → ∀ h : Heuristic n,
      AstarState.inital ps h = .error .initialStateNotSolvable ∧
      SolveWithHeuristicR h ps none) ∧
    (∀ (h : Heuristic n) (r : Option Solution), SolveWithHeuristicR h ps r →
      (r = none ↔ ¬ps.isSolvable)) := by
  constructor
  · intro hns h
    have herr : AstarState.inital ps h = .error .initialStateNotSolvable := by
      unfold AstarState.inital
      rw [if_neg hns]
    exact ⟨herr, .unsolvable _ herr⟩
  · intro h r hrel
    cases hrel with
    | unsolvable e herr =>
        have hns : ¬ps.isSolvable := by
          intro hs
          rw [inital_of_solvable ps h hs] at herr
          exact absurd herr (by simp)
        simp [hns]
    | solved c0 stf route hok hrun hsolved hroute =>
        have hs : ps.isSolvable := by
          by_contra hns
          unfold AstarState.inital at hok
          rw [if_neg hns] at hok
          exact absurd hok (by simp)
        simp [hs]

/-- C5 witness: at the unsolvable swapped board, the result is `none`. -/
theorem C5_none_iff_unsolvable_witness :
    SolveWithHeuristicR (fun _ => 0) (PuzzleState.ofBoard unsolvable4) none :=
  ((C5_none_iff_unsolvable (PuzzleState.ofBoard unsolvable4)).1
    (by decide) (fun _ => 0)).2

theorem Direction.opposite_asCoordinates (d : Direction) :
    d.opposite.asCoordinates =
      (-d.asCoordinates.1, -d.asCoordinates.2) := by
  cases d <;> rfl

theorem legalMove_iff_bounds {n : Nat} [NeZero n] (b : Board n) (d : Direction) :
    legalMove b d ↔
      (0 ≤ ((blankPos b).1.val : Int) + d.asCoordinates.1 ∧
        ((blankPos b).1.val : Int) + d.asCoordinates.1 < (n : Int) ∧
        0 ≤ ((blankPos b).2.val : Int) + d.asCoordinates.2 ∧
        ((blankPos b).2.val : Int) + d.asCoordinates.2 < (n : Int)) := by
  have hr := (blankPos b).1.isLt
  have hc := (blankPos b).2.isLt
  have hpos := NeZero.pos n
  cases d <;>
    simp only [legalMove, Direction.asCoordinates, atUpperEdge, atBottomEdge,
      atLeftEdge, atRightEdge] <;>
    constructor <;> intro h <;> omega

theorem ValidBoard.values_nodup {n : Nat} {b : Board n} (hb : ValidBoard b) :
    ((cellList n).map fun rc => b rc.1 rc.2).Nodup := by
  refine hb.symm.nodup ?_
  rw [List.nodup_cons]
  constructor
  · simp
  · refine List.Nodup.map ?_ (List.nodup_range _)
    intro a a' ha
    simpa using ha

theorem ValidBoard.eq_blankPos_of_none {n : Nat} [NeZero n] {b : Board n}
    (hb : ValidBoard b) {rc : Fin n × Fin n} (h : b rc.1 rc.2 = none) :
    rc = blankPos b := by
  have hbp := hb.blank_none
  have hinj := List.inj_on_of_nodup_map hb.values_nodup
  exact hinj (mem_cellList rc) (mem_cellList (blankPos b)) (by rw [h, hbp])

theorem ValidBoard.ne_none_of_ne_blank {n : Nat} [NeZero n] {b : Board n}
    (hb : ValidBoard b) {rc : Fin n × Fin n} (hne : rc ≠ blankPos b) :
    b rc.1 rc.2 ≠ none :=
  fun h => hne (hb.eq_blankPos_of_none h)

theorem blankPos_move {n : Nat} [NeZero n] {b : Board n} (hb : ValidBoard b)
    {d : Direction} (hd : legalMove b d) :
    ((blankPos (createNeighbourMoveState b d)).1.val : Int) =
      ((blankPos b).1.val : Int) + d.asCoordinates.1 ∧
    ((blankPos (createNeighbourMoveState b d)).2.val : Int) =
      ((blankPos b).2.val : Int) + d.asCoordinates.2 := by
  obtain ⟨sw, hne, hc1, hc2, heq⟩ := legalMove_swap b d hd
  have hnone : createNeighbourMoveState b d sw.1 sw.2 = none := by
    rw [heq]
    simp only
    rw [if_neg (by simpa using hne), if_pos (by simp)]
  have huniq : ∀ rc : Fin n × Fin n,
      createNeighbourMoveState b d rc.1 rc.2 = none → rc = sw := by
    intro rc hrc
    rw [heq] at hrc
    simp only at hrc
    by_cases h1 : (rc.1, rc.2) = blankPos b
    · rw [if_pos h1] at hrc
      exact absurd hrc (hb.ne_none_of_ne_blank hne)
    · rw [if_neg h1] at hrc
      by_cases h2 : (rc.1, rc.2) = sw
      · rw [← h2]
      · rw [if_neg h2] at hrc
        have := @ValidBoard.eq_blankPos_of_none _ _ _ hb (rc.1, rc.2) hrc
        exact absurd this h1
  have hbp : blankPos (createNeighbourMoveState b d) = sw := by
    refine blankPos_eq hnone ?_
    intro rc' hrc'
    rw [huniq rc' hrc']
  rw [hbp]
  exact ⟨hc1, hc2⟩

theorem legalMove_opposite {n : Nat} [NeZero n] {b : Board n} (hb : ValidBoard b)
    {d : Direction} (hd : legalMove b d) :
    legalMove (createNeighbourMoveState b d) d.opposite := by
  rw [legalMove_iff_bounds]
  obtain ⟨h1, h2⟩ := blankPos_move hb hd
  rw [Direction.opposite_asCoordinates]
  have hr := (blankPos b).1.isLt
  have hc := (blankPos b).2.isLt
  simp only [h1, h2]
  refine ⟨by omega, by omega, by omega, by omega⟩

theorem move_inverse {n : Nat} [NeZero n] {b : Board n} (hb : ValidBoard b)
    {d : Direction} (hd : legalMove b d) :
    createNeighbourMoveState (createNeighbourMoveState b d) d.opposite = b := by
  obtain ⟨sw, hne, hc1, hc2, heq⟩ := legalMove_swap b d hd
  obtain ⟨hm1, hm2⟩ := blankPos_move hb hd
  obtain ⟨sw2, hne2, hd1, hd2, heq2⟩ :=
    legalMove_swap (createNeighbourMoveState b d) d.opposite
      (legalMove_opposite hb hd)
  have hbp' : blankPos (createNeighbourMoveState b d) = sw := by
    apply Prod.ext <;> apply Fin.ext <;> omega
  have hsw2 : sw2 = blankPos b := by
    rw [Direction.opposite_asCoordinates] at hd1 hd2
    apply Prod.ext <;> apply Fin.ext <;> omega
  rw [heq2, hbp', hsw2]
  funext r c
  beta_reduce
  by_cases h1 : (r, c) = sw
  · rw [if_pos h1, heq]
    beta_reduce
    rw [if_pos (by simp), ← h1]
  · rw [if_neg h1]
    by_cases h2 : (r, c) = blankPos b
    · rw [if_pos h2]
      rw [Prod.mk.injEq] at h2
      obtain ⟨h2a, h2b⟩ := h2
      subst h2a
      subst h2b
      exact hb.blank_none.symm
    · rw [if_neg h2, heq]
      beta_reduce
      rw [if_neg h2, if_neg h1]

/-- A solver configuration together with the valid board it encodes: decoding
gives a valid board and re-encoding gives the state back. -/
def ValidState {n : Nat} (s : PuzzleState n) : Prop :=
  ValidBoard s.readableNumbers ∧ PuzzleState.ofBoard s.readableNumbers = s

/-- Legality of one blank move at the `PuzzleState` level. -/
def legalS {n : Nat} [NeZero n] (s : PuzzleState n) (d : Direction) : Prop :=
  legalMove s.readableNumbers d

instance {n : Nat} [NeZero n] (s : PuzzleState n) (d : Direction) :
    Decidable (legalS s d) := by
  unfold legalS; infer_instance

/-- A legal sequence of blank moves from a configuration. -/
def legalSeqS {n : Nat} [NeZero n] : PuzzleState n → List Direction → Prop
  | _, [] => True
  | s, d :: ds => legalS s d ∧ legalSeqS (s.createNeighbourMoveState d) ds

/-- Applying a direction sequence one blank move at a time. -/
def applyS {n : Nat} [NeZero n] (s : PuzzleState n) (ds : List Direction) :
    PuzzleState n :=
  ds.foldl PuzzleState.createNeighbourMoveState s

theorem applyS_nil {n : Nat} [NeZero n] (s : PuzzleState n) : applyS s [] = s := rfl

theorem applyS_cons {n : Nat} [NeZero n] (s : PuzzleState n) (d : Direction)
    (ds : List Direction) :
    applyS s (d :: ds) = applyS (s.createNeighbourMoveState d) ds := rfl

theorem applyS_append {n : Nat} [NeZero n] (s : PuzzleState n)
    (l1 l2 : List Direction) : applyS s (l1 ++ l2) = applyS (applyS s l1) l2 := by
  simp [applyS, List.foldl_append]

theorem legalSeqS_append {n : Nat} [NeZero n] (s : PuzzleState n)
    (l1 l2 : List Direction) :
    legalSeqS s (l1 ++ l2) ↔ legalSeqS s l1 ∧ legalSeqS (applyS s l1) l2 := by
  induction l1 generalizing s with
  | nil => simp [legalSeqS, applyS_nil]
  | cons d l1 ih =>
      rw [List.cons_append]
      show legalS s d ∧ legalSeqS _ (l1 ++ l2) ↔
        (legalS s d ∧ legalSeqS _ l1) ∧ _
      rw [ih, applyS_cons]
      tauto

theorem applyS_take_succ {n : Nat} [NeZero n] (s : PuzzleState n)
    (ds : List Direction) (i : Nat) (hi : i < ds.length) :
    applyS s (ds.take (i + 1)) =
      (applyS s (ds.take i)).createNeighbourMoveState (ds.get ⟨i, hi⟩) := by
  rw [List.take_succ, applyS_append]
  simp [List.getElem?_eq_getElem hi, applyS]

theorem legalSeqS_take {n : Nat} [NeZero n] {s : PuzzleState n}
    {ds : List Direction} (h : legalSeqS s ds) (i : Nat) :
    legalSeqS s (ds.take i) := by
  induction ds generalizing s i with
  | nil => simpa using h
  | cons d tl ih =>
      cases i with
      | zero => trivial
      | succ i =>
          obtain ⟨h1, h2⟩ := h
          exact ⟨h1, ih h2 i⟩

theorem legalSeqS_get {n : Nat} [NeZero n] {s : PuzzleState n}
    {ds : List Direction} (h : legalSeqS s ds) (i : Nat) (hi : i < ds.length) :
    legalS (applyS s (ds.take i)) (ds.get ⟨i, hi⟩) := by
  induction ds generalizing s i with
  | nil => exact absurd hi (by simp)
  | cons d tl ih =>
      obtain ⟨h1, h2⟩ := h
      cases i with
      | zero => simpa [applyS_nil] using h1
      | succ i =>
          rw [List.take_succ_cons, applyS_cons]
          exact ih h2 i (by simpa using hi)

theorem PuzzleState.mem_neighbours_iff {n : Nat} [NeZero n] {s : PuzzleState n}
    {d : Direction} {s2 : PuzzleState n} :
    (d, s2) ∈ s.neighbours ↔ legalS s d ∧ s2 = s.createNeighbourMoveState d := by
  unfold PuzzleState.neighbours
  constructor
  · intro h
    rcases List.mem_map.mp h with ⟨⟨d0, bd⟩, hmem, hp⟩
    rw [Prod.mk.injEq] at hp
    obtain ⟨hpd, hps⟩ := hp
    simp only at hpd hps
    subst hpd
    obtain ⟨hleg, rfl⟩ := mem_boardNeighbours_iff.mp hmem
    exact ⟨hleg, hps.symm⟩
  · rintro ⟨hleg, rfl⟩
    exact List.mem_map.mpr
      ⟨(d, Puzzle.createNeighbourMoveState s.readableNumbers d),
        mem_boardNeighbours_iff.mpr ⟨hleg, rfl⟩, rfl⟩

theorem ValidState.ofBoard {n : Nat} (hn : n ≤ 4) {b : Board n}
    (hb : ValidBoard b) : ValidState (PuzzleState.ofBoard b) := by
  constructor
  · rw [PuzzleState.readable_ofBoard hn hb]
    exact hb
  · rw [PuzzleState.readable_ofBoard hn hb]

theorem ValidState.readable_step {n : Nat} [NeZero n] (hn : n ≤ 4)
    {s : PuzzleState n} (hs : ValidState s) {d : Direction} (hd : legalS s d) :
    (s.createNeighbourMoveState d).readableNumbers =
      Puzzle.createNeighbourMoveState s.readableNumbers d :=
  PuzzleState.readable_ofBoard hn (hs.1.createNeighbour hd)

theorem ValidState.step {n : Nat} [NeZero n] (hn : n ≤ 4) {s : PuzzleState n}
    (hs : ValidState s) {d : Direction} (hd : legalS s d) :
    ValidState (s.createNeighbourMoveState d) :=
  ValidState.ofBoard hn (hs.1.createNeighbour hd)

theorem ValidState.step_inverse {n : Nat} [NeZero n] (hn : n ≤ 4)
    {s : PuzzleState n} (hs : ValidState s) {d : Direction} (hd : legalS s d) :
    legalS (s.createNeighbourMoveState d) d.opposite ∧
      (s.createNeighbourMoveState d).createNeighbourMoveState d.opposite = s := by
  have hread := hs.readable_step hn hd
  constructor
  · show legalMove (s.createNeighbourMoveState d).readableNumbers d.opposite
    rw [hread]
    exact legalMove_opposite hs.1 hd
  · show PuzzleState.ofBoard _ = s
    rw [hread, move_inverse hs.1 hd]
    exact hs.2

/-- The keys of the provenance map. -/
def mapKeys {n : Nat} (m : List (PuzzleState n × Option Direction)) :
    List (PuzzleState n) :=
  m.map Prod.fst

theorem lookupDir_eq_none_iff {n : Nat} (m : List (PuzzleState n × Option Direction))
    (s : PuzzleState n) : lookupDir m s = none ↔ s ∉ mapKeys m := by
  unfold lookupDir mapKeys
  rw [Option.map_eq_none', List.find?_eq_none]
  constructor
  · intro h hmem
    rcases List.mem_map.mp hmem with ⟨e, he, hk⟩
    have := h e he
    simp [hk] at this
  · intro h e he hsat
    exact h (List.mem_map.mpr ⟨e, he, by simpa using hsat⟩)

theorem mapKeys_getD_mem {n : Nat} (m : List (PuzzleState n × Option Direction))
    (dflt : PuzzleState n × Option Direction) (k : Nat) (hk : k < m.length) :
    (m.getD k dflt).1 ∈ mapKeys m := by
  rw [List.getD_eq_getElem m dflt hk]
  exact List.mem_map.mpr ⟨m[k], List.getElem_mem hk, rfl⟩

theorem lookupDir_getD {n : Nat} {m : List (PuzzleState n × Option Direction)}
    (hnd : (mapKeys m).Nodup) (dflt : PuzzleState n × Option Direction) (k : Nat)
    (hk : k < m.length) :
    lookupDir m (m.getD k dflt).1 = some (m.getD k dflt).2 := by
  induction m generalizing k with
  | nil => exact absurd hk (by simp)
  | cons a tl ih =>
      rw [show mapKeys (a :: tl) = a.1 :: mapKeys tl from rfl, List.nodup_cons] at hnd
      cases k with
      | zero =>
          show lookupDir (a :: tl) a.1 = some a.2
          unfold lookupDir
          rw [List.find?_cons_of_pos _ (by simp)]
          rfl
      | succ k =>
          have hk2 : k < tl.length := by simpa using hk
          show lookupDir (a :: tl) (tl.getD k dflt).1 = some (tl.getD k dflt).2
          have hne : a.1 ≠ (tl.getD k dflt).1 := by
            intro hcon
            exact hnd.1 (hcon ▸ mapKeys_getD_mem tl dflt k hk2)
          unfold lookupDir
          rw [List.find?_cons_of_neg _ (by simpa using fun h => hne h)]
          exact ih hnd.2 k hk2

/-- Consistency of a heuristic over valid configurations: one blank move
changes the estimate by at most one. -/
def Consistent {n : Nat} [NeZero n] (hu : Heuristic n) : Prop :=
  ∀ s : PuzzleState n, ValidState s → ∀ d : Direction, legalS s d →
    s.calculateHeuristic hu ≤ (s.createNeighbourMoveState d).calculateHeuristic hu + 1

/-- Admissibility of a heuristic over valid configurations: the estimate never
exceeds the length of any legal move sequence reaching the goal. -/
def Admissible {n : Nat} [NeZero n] (hu : Heuristic n) : Prop :=
  ∀ s : PuzzleState n, ValidState s → ∀ ds : List Direction, legalSeqS s ds →
    (applyS s ds).isSolved → s.calculateHeuristic hu ≤ ds.length

theorem validState_applyS {n : Nat} [NeZero n] (hn : n ≤ 4) {s : PuzzleState n}
    (hs : ValidState s) {ds : List Direction} (hds : legalSeqS s ds) :
    ValidState (applyS s ds) := by
  induction ds generalizing s with
  | nil => simpa [applyS_nil] using hs
  | cons d tl ih =>
      obtain ⟨h1, h2⟩ := hds
      rw [applyS_cons]
      exact ih (hs.step hn h1) h2

theorem consistent_telescope {n : Nat} [NeZero n] (hn : n ≤ 4)
    {hu : Heuristic n} (hcons : Consistent hu) {s : PuzzleState n}
    (hs : ValidState s) {ds : List Direction} (hds : legalSeqS s ds) :
    s.calculateHeuristic hu ≤ ds.length + (applyS s ds).calculateHeuristic hu := by
  induction ds generalizing s with
  | nil => simp [applyS_nil]
  | cons d tl ih =>
      obtain ⟨h1, h2⟩ := hds
      have hstep := hcons s hs d h1
      have htl := ih (hs.step hn h1) h2
      rw [applyS_cons] at *
      simp only [List.length_cons]
      omega

/-- The configuration recorded at index `k` of the provenance map. -/
def entry1 {n : Nat} (s0 : PuzzleState n)
    (m : List (PuzzleState n × Option Direction)) (k : Nat) : PuzzleState n :=
  (m.getD k (s0, none)).1

/-- The direction recorded at index `k` of the provenance map. -/
def entry2 {n : Nat} (s0 : PuzzleState n)
    (m : List (PuzzleState n × Option Direction)) (k : Nat) : Option Direction :=
  (m.getD k (s0, none)).2

/-- The ghost `distance_from_start` at which map entry `k` was inserted. -/
def gAt (gs : List Nat) (k : Nat) : Nat := gs.getD k 0

/-- The seed state pushed before the loop (`AstarState::inital` on a solvable
start). -/
def initState {n : Nat} (hu : Heuristic n) (s0 : PuzzleState n) : AstarState n :=
  ⟨s0.calculateHeuristic hu, none, 0, s0⟩

/-- The invariant of `solve_with_heuristic`'s loop.  `gs` is the ghost list of
insertion distances of the provenance-map entries.  `chain` gives the
provenance links used by `create_route`; `mreal`/`mopt` say the recorded
distances are exact; `cover` is the A* frontier-cover property: along any
legal move sequence out of a recorded configuration, the first configuration
not yet recorded is on the frontier with a distance bounded by the recorded
distance plus the number of moves. -/
structure LoopInv {n : Nat} [NeZero n] (hu : Heuristic n) (s0 : PuzzleState n)
    (st : SolveLoopState n) (gs : List Nat) : Prop where
  glen : gs.length = st.lastDirections.length
  knodup : (mapKeys st.lastDirections).Nodup
  kvalid : ∀ k, k < st.lastDirections.length →
    ValidState (entry1 s0 st.lastDirections k)
  kunsolved : ∀ k, k < st.lastDirections.length →
    ¬(entry1 s0 st.lastDirections k).isSolved ∨
      entry1 s0 st.lastDirections k = st.curr.puzzleState
  chain : ∀ k, k < st.lastDirections.length →
    (entry2 s0 st.lastDirections k = none →
      k = 0 ∧ entry1 s0 st.lastDirections k = s0 ∧ gAt gs k = 0) ∧
    ∀ d : Direction, entry2 s0 st.lastDirections k = some d →
      ∃ j, j < k ∧ legalS (entry1 s0 st.lastDirections j) d ∧
        (entry1 s0 st.lastDirections j).createNeighbourMoveState d =
          entry1 s0 st.lastDirections k ∧
        gAt gs k = gAt gs j + 1
  mreal : ∀ k, k < st.lastDirections.length →
    ∃ ds, legalSeqS s0 ds ∧ applyS s0 ds = entry1 s0 st.lastDirections k ∧
      ds.length = gAt gs k
  mopt : ∀ k, k < st.lastDirections.length → ∀ ds, legalSeqS s0 ds →
    applyS s0 ds = entry1 s0 st.lastDirections k → gAt gs k ≤ ds.length
  fco : ∀ x ∈ st.frontier,
    x.fValue = x.distanceFromStart + x.puzzleState.calculateHeuristic hu ∧
      ValidState x.puzzleState
  freal : ∀ x ∈ st.frontier, ∃ ds, legalSeqS s0 ds ∧
    applyS s0 ds = x.puzzleState ∧ ds.length = x.distanceFromStart
  flink : ∀ x ∈ st.frontier,
    (x = initState hu s0 ∧ st.lastDirections = []) ∨
    ∃ k, k < st.lastDirections.length ∧ ∃ d : Direction, x.lastDirection = some d ∧
      legalS (entry1 s0 st.lastDirections k) d ∧
      (entry1 s0 st.lastDirections k).createNeighbourMoveState d = x.puzzleState ∧
      x.distanceFromStart = gAt gs k + 1
  cover : ∀ i, 1 ≤ i → ∀ k, k < st.lastDirections.length → ∀ ds,
    legalSeqS (entry1 s0 st.lastDirections k) ds → i ≤ ds.length →
    (∀ j, 1 ≤ j → j < i →
      applyS (entry1 s0 st.lastDirections k) (ds.take j) ∈
        mapKeys st.lastDirections) →
    applyS (entry1 s0 st.lastDirections k) (ds.take i) ∈
        mapKeys st.lastDirections ∨
      ∃ x ∈ st.frontier,
        x.puzzleState = applyS (entry1 s0 st.lastDirections k) (ds.take i) ∧
        x.distanceFromStart ≤ gAt gs k + i
  init0 : st.lastDirections = [] → st.curr = initState hu s0 ∧
    st.frontier = [initState hu s0]

theorem inv_init {n : Nat} [NeZero n] (hu : Heuristic n) {s0 : PuzzleState n}
    (hs0 : ValidState s0) :
    LoopInv hu s0 ⟨initState hu s0, [], [initState hu s0]⟩ [] := by
  refine ⟨rfl, by simp [mapKeys], ?_, ?_, ?_, ?_, ?_, ?_, ?_, ?_, ?_, ?_⟩
  · intro k hk
    exact absurd hk (by simp)
  · intro k hk
    exact absurd hk (by simp)
  · intro k hk
    exact absurd hk (by simp)
  · intro k hk
    exact absurd hk (by simp)
  · intro k hk
    exact absurd hk (by simp)
  · intro x hx
    rw [List.mem_singleton.mp hx]
    exact ⟨by simp [initState], hs0⟩
  · intro x hx
    rw [List.mem_singleton.mp hx]
    exact ⟨[], trivial, applyS_nil s0, rfl⟩
  · intro x hx
    exact Or.inl ⟨List.mem_singleton.mp hx, rfl⟩
  · intro i hi k hk
    exact absurd hk (by simp)
  · intro hm
    exact ⟨rfl, rfl⟩

theorem PopMin.mem {n : Nat} {F : List (AstarState n)} {x : AstarState n}
    {rest : List (AstarState n)} (h : PopMin F x rest) : x ∈ F := by
  obtain ⟨⟨i, hget, -⟩, -⟩ := h
  exact hget ▸ List.get_mem F i.val i.isLt

theorem mem_eraseIdx_of_ne {α : Type _} (l : List α) (i : Nat) (x y : α)
    (hget : l[i]? = some x) (hy : y ∈ l) (hne : y ≠ x) : y ∈ l.eraseIdx i := by
  induction l generalizing i with
  | nil => simp at hy
  | cons a tl ih =>
      cases i with
      | zero =>
          have hax : a = x := by simpa using hget
          rcases List.mem_cons.mp hy with rfl | hmem
          · exact absurd hax hne
          · simpa using hmem
      | succ i =>
          rcases List.mem_cons.mp hy with rfl | hmem
          · exact List.mem_cons_self _ _
          · exact List.mem_cons_of_mem _ (ih i (by simpa using hget) hmem)

theorem PopMin.mem_rest_of_ne {n : Nat} {F : List (AstarState n)}
    {x : AstarState n} {rest : List (AstarState n)} (h : PopMin F x rest)
    {y : AstarState n} (hy : y ∈ F) (hne : y ≠ x) : y ∈ rest := by
  obtain ⟨⟨i, hget, hrest⟩, -⟩ := h
  rw [hrest]
  refine mem_eraseIdx_of_ne F i.val x y ?_ hy hne
  rw [List.getElem?_eq_getElem i.isLt]
  rw [← hget]
  rfl

theorem PopMin.rest_subset {n : Nat} {F : List (AstarState n)}
    {x : AstarState n} {rest : List (AstarState n)} (h : PopMin F x rest)
    {y : AstarState n} (hy : y ∈ rest) : y ∈ F := by
  obtain ⟨⟨i, -, hrest⟩, -⟩ := h
  rw [hrest] at hy
  exact List.eraseIdx_subset F i.val hy

theorem expandPushes_mem {n : Nat} [NeZero n] {hu : Heuristic n}
    {x : AstarState n} {m : List (PuzzleState n × Option Direction)}
    {y : AstarState n} :
    y ∈ expandPushes hu x m ↔ ∃ d s2, (d, s2) ∈ x.puzzleState.neighbours ∧
      lookupDir m s2 = none ∧ y = x.movedToNeighbour d s2 hu := by
  unfold expandPushes
  rw [List.mem_map]
  constructor
  · rintro ⟨⟨d, s2⟩, hmem, rfl⟩
    rw [List.mem_filter] at hmem
    exact ⟨d, s2, hmem.1, by simpa using hmem.2, rfl⟩
  · rintro ⟨d, s2, hmem, hnone, rfl⟩
    exact ⟨(d, s2), List.mem_filter.mpr ⟨hmem, by simpa using hnone⟩, rfl⟩

theorem pop_g_opt {n : Nat} [NeZero n] (hn : n ≤ 4) {hu : Heuristic n}
    (hcons : Consistent hu) {s0 : PuzzleState n} (hs0 : ValidState s0)
    {st : SolveLoopState n} {gs : List Nat} (hinv : LoopInv hu s0 st gs)
    {x : AstarState n} {rest : List (AstarState n)}
    (hpop : PopMin st.frontier x rest)
    (hnew : x.puzzleState ∉ mapKeys st.lastDirections) :
    ∀ ds, legalSeqS s0 ds → applyS s0 ds = x.puzzleState →
      x.distanceFromStart ≤ ds.length := by
  intro ds hleg happ
  by_cases hM : st.lastDirections = []
  · obtain ⟨-, hF⟩ := hinv.init0 hM
    have hx : x ∈ st.frontier := hpop.mem
    rw [hF] at hx
    rw [List.mem_singleton.mp hx]
    show (0 : Nat) ≤ _
    omega
  · have hlen : 0 < st.lastDirections.length := List.length_pos.mpr hM
    have hchain0 := hinv.chain 0 hlen
    have hk0 : entry1 s0 st.lastDirections 0 = s0 := by
      cases hd0 : entry2 s0 st.lastDirections 0 with
      | none => exact (hchain0.1 hd0).2.1
      | some d =>
          obtain ⟨j, hj, -⟩ := hchain0.2 d hd0
          omega
    have hg0 : gAt gs 0 = 0 := by
      cases hd0 : entry2 s0 st.lastDirections 0 with
      | none => exact (hchain0.1 hd0).2.2
      | some d =>
          obtain ⟨j, hj, -⟩ := hchain0.2 d hd0
          omega
    have hL : 1 ≤ ds.length := by
      rcases Nat.eq_zero_or_pos ds.length with h0 | h
      · exfalso
        rw [List.length_eq_zero.mp h0, applyS_nil] at happ
        exact hnew (happ ▸ hk0 ▸ mapKeys_getD_mem _ (s0, none) 0 hlen)
      · exact h
    have hex : ∃ i, 1 ≤ i ∧ applyS s0 (ds.take i) ∉ mapKeys st.lastDirections :=
      ⟨ds.length, hL, by rw [List.take_length, happ]; exact hnew⟩
    have h1le := (Nat.find_spec hex).1
    have hnotmem := (Nat.find_spec hex).2
    have hile : Nat.find hex ≤ ds.length :=
      Nat.find_min' hex ⟨hL, by rw [List.take_length, happ]; exact hnew⟩
    have hprefix : ∀ j, 1 ≤ j → j < Nat.find hex →
        applyS s0 (ds.take j) ∈ mapKeys st.lastDirections := by
      intro j hj1 hjlt
      have := Nat.find_min hex hjlt
      by_contra hcon
      exact this ⟨hj1, hcon⟩
    have hcov := hinv.cover (Nat.find hex) h1le 0 hlen ds
    rw [hk0, hg0] at hcov
    rcases hcov hleg hile hprefix with hmem | ⟨y, hyF, hys, hyg⟩
    · exact absurd hmem hnotmem
    · have hmin := hpop.2 y hyF
      have hfx := (hinv.fco x hpop.mem).1
      have hfy := (hinv.fco y hyF).1
      have htval : ValidState (applyS s0 (ds.take (Nat.find hex))) :=
        validState_applyS hn hs0 (legalSeqS_take hleg _)
      have hsplit := (legalSeqS_append s0 (ds.take (Nat.find hex))
        (ds.drop (Nat.find hex))).mp (by rw [List.take_append_drop]; exact hleg)
      have htel := consistent_telescope hn hcons htval hsplit.2
      rw [← applyS_append, List.take_append_drop, happ] at htel
      rw [hys] at hfy
      have hdl : (ds.drop (Nat.find hex)).length = ds.length - Nat.find hex := by
        simp
      omega

theorem getD_append_lt {α : Type _} (l l2 : List α) (d : α) (k : Nat)
    (hk : k < l.length) : (l ++ l2).getD k d = l.getD k d := by
  rw [List.getD_eq_getElem _ _ (by rw [List.length_append]; omega),
    List.getD_eq_getElem _ _ hk, List.getElem_append_left]

theorem getD_append_len {α : Type _} (l : List α) (e d : α) :
    (l ++ [e]).getD l.length d = e := by
  rw [List.getD_eq_getElem _ _ (by simp)]
  rw [List.getElem_append_right (by omega)]
  simp

theorem mapKeys_append {n : Nat} (l l2 : List (PuzzleState n × Option Direction)) :
    mapKeys (l ++ l2) = mapKeys l ++ mapKeys l2 := by
  simp [mapKeys]

theorem mem_mapKeys_index {n : Nat} (s0 : PuzzleState n)
    {m : List (PuzzleState n × Option Direction)} {s : PuzzleState n}
    (h : s ∈ mapKeys m) : ∃ k, k < m.length ∧ entry1 s0 m k = s := by
  unfold mapKeys at h
  rcases List.getElem_of_mem h with ⟨k, hk, hval⟩
  rw [List.getElem_map] at hval
  have hk2 : k < m.length := by simpa using hk
  refine ⟨k, hk2, ?_⟩
  rw [entry1, List.getD_eq_getElem _ _ hk2, hval]

theorem curr_keys_unsolved {n : Nat} [NeZero n] {hu : Heuristic n}
    {s0 : PuzzleState n} {st : SolveLoopState n} {gs : List Nat}
    (hinv : LoopInv hu s0 st gs) (hns : ¬st.curr.isSolved) :
    ∀ k, k < st.lastDirections.length →
      ¬(entry1 s0 st.lastDirections k).isSolved := by
  intro k hk
  rcases hinv.kunsolved k hk with h | h
  · exact h
  · rw [h]
    exact hns

theorem inv_step_skip {n : Nat} [NeZero n] {hu : Heuristic n}
    {s0 : PuzzleState n} {st : SolveLoopState n} {gs : List Nat}
    (hinv : LoopInv hu s0 st gs) {x : AstarState n} {rest : List (AstarState n)}
    (hns : ¬st.curr.isSolved) (hpop : PopMin st.frontier x rest)
    (hvis : lookupDir st.lastDirections x.puzzleState ≠ none) :
    LoopInv hu s0 ⟨x, st.lastDirections, rest⟩ gs := by
  have hxk : x.puzzleState ∈ mapKeys st.lastDirections := by
    by_contra hcon
    exact hvis ((lookupDir_eq_none_iff _ _).mpr hcon)
  have hMne : st.lastDirections ≠ [] := by
    intro hm
    rw [hm] at hxk
    simp [mapKeys] at hxk
  refine ⟨hinv.glen, hinv.knodup, hinv.kvalid, ?_, hinv.chain, hinv.mreal,
    hinv.mopt, ?_, ?_, ?_, ?_, ?_⟩
  · intro k hk
    exact Or.inl (curr_keys_unsolved hinv hns k hk)
  · intro y hy
    exact hinv.fco y (hpop.rest_subset hy)
  · intro y hy
    exact hinv.freal y (hpop.rest_subset hy)
  · intro y hy
    exact hinv.flink y (hpop.rest_subset hy)
  · intro i hi1 k hk ds hleg hile hpre
    by_cases hv : applyS (entry1 s0 st.lastDirections k) (ds.take i) ∈
        mapKeys st.lastDirections
    · exact Or.inl hv
    · rcases hinv.cover i hi1 k hk ds hleg hile hpre with hmem | ⟨y, hyF, hys, hyg⟩
      · exact Or.inl hmem
      · refine Or.inr ⟨y, hpop.mem_rest_of_ne hyF ?_, hys, hyg⟩
        intro hcon
        rw [hcon] at hys
        exact hv (hys ▸ hxk)
  · intro hm
    exact absurd hm hMne

theorem inv_step_expand {n : Nat} [NeZero n] (hn : n ≤ 4) {hu : Heuristic n}
    (hcons : Consistent hu) {s0 : PuzzleState n} (hs0 : ValidState s0)
    {st : SolveLoopState n} {gs : List Nat} (hinv : LoopInv hu s0 st gs)
    {x : AstarState n} {rest : List (AstarState n)}
    (hns : ¬st.curr.isSolved) (hpop : PopMin st.frontier x rest)
    (hnew : lookupDir st.lastDirections x.puzzleState = none) :
    LoopInv hu s0
      ⟨x, st.lastDirections ++ [(x.puzzleState, x.lastDirection)],
        rest ++ expandPushes hu x
          (st.lastDirections ++ [(x.puzzleState, x.lastDirection)])⟩
      (gs ++ [x.distanceFromStart]) := by
  have hnewk : x.puzzleState ∉ mapKeys st.lastDirections :=
    (lookupDir_eq_none_iff _ _).mp hnew
  have hxval : ValidState x.puzzleState := (hinv.fco x hpop.mem).2
  have hxreal := hinv.freal x hpop.mem
  have hxopt := pop_g_opt hn hcons hs0 hinv hpop hnewk
  have hglen := hinv.glen
  have he1lt : ∀ k, k < st.lastDirections.length →
      entry1 s0 (st.lastDirections ++ [(x.puzzleState, x.lastDirection)]) k =
        entry1 s0 st.lastDirections k := by
    intro k hk
    unfold entry1
    rw [getD_append_lt _ _ _ k hk]
  have he2lt : ∀ k, k < st.lastDirections.length →
      entry2 s0 (st.lastDirections ++ [(x.puzzleState, x.lastDirection)]) k =
        entry2 s0 st.lastDirections k := by
    intro k hk
    unfold entry2
    rw [getD_append_lt _ _ _ k hk]
  have hglt : ∀ k, k < st.lastDirections.length →
      gAt (gs ++ [x.distanceFromStart]) k = gAt gs k := by
    intro k hk
    unfold gAt
    rw [getD_append_lt _ _ _ k (by omega)]
  have he1len : entry1 s0 (st.lastDirections ++ [(x.puzzleState, x.lastDirection)])
      st.lastDirections.length = x.puzzleState := by
    unfold entry1
    rw [getD_append_len]
  have he2len : entry2 s0 (st.lastDirections ++ [(x.puzzleState, x.lastDirection)])
      st.lastDirections.length = x.lastDirection := by
    unfold entry2
    rw [getD_append_len]
  have hgled : gAt (gs ++ [x.distanceFromStart]) st.lastDirections.length =
      x.distanceFromStart := by
    unfold gAt
    rw [show st.lastDirections.length = gs.length from hglen.symm, getD_append_len]
  have hlenM' : (st.lastDirections ++ [(x.puzzleState, x.lastDirection)]).length =
      st.lastDirections.length + 1 := by simp
  have happ1 : ∀ (v : PuzzleState n) (d : Direction),
      applyS v [d] = v.createNeighbourMoveState d := fun v d => rfl
  have hmreal' : ∀ k,
      k < (st.lastDirections ++ [(x.puzzleState, x.lastDirection)]).length →
      ∃ ds, legalSeqS s0 ds ∧ applyS s0 ds =
        entry1 s0 (st.lastDirections ++ [(x.puzzleState, x.lastDirection)]) k ∧
        ds.length = gAt (gs ++ [x.distanceFromStart]) k := by
    intro k hk
    rw [hlenM'] at hk
    rcases Nat.lt_or_ge k st.lastDirections.length with hlt | hge
    · rw [he1lt k hlt, hglt k hlt]
      exact hinv.mreal k hlt
    · have hkeq : k = st.lastDirections.length := by omega
      subst hkeq
      rw [he1len, hgled]
      exact hxreal
  have hmopt' : ∀ k,
      k < (st.lastDirections ++ [(x.puzzleState, x.lastDirection)]).length →
      ∀ ds, legalSeqS s0 ds → applyS s0 ds =
        entry1 s0 (st.lastDirections ++ [(x.puzzleState, x.lastDirection)]) k →
      gAt (gs ++ [x.distanceFromStart]) k ≤ ds.length := by
    intro k hk
    rw [hlenM'] at hk
    rcases Nat.lt_or_ge k st.lastDirections.length with hlt | hge
    · rw [he1lt k hlt, hglt k hlt]
      exact hinv.mopt k hlt
    · have hkeq : k = st.lastDirections.length := by omega
      subst hkeq
      rw [he1len, hgled]
      exact hxopt
  have hxmem' : x.puzzleState ∈
      mapKeys (st.lastDirections ++ [(x.puzzleState, x.lastDirection)]) := by
    rw [mapKeys_append]
    exact List.mem_append.mpr (Or.inr (by simp [mapKeys]))
  have hcov' : ∀ i k,
      k < (st.lastDirections ++ [(x.puzzleState, x.lastDirection)]).length →
      ∀ ds, 1 ≤ i →
      legalSeqS (entry1 s0
        (st.lastDirections ++ [(x.puzzleState, x.lastDirection)]) k) ds →
      i ≤ ds.length →
      (∀ j, 1 ≤ j → j < i → applyS (entry1 s0
          (st.lastDirections ++ [(x.puzzleState, x.lastDirection)]) k)
          (ds.take j) ∈
        mapKeys (st.lastDirections ++ [(x.puzzleState, x.lastDirection)])) →
      applyS (entry1 s0
          (st.lastDirections ++ [(x.puzzleState, x.lastDirection)]) k)
          (ds.take i) ∈
        mapKeys (st.lastDirections ++ [(x.puzzleState, x.lastDirection)]) ∨
      ∃ y ∈ rest ++ expandPushes hu x
          (st.lastDirections ++ [(x.puzzleState, x.lastDirection)]),
        y.puzzleState = applyS (entry1 s0
          (st.lastDirections ++ [(x.puzzleState, x.lastDirection)]) k)
          (ds.take i) ∧
        y.distanceFromStart ≤ gAt (gs ++ [x.distanceFromStart]) k + i := by
    intro i
    induction i using Nat.strong_induction_on with
    | _ i IH =>
    intro k hk ds hi1 hlegds hilen hpre
    by_cases hvx : applyS (entry1 s0
        (st.lastDirections ++ [(x.puzzleState, x.lastDirection)]) k)
        (ds.take i) ∈
        mapKeys (st.lastDirections ++ [(x.puzzleState, x.lastDirection)])
    · exact Or.inl hvx
    refine Or.inr ?_
    obtain ⟨i', rfl⟩ : ∃ i', i = i' + 1 := ⟨i - 1, by omega⟩
    obtain ⟨d0, tl, rfl⟩ : ∃ d0 tl, ds = d0 :: tl := by
      cases ds with
      | nil => simp at hilen
      | cons a l => exact ⟨a, l, rfl⟩
    have hleg0 : legalS (entry1 s0
        (st.lastDirections ++ [(x.puzzleState, x.lastDirection)]) k) d0 :=
      hlegds.1
    have hlegtl : legalSeqS ((entry1 s0
        (st.lastDirections ++ [(x.puzzleState, x.lastDirection)])
          k).createNeighbourMoveState d0) tl := hlegds.2
    cases Nat.eq_zero_or_pos i' with
    | inl hi0 =>
        subst hi0
        simp only [Nat.zero_add] at hvx ⊢
        rw [List.take_succ_cons, List.take_zero, happ1] at hvx ⊢
        rcases Nat.lt_or_ge k st.lastDirections.length with hklt | hkge
        · have hlegold : legalSeqS (entry1 s0 st.lastDirections k) (d0 :: tl) := by
            rw [← he1lt k hklt]
            exact hlegds
          have hcold := hinv.cover 1 le_rfl k hklt (d0 :: tl) hlegold (by simp)
            (by intro j hj1 hj2; omega)
          rw [List.take_succ_cons, List.take_zero, happ1] at hcold
          rcases hcold with hmem | ⟨y, hyF, hys, hyg⟩
          · exfalso
            apply hvx
            rw [he1lt k hklt, mapKeys_append]
            exact List.mem_append.mpr (Or.inl hmem)
          · have hynx : y ≠ x := by
              intro hcon
              apply hvx
              rw [hcon] at hys
              rw [he1lt k hklt, ← hys]
              exact hxmem'
            refine ⟨y, List.mem_append.mpr
              (Or.inl (hpop.mem_rest_of_ne hyF hynx)), ?_, ?_⟩
            · rw [he1lt k hklt]
              exact hys
            · rw [hglt k hklt]
              exact hyg
        · have hkeq : k = st.lastDirections.length := by omega
          subst hkeq
          rw [he1len] at hleg0 hvx ⊢
          rw [hgled]
          refine ⟨x.movedToNeighbour d0
            (x.puzzleState.createNeighbourMoveState d0) hu, ?_, rfl, le_refl _⟩
          refine List.mem_append.mpr (Or.inr ?_)
          refine expandPushes_mem.mpr
            ⟨d0, x.puzzleState.createNeighbourMoveState d0, ?_, ?_, rfl⟩
          · exact PuzzleState.mem_neighbours_iff.mpr ⟨hleg0, rfl⟩
          · exact (lookupDir_eq_none_iff _ _).mpr hvx
    | inr hi'pos =>
        rw [List.take_succ_cons, applyS_cons] at hvx ⊢
        have hu1mem : applyS (entry1 s0
            (st.lastDirections ++ [(x.puzzleState, x.lastDirection)]) k)
            ((d0 :: tl).take 1) ∈
            mapKeys (st.lastDirections ++ [(x.puzzleState, x.lastDirection)]) :=
          hpre 1 le_rfl (by omega)
        rw [show (d0 :: tl).take 1 = [d0] from rfl, happ1] at hu1mem
        obtain ⟨k1, hk1, hk1eq⟩ := mem_mapKeys_index s0 hu1mem
        obtain ⟨p, hple, hpap, hplen⟩ := hmreal' k hk
        have hg1 : gAt (gs ++ [x.distanceFromStart]) k1 ≤
            gAt (gs ++ [x.distanceFromStart]) k + 1 := by
          have hplegs : legalSeqS s0 (p ++ [d0]) :=
            (legalSeqS_append s0 p [d0]).mpr ⟨hple, by rw [hpap]; exact ⟨hleg0, trivial⟩⟩
          have happ2 : applyS s0 (p ++ [d0]) = entry1 s0
              (st.lastDirections ++ [(x.puzzleState, x.lastDirection)]) k1 := by
            rw [hk1eq, applyS_append, hpap, happ1]
          have := hmopt' k1 hk1 (p ++ [d0]) hplegs happ2
          simp only [List.length_append, List.length_singleton, hplen] at this
          omega
        have htlleg : legalSeqS (entry1 s0
            (st.lastDirections ++ [(x.puzzleState, x.lastDirection)]) k1) tl := by
          rw [hk1eq]
          exact hlegtl
        have htlpre : ∀ j, 1 ≤ j → j < i' → applyS (entry1 s0
            (st.lastDirections ++ [(x.puzzleState, x.lastDirection)]) k1)
            (tl.take j) ∈
            mapKeys (st.lastDirections ++ [(x.puzzleState, x.lastDirection)]) := by
          intro j hj1 hj2
          have := hpre (j + 1) (by omega) (by omega)
          rw [List.take_succ_cons, applyS_cons] at this
          rw [hk1eq]
          exact this
        have hilen' : i' ≤ tl.length := by
          simp only [List.length_cons] at hilen
          omega
        have hIH := IH i' (by omega) k1 hk1 tl hi'pos htlleg hilen' htlpre
        rcases hIH with hmem | ⟨y, hyF', hys, hyg⟩
        · exfalso
          apply hvx
          rw [hk1eq] at hmem
          exact hmem
        · refine ⟨y, hyF', ?_, ?_⟩
          · rw [hys, hk1eq]
          · omega
  refine ⟨?_, ?_, ?_, ?_, ?_, hmreal', hmopt', ?_, ?_, ?_, ?_, ?_⟩
  · simp [hglen]
  · rw [mapKeys_append, List.nodup_append]
    refine ⟨hinv.knodup, by simp [mapKeys], ?_⟩
    intro a ha hb
    have hax : a = x.puzzleState := by simpa [mapKeys] using hb
    subst hax
    exact hnewk ha
  · intro k hk
    rw [hlenM'] at hk
    rcases Nat.lt_or_ge k st.lastDirections.length with hlt | hge
    · rw [he1lt k hlt]
      exact hinv.kvalid k hlt
    · have hkeq : k = st.lastDirections.length := by omega
      subst hkeq
      rw [he1len]
      exact hxval
  · intro k hk
    rw [hlenM'] at hk
    rcases Nat.lt_or_ge k st.lastDirections.length with hlt | hge
    · rw [he1lt k hlt]
      exact Or.inl (curr_keys_unsolved hinv hns k hlt)
    · have hkeq : k = st.lastDirections.length := by omega
      subst hkeq
      rw [he1len]
      exact Or.inr rfl
  · intro k hk
    rw [hlenM'] at hk
    rcases Nat.lt_or_ge k st.lastDirections.length with hlt | hge
    · constructor
      · intro hdnone
        rw [he2lt k hlt] at hdnone
        obtain ⟨h0, hkey, hg⟩ := (hinv.chain k hlt).1 hdnone
        refine ⟨h0, ?_, ?_⟩
        · rw [he1lt k hlt]
          exact hkey
        · rw [hglt k hlt]
          exact hg
      · intro d hd
        rw [he2lt k hlt] at hd
        obtain ⟨j, hj, hlegj, hstepj, hgj⟩ := (hinv.chain k hlt).2 d hd
        have hjlt : j < st.lastDirections.length := lt_trans hj hlt
        refine ⟨j, hj, ?_, ?_, ?_⟩
        · rw [he1lt j hjlt]
          exact hlegj
        · rw [he1lt j hjlt, he1lt k hlt]
          exact hstepj
        · rw [hglt k hlt, hglt j hjlt]
          exact hgj
    · have hkeq : k = st.lastDirections.length := by omega
      subst hkeq
      constructor
      · intro hdnone
        rw [he2len] at hdnone
        rcases hinv.flink x hpop.mem with ⟨hx0, hM0⟩ | ⟨k0, hk0, d, hxd, -⟩
        · refine ⟨by simp [hM0], ?_, ?_⟩
          · rw [he1len, hx0]
            rfl
          · rw [hgled, hx0]
            rfl
        · rw [hxd] at hdnone
          exact absurd hdnone (by simp)
      · intro d hd
        rw [he2len] at hd
        rcases hinv.flink x hpop.mem with ⟨hx0, hM0⟩ |
          ⟨k0, hk0, d2, hxd, hlegk0, hstepk0, hgk0⟩
        · rw [hx0] at hd
          exact absurd hd (by simp [initState])
        · rw [hxd] at hd
          injection hd with hdd
          subst hdd
          refine ⟨k0, hk0, ?_, ?_, ?_⟩
          · rw [he1lt k0 hk0]
            exact hlegk0
          · rw [he1lt k0 hk0, he1len]
            exact hstepk0
          · rw [hgled, hglt k0 hk0]
            exact hgk0
  · intro y hy
    rcases List.mem_append.mp hy with hyr | hyp
    · exact hinv.fco y (hpop.rest_subset hyr)
    · obtain ⟨d, s2, hmemn, hlk, rfl⟩ := expandPushes_mem.mp hyp
      obtain ⟨hlegd, hs2⟩ := PuzzleState.mem_neighbours_iff.mp hmemn
      refine ⟨rfl, ?_⟩
      rw [hs2] at *
      exact hxval.step hn hlegd
  · intro y hy
    rcases List.mem_append.mp hy with hyr | hyp
    · exact hinv.freal y (hpop.rest_subset hyr)
    · obtain ⟨d, s2, hmemn, hlk, rfl⟩ := expandPushes_mem.mp hyp
      obtain ⟨hlegd, hs2⟩ := PuzzleState.mem_neighbours_iff.mp hmemn
      obtain ⟨p, hple, hpap, hplen⟩ := hxreal
      refine ⟨p ++ [d], ?_, ?_, ?_⟩
      · exact (legalSeqS_append s0 p [d]).mpr
          ⟨hple, by rw [hpap]; exact ⟨hlegd, trivial⟩⟩
      · rw [applyS_append, hpap, happ1, ← hs2]
        rfl
      · simp [hplen, AstarState.movedToNeighbour]
  · intro y hy
    rcases List.mem_append.mp hy with hyr | hyp
    · rcases hinv.flink y (hpop.rest_subset hyr) with ⟨hy0, hM0⟩ |
        ⟨k0, hk0, d, hyd, hlegk0, hstepk0, hgk0⟩
      · exfalso
        obtain ⟨-, hF⟩ := hinv.init0 hM0
        obtain ⟨⟨i, hget, hrest⟩, -⟩ := hpop
        have hlen1 : st.frontier.length = 1 := by rw [hF]; rfl
        have hi1 : i.val < 1 := lt_of_lt_of_eq i.isLt hlen1
        have hi0 : i.val = 0 := by omega
        rw [hrest, hi0, hF] at hyr
        simp at hyr
      · refine Or.inr ⟨k0, ?_, d, hyd, ?_, ?_, ?_⟩
        · rw [hlenM']
          omega
        · rw [he1lt k0 hk0]
          exact hlegk0
        · rw [he1lt k0 hk0]
          exact hstepk0
        · rw [hglt k0 hk0]
          exact hgk0
    · obtain ⟨d, s2, hmemn, hlk, rfl⟩ := expandPushes_mem.mp hyp
      obtain ⟨hlegd, hs2⟩ := PuzzleState.mem_neighbours_iff.mp hmemn
      refine Or.inr ⟨st.lastDirections.length, by rw [hlenM']; omega, d, rfl,
        ?_, ?_, ?_⟩
      · rw [he1len]
        exact hlegd
      · rw [he1len, ← hs2]
        rfl
      · rw [hgled]
        rfl
  · intro i hi1 k hk ds hleg hile hpre
    exact hcov' i k hk ds hi1 hleg hile hpre
  · intro hm
    exact absurd hm (by simp)

theorem inv_step {n : Nat} [NeZero n] (hn : n ≤ 4) {hu : Heuristic n}
    (hcons : Consistent hu) {s0 : PuzzleState n} (hs0 : ValidState s0)
    {st st' : SolveLoopState n} {gs : List Nat} (hinv : LoopInv hu s0 st gs)
    (hstep : SolveStep hu st st') : ∃ gs', LoopInv hu s0 st' gs' := by
  cases hstep with
  | skip x rest hns hpop hvis =>
      exact ⟨gs, inv_step_skip hinv hns hpop hvis⟩
  | expand x rest hns hpop hnew =>
      exact ⟨gs ++ [x.distanceFromStart],
        inv_step_expand hn hcons hs0 hinv hns hpop hnew⟩

theorem inv_reaches {n : Nat} [NeZero n] (hn : n ≤ 4) {hu : Heuristic n}
    (hcons : Consistent hu) {s0 : PuzzleState n} (hs0 : ValidState s0)
    {st st' : SolveLoopState n} {gs : List Nat} (hinv : LoopInv hu s0 st gs)
    (hrun : SolveReaches hu st st') : ∃ gs', LoopInv hu s0 st' gs' := by
  induction hrun with
  | refl => exact ⟨gs, hinv⟩
  | tail hab hbc ih =>
      obtain ⟨gs1, h1⟩ := ih
      exact inv_step hn hcons hs0 h1 hbc

theorem solved_valid_eq {n : Nat} [NeZero n] (hn2 : 2 ≤ n) {s t : PuzzleState n}
    (hsv : ValidState s) (htv : ValidState t) (hss : s.isSolved)
    (hts : t.isSolved) : s = t := by
  have hs' : s.readableNumbers = goalBoard n :=
    (boardIsSolved_iff hn2 _).mp hss
  have ht' : t.readableNumbers = goalBoard n :=
    (boardIsSolved_iff hn2 _).mp hts
  rw [← hsv.2, ← htv.2, hs', ht']

theorem walk_spec {n : Nat} [NeZero n] (hn : n ≤ 4) {hu : Heuristic n}
    {s0 : PuzzleState n} {st : SolveLoopState n} {gs : List Nat}
    (hinv : LoopInv hu s0 st gs) :
    ∀ k, k < st.lastDirections.length → ∀ fuel, k + 1 ≤ fuel →
    ∃ r, createRouteAux st.lastDirections fuel (entry1 s0 st.lastDirections k)
        (entry2 s0 st.lastDirections k) = some r ∧
      r.length = gAt gs k ∧ legalSeqS s0 r.reverse ∧
      applyS s0 r.reverse = entry1 s0 st.lastDirections k := by
  intro k
  induction k using Nat.strong_induction_on with
  | _ k IH =>
  intro hk fuel hfuel
  obtain ⟨fuel', rfl⟩ : ∃ f', fuel = f' + 1 := ⟨fuel - 1, by omega⟩
  cases hdir : entry2 s0 st.lastDirections k with
  | none =>
      obtain ⟨hk0, hkey, hg⟩ := (hinv.chain k hk).1 hdir
      refine ⟨[], rfl, by simp [hg], trivial, by rw [List.reverse_nil, applyS_nil, hkey]⟩
  | some d =>
      obtain ⟨j, hjk, hlegj, hstepj, hgj⟩ := (hinv.chain k hk).2 d hdir
      have hjlt : j < st.lastDirections.length := lt_trans hjk hk
      have hvalj : ValidState (entry1 s0 st.lastDirections j) := hinv.kvalid j hjlt
      have hprev : (entry1 s0 st.lastDirections k).createNeighbourMoveState
          d.opposite = entry1 s0 st.lastDirections j := by
        rw [← hstepj]
        exact (hvalj.step_inverse hn hlegj).2
      have hlook : lookupDir st.lastDirections (entry1 s0 st.lastDirections j) =
          some (entry2 s0 st.lastDirections j) :=
        lookupDir_getD hinv.knodup (s0, none) j hjlt
      obtain ⟨r, hrw, hrl, hrleg, hrapp⟩ := IH j hjk hjlt fuel' (by omega)
      refine ⟨d :: r, ?_, ?_, ?_, ?_⟩
      · show createRouteAux _ (fuel' + 1) _ (some d) = _
        simp only [createRouteAux]
        rw [hprev, hlook]
        show Option.map (fun l => d :: l) (createRouteAux st.lastDirections fuel'
          (entry1 s0 st.lastDirections j) (entry2 s0 st.lastDirections j)) =
          some (d :: r)
        rw [hrw]
        rfl
      · simp [hrl, hgj]
      · rw [List.reverse_cons]
        refine (legalSeqS_append s0 r.reverse [d]).mpr ⟨hrleg, ?_⟩
        rw [hrapp]
        exact ⟨hlegj, trivial⟩
      · rw [List.reverse_cons, applyS_append, hrapp]
        exact hstepj

theorem solve_sound {n : Nat} [NeZero n] (hn2 : 2 ≤ n) (hn : n ≤ 4)
    {hu : Heuristic n} (hcons : Consistent hu) {s0 : PuzzleState n}
    (hs0 : ValidState s0) {stf : SolveLoopState n}
    (hrun : SolveReaches hu ⟨initState hu s0, [], [initState hu s0]⟩ stf)
    (hsolved : stf.curr.isSolved) :
    ∃ route, stf.curr.createRoute stf.lastDirections = some route ∧
      legalSeqS s0 route ∧ applyS s0 route = stf.curr.puzzleState ∧
      ∀ ds, legalSeqS s0 ds → (applyS s0 ds).isSolved →
        route.length ≤ ds.length := by
  rcases Relation.ReflTransGen.cases_tail hrun with heq | ⟨b, hab, hbc⟩
  · subst heq
    refine ⟨[], rfl, trivial, rfl, ?_⟩
    intro ds h1 h2
    exact Nat.zero_le _
  · obtain ⟨gsb, hinvb⟩ := inv_reaches hn hcons hs0 (inv_init hu hs0) hab
    cases hbc with
    | skip x rest hns hpop hvis =>
        exfalso
        have hxk : x.puzzleState ∈ mapKeys b.lastDirections := by
          by_contra hcon
          exact hvis ((lookupDir_eq_none_iff _ _).mpr hcon)
        obtain ⟨k, hk, hkeq⟩ := mem_mapKeys_index s0 hxk
        have hnsk := curr_keys_unsolved hinvb hns k hk
        rw [hkeq] at hnsk
        exact hnsk hsolved
    | expand x rest hns hpop hnew =>
        have hinvf := inv_step_expand hn hcons hs0 hinvb hns hpop hnew
        have hkM : b.lastDirections.length <
            (b.lastDirections ++ [(x.puzzleState, x.lastDirection)]).length := by
          simp
        obtain ⟨r, hrw, hrl, hrleg, hrapp⟩ := walk_spec hn hinvf
          b.lastDirections.length hkM
          ((b.lastDirections ++ [(x.puzzleState, x.lastDirection)]).length + 1)
          (by simp)
        have he1 : entry1 s0
            (b.lastDirections ++ [(x.puzzleState, x.lastDirection)])
            b.lastDirections.length = x.puzzleState := by
          unfold entry1
          rw [getD_append_len]
        have he2 : entry2 s0
            (b.lastDirections ++ [(x.puzzleState, x.lastDirection)])
            b.lastDirections.length = x.lastDirection := by
          unfold entry2
          rw [getD_append_len]
        have hgl : gAt (gsb ++ [x.distanceFromStart])
            b.lastDirections.length = x.distanceFromStart := by
          unfold gAt
          rw [show b.lastDirections.length = gsb.length from hinvb.glen.symm,
            getD_append_len]
        rw [he1, he2] at hrw
        rw [he1] at hrapp
        rw [hgl] at hrl
        refine ⟨r.reverse, ?_, hrleg, hrapp, ?_⟩
        · show AstarState.createRoute x
            (b.lastDirections ++ [(x.puzzleState, x.lastDirection)]) = _
          unfold AstarState.createRoute
          rw [hrw]
          rfl
        · intro ds hdsleg hdssol
          have hnewk : x.puzzleState ∉ mapKeys b.lastDirections :=
            (lookupDir_eq_none_iff _ _).mp hnew
          have hdval : ValidState (applyS s0 ds) := validState_applyS hn hs0 hdsleg
          have hxval : ValidState x.puzzleState := (hinvb.fco x hpop.mem).2
          have heqx : applyS s0 ds = x.puzzleState :=
            solved_valid_eq hn2 hdval hxval hdssol hsolved
          have hgopt := pop_g_opt hn hcons hs0 hinvb hpop hnewk ds hdsleg heqx
          rw [List.length_reverse, hrl]
          exact hgopt

/-- Injective code of a valid configuration into a finite type. -/
def stateCode {n : Nat} [NeZero n] (s : PuzzleState n) :
    (Fin n × Fin n) → Option (Fin (n * n)) := fun rc =>
  (s.readableNumbers rc.1 rc.2).map fun v =>
    ⟨v % (n * n), Nat.mod_lt _ (Nat.mul_pos (NeZero.pos n) (NeZero.pos n))⟩

theorem stateCode_inj {n : Nat} [NeZero n] {s t : PuzzleState n}
    (hs : ValidState s) (ht : ValidState t) (h : stateCode s = stateCode t) :
    s = t := by
  have hread : s.readableNumbers = t.readableNumbers := by
    funext r c
    have hrc := congrFun h (r, c)
    unfold stateCode at hrc
    simp only at hrc
    cases hsv : s.readableNumbers r c with
    | none =>
        cases htv : t.readableNumbers r c with
        | none => rfl
        | some w =>
            rw [hsv, htv] at hrc
            simp at hrc
    | some v =>
        cases htv : t.readableNumbers r c with
        | none =>
            rw [hsv, htv] at hrc
            simp at hrc
        | some w =>
            rw [hsv, htv] at hrc
            simp only [Option.map_some', Option.some.injEq] at hrc
            have hv := hs.1.mem_values hsv
            have hw := ht.1.mem_values htv
            have hvlt : v < n * n := by
              have := Nat.one_le_iff_ne_zero.mp (Nat.mul_pos (NeZero.pos n)
                (NeZero.pos n))
              omega
            have hwlt : w < n * n := by omega
            have : v % (n * n) = w % (n * n) := by
              simpa [Fin.ext_iff] using hrc
            rw [Nat.mod_eq_of_lt hvlt, Nat.mod_eq_of_lt hwlt] at this
            rw [this]
  rw [← hs.2, ← ht.2, hread]

theorem validKeys_length_le {n : Nat} [NeZero n] (l : List (PuzzleState n))
    (hnd : l.Nodup) (hval : ∀ s ∈ l, ValidState s) :
    l.length ≤ Fintype.card ((Fin n × Fin n) → Option (Fin (n * n))) := by
  have hmapnd : (l.map stateCode).Nodup := by
    refine List.Nodup.map_on ?_ hnd
    intro a ha b hb hab
    exact stateCode_inj (hval a ha) (hval b hb) hab
  have := List.Nodup.length_le_card hmapnd
  simpa using this

theorem boardNeighbours_length_le {n : Nat} [NeZero n] (b : Board n) :
    (boardNeighbours b).length ≤ 4 := by
  unfold boardNeighbours
  split_ifs <;> simp

theorem expandPushes_length_le {n : Nat} [NeZero n] (hu : Heuristic n)
    (x : AstarState n) (m : List (PuzzleState n × Option Direction)) :
    (expandPushes hu x m).length ≤ 4 := by
  unfold expandPushes
  rw [List.length_map]
  calc (List.filter _ x.neighbours).length ≤ x.neighbours.length :=
        List.length_filter_le _ _
    _ ≤ 4 := by
        show (x.puzzleState.neighbours).length ≤ 4
        unfold PuzzleState.neighbours
        rw [List.length_map]
        exact boardNeighbours_length_le _

theorem exists_min_fValue {n : Nat} (F : List (AstarState n)) (hF : F ≠ []) :
    ∃ i : Fin F.length, ∀ y ∈ F, (F.get i).fValue ≤ y.fValue := by
  induction F with
  | nil => exact absurd rfl hF
  | cons a tl ih =>
      by_cases htl : tl = []
      · subst htl
        refine ⟨⟨0, by simp⟩, ?_⟩
        intro y hy
        have hya : y = a := by simpa using hy
        rw [hya]
        exact le_refl _
      · obtain ⟨j, hj⟩ := ih htl
        rcases le_or_lt a.fValue (tl.get j).fValue with hle | hlt
        · refine ⟨⟨0, by simp⟩, ?_⟩
          intro y hy
          rcases List.mem_cons.mp hy with rfl | hmem
          · exact le_refl _
          · exact le_trans hle (hj y hmem)
        · refine ⟨⟨j.val + 1, by simp [j.isLt]⟩, ?_⟩
          intro y hy
          have hget : (a :: tl).get ⟨j.val + 1, by simp [j.isLt]⟩ = tl.get j := rfl
          rw [hget]
          rcases List.mem_cons.mp hy with rfl | hmem
          · exact le_of_lt hlt
          · exact hj y hmem

theorem frontier_ne_nil {n : Nat} [NeZero n] {hu : Heuristic n}
    {s0 : PuzzleState n} {st : SolveLoopState n} {gs : List Nat}
    (hinv : LoopInv hu s0 st gs) (hns : ¬st.curr.isSolved)
    {ds : List Direction} (hleg : legalSeqS s0 ds)
    (hsol : (applyS s0 ds).isSolved) : st.frontier ≠ [] := by
  by_cases hM : st.lastDirections = []
  · obtain ⟨-, hF⟩ := hinv.init0 hM
    rw [hF]
    simp
  · have hlen : 0 < st.lastDirections.length := List.length_pos.mpr hM
    have hchain0 := hinv.chain 0 hlen
    have hk0 : entry1 s0 st.lastDirections 0 = s0 := by
      cases hd0 : entry2 s0 st.lastDirections 0 with
      | none => exact (hchain0.1 hd0).2.1
      | some d =>
          obtain ⟨j, hj, -⟩ := hchain0.2 d hd0
          omega
    have hkeysuns := curr_keys_unsolved hinv hns
    have hend : applyS s0 ds ∉ mapKeys st.lastDirections := by
      intro hmem
      obtain ⟨k, hk, hkeq⟩ := mem_mapKeys_index s0 hmem
      exact hkeysuns k hk (hkeq ▸ hsol)
    have hL : 1 ≤ ds.length := by
      rcases Nat.eq_zero_or_pos ds.length with h0 | h
      · exfalso
        rw [List.length_eq_zero.mp h0, applyS_nil] at hend
        exact hend (hk0 ▸ mapKeys_getD_mem _ (s0, none) 0 hlen)
      · exact h
    have hex : ∃ i, 1 ≤ i ∧ applyS s0 (ds.take i) ∉ mapKeys st.lastDirections :=
      ⟨ds.length, hL, by rw [List.take_length]; exact hend⟩
    have h1le := (Nat.find_spec hex).1
    have hnotmem := (Nat.find_spec hex).2
    have hile : Nat.find hex ≤ ds.length :=
      Nat.find_min' hex ⟨hL, by rw [List.take_length]; exact hend⟩
    have hprefix : ∀ j, 1 ≤ j → j < Nat.find hex →
        applyS s0 (ds.take j) ∈ mapKeys st.lastDirections := by
      intro j hj1 hjlt
      have := Nat.find_min hex hjlt
      by_contra hcon
      exact this ⟨hj1, hcon⟩
    have hcov := hinv.cover (Nat.find hex) h1le 0 hlen ds
    rw [hk0] at hcov
    rcases hcov hleg hile hprefix with hmem | ⟨y, hyF, -⟩
    · exact absurd hmem hnotmem
    · exact List.ne_nil_of_mem hyF

/-- The termination measure of the loop: provenance-map growth is bounded by
the number of valid configurations. -/
def solveMeasure {n : Nat} (N : Nat) (st : SolveLoopState n) : Nat :=
  (N + 1 - st.lastDirections.length) * 4 + st.frontier.length

theorem step_exists {n : Nat} [NeZero n] (hu : Heuristic n)
    {st : SolveLoopState n} (hns : ¬st.curr.isSolved) (hF : st.frontier ≠ []) :
    ∃ st', SolveStep hu st st' := by
  obtain ⟨i, hmin⟩ := exists_min_fValue st.frontier hF
  have hpop : PopMin st.frontier (st.frontier.get i)
      (st.frontier.eraseIdx i.val) := ⟨⟨i, rfl, rfl⟩, hmin⟩
  by_cases hv : lookupDir st.lastDirections (st.frontier.get i).puzzleState = none
  · exact ⟨_, SolveStep.expand st _ _ hns hpop hv⟩
  · exact ⟨_, SolveStep.skip st _ _ hns hpop hv⟩

theorem run_to_solved {n : Nat} [NeZero n] (hn : n ≤ 4)
    {hu : Heuristic n} (hcons : Consistent hu) {s0 : PuzzleState n}
    (hs0 : ValidState s0) {ds : List Direction} (hleg : legalSeqS s0 ds)
    (hsol : (applyS s0 ds).isSolved) :
    ∀ st gs, LoopInv hu s0 st gs →
      ∃ stf, SolveReaches hu st stf ∧ stf.curr.isSolved := by
  suffices H : ∀ μ st gs,
      solveMeasure (Fintype.card ((Fin n × Fin n) → Option (Fin (n * n)))) st ≤ μ →
      LoopInv hu s0 st gs →
      ∃ stf, SolveReaches hu st stf ∧ stf.curr.isSolved by
    intro st gs hinv
    exact H _ st gs le_rfl hinv
  intro μ
  induction μ using Nat.strong_induction_on with
  | _ μ IH =>
  intro st gs hμ hinv
  by_cases hs : st.curr.isSolved
  · exact ⟨st, Relation.ReflTransGen.refl, hs⟩
  · have hF : st.frontier ≠ [] := frontier_ne_nil hinv hs hleg hsol
    obtain ⟨st', hstep⟩ := step_exists hu hs hF
    obtain ⟨gs', hinv'⟩ := inv_step hn hcons hs0 hinv hstep
    have hkeys' : (mapKeys st'.lastDirections).length ≤
        Fintype.card ((Fin n × Fin n) → Option (Fin (n * n))) := by
      refine validKeys_length_le _ hinv'.knodup ?_
      intro s hsmem
      obtain ⟨k, hk, hkeq⟩ := mem_mapKeys_index s0 hsmem
      exact hkeq ▸ hinv'.kvalid k hk
    have hkeyslen : (mapKeys st'.lastDirections).length =
        st'.lastDirections.length := by simp [mapKeys]
    have hdec : solveMeasure
        (Fintype.card ((Fin n × Fin n) → Option (Fin (n * n)))) st' <
        solveMeasure (Fintype.card ((Fin n × Fin n) → Option (Fin (n * n)))) st := by
      cases hstep with
      | skip x rest hns hpop hvis =>
          obtain ⟨⟨i, -, hrest⟩, -⟩ := hpop
          have hlr : rest.length = st.frontier.length - 1 := by
            rw [hrest]
            simp [List.length_eraseIdx, i.isLt]
          have hFpos : 0 < st.frontier.length := List.length_pos.mpr hF
          show (Fintype.card ((Fin n × Fin n) → Option (Fin (n * n))) + 1 -
              st.lastDirections.length) * 4 + rest.length <
            (Fintype.card ((Fin n × Fin n) → Option (Fin (n * n))) + 1 -
              st.lastDirections.length) * 4 + st.frontier.length
          omega
      | expand x rest hns hpop hnew =>
          obtain ⟨⟨i, -, hrest⟩, -⟩ := hpop
          have hlr : rest.length = st.frontier.length - 1 := by
            rw [hrest]
            simp [List.length_eraseIdx, i.isLt]
          have hFpos : 0 < st.frontier.length := List.length_pos.mpr hF
          have hMlen : st.lastDirections.length + 1 ≤
              Fintype.card ((Fin n × Fin n) → Option (Fin (n * n))) := by
            rw [hkeyslen] at hkeys'
            simpa using hkeys'
          have hpush := expandPushes_length_le hu x
            (st.lastDirections ++ [(x.puzzleState, x.lastDirection)])
          show (Fintype.card ((Fin n × Fin n) → Option (Fin (n * n))) + 1 -
              (st.lastDirections ++
                [(x.puzzleState, x.lastDirection)]).length) * 4 +
              (rest ++ expandPushes hu x (st.lastDirections ++
                [(x.puzzleState, x.lastDirection)])).length <
            (Fintype.card ((Fin n × Fin n) → Option (Fin (n * n))) + 1 -
              st.lastDirections.length) * 4 + st.frontier.length
          rw [List.length_append rest, List.length_append, List.length_singleton]
          omega
    obtain ⟨stf, hreach', hsolved⟩ :=
      IH _ (lt_of_lt_of_le hdec hμ) st' gs' le_rfl hinv'
    exact ⟨stf, Relation.ReflTransGen.head hstep hreach', hsolved⟩

theorem isSolved_eq_goal {n : Nat} [NeZero n] (hn2 : 2 ≤ n) {s : PuzzleState n}
    (hv : ValidState s) (hs : s.isSolved) :
    s = PuzzleState.ofBoard (goalBoard n) := by
  have hread := (boardIsSolved_iff hn2 _).mp hs
  rw [← hv.2, hread]

/-- C1: for every valid, solvable 4×4 start and every admissible and
consistent heuristic, the A* loop terminates with some solution, and every
solution the loop can return — under any tie-breaking order of the binary
heap — has a direction sequence that is a legal blank-move sequence leading
from the start to the goal configuration whose length is that of a shortest
such sequence. -/
theorem C1_astar_optimal (hu : Heuristic 4) (hadm : Admissible hu)
    (hcons : Consistent hu) (b : Board 4) (hb : checkNumbers b = .ok ())
    (hsolvable : (PuzzleState.ofBoard b).isSolvable)
    (ds0 : List Direction) (hds0 : legalSeqS (PuzzleState.ofBoard b) ds0)
    (hds0sol : (applyS (PuzzleState.ofBoard b) ds0).isSolved) :
    (∃ sol, SolveWithHeuristicR hu (PuzzleState.ofBoard b) (some sol)) ∧
    ∀ sol, SolveWithHeuristicR hu (PuzzleState.ofBoard b) (some sol) →
      legalSeqS (PuzzleState.ofBoard b) sol.steps ∧
      applyS (PuzzleState.ofBoard b) sol.steps =
        PuzzleState.ofBoard (goalBoard 4) ∧
      ∀ ds, legalSeqS (PuzzleState.ofBoard b) ds →
        (applyS (PuzzleState.ofBoard b) ds).isSolved →
        sol.steps.length ≤ ds.length := by
  have hvb : ValidBoard b := (checkNumbers_ok_iff (by omega) b).mp hb
  have hs0 : ValidState (PuzzleState.ofBoard b) :=
    ValidState.ofBoard (by omega) hvb
  constructor
  · obtain ⟨stf, hrun, hsolved⟩ := run_to_solved (by omega) hcons hs0 hds0
      hds0sol _ [] (inv_init hu hs0)
    obtain ⟨route, hroute, hrleg, hrapp, hopt⟩ :=
      solve_sound (by omega) (by omega) hcons hs0 hrun hsolved
    refine ⟨⟨route, stf.lastDirections.length⟩, ?_⟩
    exact SolveWithHeuristicR.solved (initState hu (PuzzleState.ofBoard b)) stf
      route (inital_of_solvable _ hu hsolvable) hrun hsolved hroute
  · intro sol hrel
    cases hrel with
    | solved c0 stf route hok hrun hsolved hroute =>
        have hc0 : c0 = initState hu (PuzzleState.ofBoard b) := by
          rw [inital_of_solvable _ hu hsolvable] at hok
          injection hok with h
          exact h.symm
        rw [hc0] at hrun
        obtain ⟨route', hroute', hrleg, hrapp, hopt⟩ :=
          solve_sound (by omega) (by omega) hcons hs0 hrun hsolved
        have hre : route = route' := by
          rw [hroute] at hroute'
          exact Option.some_injective _ hroute'
        subst hre
        refine ⟨hrleg, ?_, hopt⟩
        rw [hrapp]
        have hval : ValidState stf.curr.puzzleState :=
          hrapp ▸ validState_applyS (by omega) hs0 hrleg
        exact isSolved_eq_goal (by omega) hval hsolved

/-- C1 witness: the zero heuristic (admissible and consistent) on the solved
board. -/
theorem C1_astar_optimal_witness :
    ∃ sol, SolveWithHeuristicR (fun b => 0)
      (PuzzleState.ofBoard (goalBoard 4)) (some sol) :=
  (C1_astar_optimal (fun b => 0) (fun s hs ds hl hsol => Nat.zero_le _)
    (fun s hs d hl => Nat.zero_le _) (goalBoard 4) rfl (by decide)
    [] trivial (by decide)).1

/-! Pattern databases (`heuristics/disjoint_databases`).  `PUZZLE_SIZE` and
`DATABASE_SIZE` are both 4 in the source. -/

/-- `BoardState` from `board_state.rs`: the coordinates of the four tracked
elements, the blank coordinates, and the `ignore_last` flag. -/
structure DbBoardState where
  elements : List (Nat × Nat)
  blank : Nat × Nat
  ignoreLast : Bool
deriving DecidableEq

/-- The element scan of `BoardState::create_neighbour`: find the first element
standing on the new blank cell and move it to the old blank cell (one step
against the move direction); with `ignore_last`, the last element is never
moved.  `idx` is the running element index. -/
def moveElementsLoop (nb : Nat × Nat) (diff : Int × Int) (ignoreLast : Bool) :
    List (Nat × Nat) → Nat → List (Nat × Nat) × Bool
  | [], _ => ([], false)
  | e :: rest, idx =>
      if e = nb then
        if ignoreLast = true ∧ idx = 3 then (e :: rest, false)
        else ((((e.1 : Int) + diff.1 * (-1)).toNat,
          ((e.2 : Int) + diff.2 * (-1)).toNat) :: rest, true)
      else
        let r := moveElementsLoop nb diff ignoreLast rest (idx + 1)
        (e :: r.1, r.2)

/-- `BoardState::create_neighbour`: move the blank by `d`; report whether a
tracked element was displaced. -/
def dbCreateNeighbour (s : DbBoardState) (d : Direction) : DbBoardState × Bool :=
  let diff := d.asCoordinates
  let nb : Nat × Nat :=
    (((s.blank.1 : Int) + diff.1).toNat, ((s.blank.2 : Int) + diff.2).toNat)
  let r := moveElementsLoop nb diff s.ignoreLast s.elements 0
  (⟨r.1, nb, s.ignoreLast⟩, r.2)

/-- `BoardState::neighbours`: the edge-guarded moves in source order. -/
def dbNeighbours (s : DbBoardState) : List (DbBoardState × Bool) :=
  (if s.blank.1 ≠ 0 then [dbCreateNeighbour s .up] else []) ++
  (if s.blank.1 ≠ 3 then [dbCreateNeighbour s .down] else []) ++
  (if s.blank.2 ≠ 0 then [dbCreateNeighbour s .left] else []) ++
  (if s.blank.2 ≠ 3 then [dbCreateNeighbour s .right] else [])

/-- The packing loop of `Combination::from_readable`: 4-bit cell indexes of the
counted elements, Horner-packed; with `ignore_last` the last element is
skipped. -/
def combinationLoop (ignoreLast : Bool) : List (Nat × Nat) → Nat → Nat
  | [], _ => 0
  | e :: rest, idx =>
      if ignoreLast = true ∧ idx = 3 then 0
      else (e.1 * 4 + e.2) * 16 ^ idx + combinationLoop ignoreLast rest (idx + 1)

/-- `BoardState::extract_combination`. -/
def dbCombination (s : DbBoardState) : Nat := combinationLoop s.ignoreLast s.elements 0

/-- `BFSState::initial`: the four elements on their home row, blank at the
bottom-right corner. -/
def dbInitial (firstIdx : Nat) (ignoreLast : Bool) : DbBoardState :=
  ⟨[(firstIdx / 4, 0), (firstIdx / 4, 1), (firstIdx / 4, 2), (firstIdx / 4, 3)],
    (3, 3), ignoreLast⟩

/-- The loop state of `Database::new`.  `popped` is a ghost field recording the
pop history (it mirrors `visited` minus the frontier and is used only to state
the invariant). -/
structure DbLoopState where
  visited : List DbBoardState
  frontier : List (DbBoardState × Nat)
  distances : List (Nat × Nat)
  popped : List (DbBoardState × Nat)

/-- The neighbour loop of one `Database::new` iteration: each neighbour whose
board state is not yet visited is marked visited and pushed with the parent's
shift count, incremented when the neighbour displaced an element. -/
def dbExpand : List (DbBoardState × Bool) → Nat → List DbBoardState →
    List DbBoardState × List (DbBoardState × Nat)
  | [], _, vis => (vis, [])
  | (s, moved) :: rest, shifts, vis =>
      if s ∈ vis then dbExpand rest shifts vis
      else
        let r := dbExpand rest shifts (vis ++ [s])
        (r.1, (s, shifts + if moved then 1 else 0) :: r.2)

/-- A pop of `BinaryHeap<Reverse<BFSState>>`: the heap order compares only the
shift counts, so some entry with minimal shift count is removed. -/
def DbPopMin (frontier : List (DbBoardState × Nat)) (x : DbBoardState × Nat)
    (rest : List (DbBoardState × Nat)) : Prop :=
  (∃ i : Fin frontier.length, frontier.get i = x ∧ rest = frontier.eraseIdx i.val) ∧
    ∀ y ∈ frontier, x.2 ≤ y.2

/-- One iteration of the `while !frontier.is_empty()` loop of `Database::new`:
pop a minimal entry, record its combination if new, then mark and push the
unvisited neighbours. -/
inductive DbStep : DbLoopState → DbLoopState → Prop
  | pop (st : DbLoopState) (x : DbBoardState × Nat)
      (rest : List (DbBoardState × Nat)) (hpop : DbPopMin st.frontier x rest) :
      DbStep st
        ⟨(dbExpand (dbNeighbours x.1) x.2 st.visited).1,
          rest ++ (dbExpand (dbNeighbours x.1) x.2 st.visited).2,
          if dbCombination x.1 ∈ st.distances.map Prod.fst then st.distances
          else st.distances ++ [(dbCombination x.1, x.2)],
          st.popped ++ [x]⟩

/-- Zero or more iterations. -/
def DbReaches : DbLoopState → DbLoopState → Prop := Relation.ReflTransGen DbStep

/-- The loop state just before the first iteration of `Database::new`. -/
def dbInitLoop (firstIdx : Nat) (ignoreLast : Bool) : DbLoopState :=
  ⟨[dbInitial firstIdx ignoreLast], [(dbInitial firstIdx ignoreLast, 0)], [], []⟩

/-- Legality of one blank move on a reduced board (the edge guards of
`BoardState::neighbours`). -/
def dbLegal (s : DbBoardState) : Direction → Prop
  | .up => s.blank.1 ≠ 0
  | .down => s.blank.1 ≠ 3
  | .left => s.blank.2 ≠ 0
  | .right => s.blank.2 ≠ 3

instance (s : DbBoardState) (d : Direction) : Decidable (dbLegal s d) := by
  cases d <;> (unfold dbLegal; infer_instance)

/-- The board state after one blank move. -/
def dbMove (s : DbBoardState) (d : Direction) : DbBoardState :=
  (dbCreateNeighbour s d).1

/-- The displacement cost of one blank move: 1 when a tracked element was
relocated, 0 otherwise. -/
def dbMoveCost (s : DbBoardState) (d : Direction) : Nat :=
  if (dbCreateNeighbour s d).2 then 1 else 0

/-- A legal sequence of blank moves on a reduced board. -/
def dbLegalSeq : DbBoardState → List Direction → Prop
  | _, [] => True
  | s, d :: ds => dbLegal s d ∧ dbLegalSeq (dbMove s d) ds

/-- Applying a move sequence to a reduced board. -/
def dbApply (s : DbBoardState) (ds : List Direction) : DbBoardState :=
  ds.foldl dbMove s

/-- The displacement count of a move sequence: the number of moves that
relocate a tracked element. -/
def dbCost : DbBoardState → List Direction → Nat
  | _, [] => 0
  | s, d :: ds => dbMoveCost s d + dbCost (dbMove s d) ds

theorem dbApply_nil (s : DbBoardState) : dbApply s [] = s := rfl

theorem dbApply_cons (s : DbBoardState) (d : Direction) (ds : List Direction) :
    dbApply s (d :: ds) = dbApply (dbMove s d) ds := rfl

theorem dbApply_append (s : DbBoardState) (l1 l2 : List Direction) :
    dbApply s (l1 ++ l2) = dbApply (dbApply s l1) l2 := by
  simp [dbApply, List.foldl_append]

theorem dbLegalSeq_append (s : DbBoardState) (l1 l2 : List Direction) :
    dbLegalSeq s (l1 ++ l2) ↔ dbLegalSeq s l1 ∧ dbLegalSeq (dbApply s l1) l2 := by
  induction l1 generalizing s with
  | nil => simp [dbLegalSeq, dbApply_nil]
  | cons d l1 ih =>
      rw [List.cons_append]
      show dbLegal s d ∧ dbLegalSeq _ (l1 ++ l2) ↔
        (dbLegal s d ∧ dbLegalSeq _ l1) ∧ _
      rw [ih, dbApply_cons]
      tauto

theorem dbCost_append (s : DbBoardState) (l1 l2 : List Direction) :
    dbCost s (l1 ++ l2) = dbCost s l1 + dbCost (dbApply s l1) l2 := by
  induction l1 generalizing s with
  | nil => simp [dbCost, dbApply_nil]
  | cons d l1 ih =>
      rw [List.cons_append]
      show dbMoveCost s d + dbCost _ (l1 ++ l2) = _
      rw [ih, dbApply_cons]
      show _ = dbMoveCost s d + dbCost (dbMove s d) l1 + _
      omega

theorem dbLegalSeq_take (s : DbBoardState) {ds : List Direction}
    (h : dbLegalSeq s ds) (i : Nat) : dbLegalSeq s (ds.take i) := by
  induction ds generalizing s i with
  | nil => simpa using h
  | cons d tl ih =>
      cases i with
      | zero => trivial
      | succ i => exact ⟨h.1, ih (dbMove s d) h.2 i⟩

theorem dbCost_take_le (s : DbBoardState) (ds : List Direction) (i : Nat) :
    dbCost s (ds.take i) ≤ dbCost s ds := by
  conv_rhs => rw [← List.take_append_drop i ds]
  rw [dbCost_append]
  omega

/-- Well-formed reduced board: four elements, all coordinates on the board. -/
def DbWF (s : DbBoardState) : Prop :=
  s.elements.length = 4 ∧ (∀ e ∈ s.elements, e.1 ≤ 3 ∧ e.2 ≤ 3) ∧
    s.blank.1 ≤ 3 ∧ s.blank.2 ≤ 3

theorem dbLegal_iff_bounds (s : DbBoardState) (hwf : DbWF s) (d : Direction) :
    dbLegal s d ↔
      (0 ≤ (s.blank.1 : Int) + d.asCoordinates.1 ∧
        (s.blank.1 : Int) + d.asCoordinates.1 ≤ 3 ∧
        0 ≤ (s.blank.2 : Int) + d.asCoordinates.2 ∧
        (s.blank.2 : Int) + d.asCoordinates.2 ≤ 3) := by
  obtain ⟨-, -, hb1, hb2⟩ := hwf
  cases d <;> simp only [dbLegal, Direction.asCoordinates] <;>
    constructor <;> intro h <;> omega

theorem mem_dbNeighbours_iff {s : DbBoardState} {y : DbBoardState × Bool} :
    y ∈ dbNeighbours s ↔ ∃ d, dbLegal s d ∧ y = dbCreateNeighbour s d := by
  unfold dbNeighbours
  constructor
  · intro hmem
    rcases List.mem_append.mp hmem with hmem | hmem4
    rcases List.mem_append.mp hmem with hmem | hmem3
    rcases List.mem_append.mp hmem with hmem1 | hmem2
    · by_cases hg : s.blank.1 ≠ 0
      · rw [if_pos hg] at hmem1
        exact ⟨.up, hg, List.mem_singleton.mp hmem1⟩
      · rw [if_neg hg] at hmem1
        simp at hmem1
    · by_cases hg : s.blank.1 ≠ 3
      · rw [if_pos hg] at hmem2
        exact ⟨.down, hg, List.mem_singleton.mp hmem2⟩
      · rw [if_neg hg] at hmem2
        simp at hmem2
    · by_cases hg : s.blank.2 ≠ 0
      · rw [if_pos hg] at hmem3
        exact ⟨.left, hg, List.mem_singleton.mp hmem3⟩
      · rw [if_neg hg] at hmem3
        simp at hmem3
    · by_cases hg : s.blank.2 ≠ 3
      · rw [if_pos hg] at hmem4
        exact ⟨.right, hg, List.mem_singleton.mp hmem4⟩
      · rw [if_neg hg] at hmem4
        simp at hmem4
  · rintro ⟨d, hleg, rfl⟩
    cases d with
    | up =>
        refine List.mem_append.mpr (Or.inl (List.mem_append.mpr (Or.inl
          (List.mem_append.mpr (Or.inl ?_)))))
        rw [if_pos (show s.blank.1 ≠ 0 from hleg)]
        exact List.mem_singleton.mpr rfl
    | down =>
        refine List.mem_append.mpr (Or.inl (List.mem_append.mpr (Or.inl
          (List.mem_append.mpr (Or.inr ?_)))))
        rw [if_pos (show s.blank.1 ≠ 3 from hleg)]
        exact List.mem_singleton.mpr rfl
    | left =>
        refine List.mem_append.mpr (Or.inl (List.mem_append.mpr (Or.inr ?_)))
        rw [if_pos (show s.blank.2 ≠ 0 from hleg)]
        exact List.mem_singleton.mpr rfl
    | right =>
        refine List.mem_append.mpr (Or.inr ?_)
        rw [if_pos (show s.blank.2 ≠ 3 from hleg)]
        exact List.mem_singleton.mpr rfl

theorem dbMove_blank (s : DbBoardState) (d : Direction) :
    (dbMove s d).blank =
      (((s.blank.1 : Int) + d.asCoordinates.1).toNat,
        ((s.blank.2 : Int) + d.asCoordinates.2).toNat) := rfl

theorem dbMove_ignoreLast (s : DbBoardState) (d : Direction) :
    (dbMove s d).ignoreLast = s.ignoreLast := rfl

theorem dbMove_blank_inj {s : DbBoardState} (hwf : DbWF s) {d1 d2 : Direction}
    (h1 : dbLegal s d1) (h2 : dbLegal s d2)
    (h : (dbMove s d1).blank = (dbMove s d2).blank) : d1 = d2 := by
  rw [dbMove_blank, dbMove_blank, Prod.mk.injEq] at h
  rw [dbLegal_iff_bounds s hwf] at h1 h2
  obtain ⟨ha, hb⟩ := h
  cases d1 <;> cases d2 <;> first
    | rfl
    | (exfalso
       simp only [Direction.asCoordinates] at h1 h2 ha hb
       omega)

theorem moveElementsLoop_spec (nb : Nat × Nat) (diff : Int × Int) (ig : Bool)
    (l : List (Nat × Nat)) (i : Nat) :
    moveElementsLoop nb diff ig l i = (l, false) ∨
    ∃ j, ∃ hj : j < l.length, l.get ⟨j, hj⟩ = nb ∧ ¬(ig = true ∧ i + j = 3) ∧
      moveElementsLoop nb diff ig l i =
        (l.set j (((nb.1 : Int) + diff.1 * (-1)).toNat,
          ((nb.2 : Int) + diff.2 * (-1)).toNat), true) := by
  induction l generalizing i with
  | nil => exact Or.inl rfl
  | cons e rest ih =>
      by_cases he : e = nb
      · subst he
        by_cases hig : ig = true ∧ i = 3
        · refine Or.inl ?_
          unfold moveElementsLoop
          rw [if_pos rfl, if_pos hig]
        · refine Or.inr ⟨0, by simp, by simp, by simpa using hig, ?_⟩
          unfold moveElementsLoop
          rw [if_pos rfl, if_neg hig]
          rfl
      · rcases ih (i + 1) with h | ⟨j, hj, hget, hcond, heq⟩
        · refine Or.inl ?_
          unfold moveElementsLoop
          rw [if_neg he]
          simp only [h]
        · refine Or.inr ⟨j + 1, by simpa using hj, by simpa using hget, ?_, ?_⟩
          · intro hcon
            exact hcond ⟨hcon.1, by omega⟩
          · unfold moveElementsLoop
            rw [if_neg he]
            simp only [heq]
            rfl

theorem dbMove_elements_spec (s : DbBoardState) (d : Direction) (hwf : DbWF s)
    (hleg : dbLegal s d) :
    ((dbCreateNeighbour s d).2 = false ∧ (dbMove s d).elements = s.elements) ∨
    ((dbCreateNeighbour s d).2 = true ∧ ∃ j, ∃ hj : j < s.elements.length,
      s.elements.get ⟨j, hj⟩ = (dbMove s d).blank ∧
      ¬(s.ignoreLast = true ∧ j = 3) ∧
      (dbMove s d).elements = s.elements.set j s.blank) := by
  have hb := (dbLegal_iff_bounds s hwf d).mp hleg
  rcases moveElementsLoop_spec
      (((s.blank.1 : Int) + d.asCoordinates.1).toNat,
        ((s.blank.2 : Int) + d.asCoordinates.2).toNat)
      d.asCoordinates s.ignoreLast s.elements 0 with h | ⟨j, hj, hget, hcond, heq⟩
  · refine Or.inl ⟨?_, ?_⟩
    · show (moveElementsLoop _ _ _ _ 0).2 = false
      rw [h]
    · show (moveElementsLoop _ _ _ _ 0).1 = s.elements
      rw [h]
  · refine Or.inr ⟨?_, j, hj, ?_, by simpa using hcond, ?_⟩
    · show (moveElementsLoop _ _ _ _ 0).2 = true
      rw [heq]
    · exact hget
    · show (moveElementsLoop _ _ _ _ 0).1 = _
      rw [heq]
      dsimp only
      congr 1
      apply Prod.ext <;> (dsimp only; omega)

theorem dbMove_wf {s : DbBoardState} (hwf : DbWF s) {d : Direction}
    (hleg : dbLegal s d) : DbWF (dbMove s d) := by
  have hb := (dbLegal_iff_bounds s hwf d).mp hleg
  obtain ⟨hlen, hcoords, hb1, hb2⟩ := hwf
  have hblank : (dbMove s d).blank.1 ≤ 3 ∧ (dbMove s d).blank.2 ≤ 3 := by
    rw [dbMove_blank]
    constructor <;> simp only <;> omega
  rcases dbMove_elements_spec s d ⟨hlen, hcoords, hb1, hb2⟩ hleg with
    ⟨-, hels⟩ | ⟨-, j, hj, -, -, hels⟩
  · exact ⟨by rw [hels]; exact hlen, by rw [hels]; exact hcoords,
      hblank.1, hblank.2⟩
  · refine ⟨by rw [hels]; simpa using hlen, ?_, hblank.1, hblank.2⟩
    intro e he
    rw [hels] at he
    rcases List.mem_or_eq_of_mem_set he with hmem | rfl
    · exact hcoords e hmem
    · exact ⟨hb1, hb2⟩

/-- The parity potential: the coordinate sum of all counted elements. -/
def dbPhi (s : DbBoardState) : Nat :=
  ((if s.ignoreLast = true then s.elements.take 3 else s.elements).map
    fun e => e.1 + e.2).sum

theorem sum_map_set (l : List (Nat × Nat)) (j : Nat) (hj : j < l.length)
    (v : Nat × Nat) (f : Nat × Nat → Nat) :
    ((l.set j v).map f).sum + f (l.get ⟨j, hj⟩) = (l.map f).sum + f v := by
  induction l generalizing j with
  | nil => simp at hj
  | cons e rest ih =>
      cases j with
      | zero => simp [List.set]; omega
      | succ j =>
          have hj2 : j < rest.length := by simpa using hj
          have := ih j hj2
          simp only [List.set, List.map_cons, List.sum_cons, List.get_cons_succ]
          omega

theorem take_set_lt {α : Type _} (l : List α) (j k : Nat) (v : α) (hjk : j < k) :
    (l.set j v).take k = (l.take k).set j v := by
  induction l generalizing j k with
  | nil => simp
  | cons e rest ih =>
      cases j with
      | zero =>
          cases k with
          | zero => omega
          | succ k => simp [List.set]
      | succ j =>
          cases k with
          | zero => omega
          | succ k =>
              simp only [List.set, List.take_succ_cons]
              rw [ih j k (by omega)]

theorem dbPhi_move (s : DbBoardState) (d : Direction) (hwf : DbWF s)
    (hleg : dbLegal s d) :
    (dbPhi (dbMove s d) + dbMoveCost s d) % 2 = dbPhi s % 2 := by
  have hb := (dbLegal_iff_bounds s hwf d).mp hleg
  have hig : (dbMove s d).ignoreLast = s.ignoreLast := rfl
  rcases dbMove_elements_spec s d hwf hleg with
    ⟨hflag, hels⟩ | ⟨hflag, j, hj, hget, hcond, hels⟩
  · have hcost : dbMoveCost s d = 0 := by simp [dbMoveCost, hflag]
    unfold dbPhi
    rw [hig, hels, hcost]
    omega
  · have hcost : dbMoveCost s d = 1 := by simp [dbMoveCost, hflag]
    have hparity : ((dbMove s d).blank.1 + (dbMove s d).blank.2 + 1) % 2 =
        (s.blank.1 + s.blank.2) % 2 ∨
        ((dbMove s d).blank.1 + (dbMove s d).blank.2) % 2 =
        (s.blank.1 + s.blank.2 + 1) % 2 := by
      rw [dbMove_blank]
      cases d with
      | up =>
          refine Or.inl ?_
          simp only [Direction.asCoordinates] at hb ⊢
          omega
      | down =>
          refine Or.inr ?_
          simp only [Direction.asCoordinates] at hb ⊢
          omega
      | left =>
          refine Or.inl ?_
          simp only [Direction.asCoordinates] at hb ⊢
          omega
      | right =>
          refine Or.inr ?_
          simp only [Direction.asCoordinates] at hb ⊢
          omega
    unfold dbPhi
    rw [hig, hels, hcost]
    cases hcase : s.ignoreLast with
    | false =>
        rw [if_neg (by simp), if_neg (by simp)]
        have hsum := sum_map_set s.elements j hj s.blank (fun e => e.1 + e.2)
        rw [hget] at hsum
        omega
    | true =>
        rw [if_pos rfl, if_pos rfl]
        have hjlt3 : j < 3 := by
          rcases Nat.lt_or_ge j 3 with h | h
          · exact h
          · exfalso
            obtain ⟨hlen, -, -, -⟩ := hwf
            have hj3 : j = 3 := by omega
            exact hcond ⟨hcase, hj3⟩
        rw [take_set_lt _ j 3 _ hjlt3]
        have hjt : j < (s.elements.take 3).length := by
          obtain ⟨hlen, -⟩ := hwf
          rw [List.length_take, hlen]
          omega
        have hsum := sum_map_set (s.elements.take 3) j hjt s.blank
          (fun e => e.1 + e.2)
        have hgt : (s.elements.take 3).get ⟨j, hjt⟩ =
            s.elements.get ⟨j, hj⟩ := by
          simp
        rw [hgt, hget] at hsum
        omega

theorem dbPhi_path (s : DbBoardState) (ds : List Direction) (hwf : DbWF s)
    (hleg : dbLegalSeq s ds) :
    (dbPhi (dbApply s ds) + dbCost s ds) % 2 = dbPhi s % 2 := by
  induction ds generalizing s with
  | nil => simp [dbApply_nil, dbCost]
  | cons d tl ih =>
      obtain ⟨h1, h2⟩ := hleg
      have hmv := dbPhi_move s d hwf h1
      have htl := ih (dbMove s d) (dbMove_wf hwf h1) h2
      rw [dbApply_cons]
      show (dbPhi (dbApply (dbMove s d) tl) + (dbMoveCost s d + dbCost (dbMove s d) tl)) % 2 = _
      omega

theorem dbExpand_cons (s : DbBoardState) (m : Bool)
    (rest : List (DbBoardState × Bool)) (sh : Nat) (vis : List DbBoardState) :
    dbExpand ((s, m) :: rest) sh vis =
      if s ∈ vis then dbExpand rest sh vis
      else ((dbExpand rest sh (vis ++ [s])).1,
        (s, sh + if m then 1 else 0) :: (dbExpand rest sh (vis ++ [s])).2) := by
  rfl

theorem dbExpand_visited (l : List (DbBoardState × Bool)) (sh : Nat)
    (vis : List DbBoardState) :
    (dbExpand l sh vis).1 = vis ++ (dbExpand l sh vis).2.map Prod.fst := by
  induction l generalizing vis with
  | nil => simp [dbExpand]
  | cons p rest ih =>
      obtain ⟨s, m⟩ := p
      rw [dbExpand_cons]
      by_cases hv : s ∈ vis
      · rw [if_pos hv]
        exact ih vis
      · rw [if_neg hv]
        dsimp only
        rw [ih (vis ++ [s])]
        simp

theorem dbExpand_push_mem {l : List (DbBoardState × Bool)} {sh : Nat}
    {vis : List DbBoardState} {v : DbBoardState} {k : Nat}
    (h : (v, k) ∈ (dbExpand l sh vis).2) :
    v ∉ vis ∧ ∃ m, (v, m) ∈ l ∧ k = sh + (if m then 1 else 0) := by
  induction l generalizing vis with
  | nil => simp [dbExpand] at h
  | cons p rest ih =>
      obtain ⟨s, m⟩ := p
      rw [dbExpand_cons] at h
      by_cases hv : s ∈ vis
      · rw [if_pos hv] at h
        obtain ⟨hnv, m2, hm2, hk⟩ := ih h
        exact ⟨hnv, m2, List.mem_cons_of_mem _ hm2, hk⟩
      · rw [if_neg hv] at h
        dsimp only at h
        rcases List.mem_cons.mp h with heq | hmem
        · rw [Prod.mk.injEq] at heq
          obtain ⟨rfl, rfl⟩ := heq
          exact ⟨hv, m, List.mem_cons_self _ _, rfl⟩
        · obtain ⟨hnv, m2, hm2, hk⟩ := ih hmem
          refine ⟨fun hcon => hnv (List.mem_append.mpr (Or.inl hcon)),
            m2, List.mem_cons_of_mem _ hm2, hk⟩

theorem dbExpand_covers (l : List (DbBoardState × Bool)) (sh : Nat)
    (vis : List DbBoardState) :
    ∀ s m, (s, m) ∈ l → s ∈ (dbExpand l sh vis).1 := by
  induction l generalizing vis with
  | nil => simp
  | cons p rest ih =>
      obtain ⟨s0, m0⟩ := p
      intro s m hmem
      rw [dbExpand_cons]
      by_cases hv : s0 ∈ vis
      · rw [if_pos hv]
        rcases List.mem_cons.mp hmem with heq | hmem2
        · rw [Prod.mk.injEq] at heq
          obtain ⟨rfl, rfl⟩ := heq
          rw [dbExpand_visited]
          exact List.mem_append.mpr (Or.inl hv)
        · exact ih vis s m hmem2
      · rw [if_neg hv]
        dsimp only
        rcases List.mem_cons.mp hmem with heq | hmem2
        · rw [Prod.mk.injEq] at heq
          obtain ⟨rfl, rfl⟩ := heq
          rw [dbExpand_visited]
          exact List.mem_append.mpr (Or.inl (List.mem_append.mpr (Or.inr (by simp))))
        · exact ih (vis ++ [s0]) s m hmem2

theorem dbExpand_vis_subset (l : List (DbBoardState × Bool)) (sh : Nat)
    (vis : List DbBoardState) {s : DbBoardState} (hs : s ∈ vis) :
    s ∈ (dbExpand l sh vis).1 := by
  rw [dbExpand_visited]
  exact List.mem_append.mpr (Or.inl hs)

theorem dbExpand_nodup (l : List (DbBoardState × Bool)) (sh : Nat)
    {vis : List DbBoardState} (hnd : vis.Nodup) : (dbExpand l sh vis).1.Nodup := by
  induction l generalizing vis with
  | nil => exact hnd
  | cons p rest ih =>
      obtain ⟨s, m⟩ := p
      rw [dbExpand_cons]
      by_cases hv : s ∈ vis
      · rw [if_pos hv]
        exact ih hnd
      · rw [if_neg hv]
        dsimp only
        refine ih ?_
        rw [List.nodup_append]
        exact ⟨hnd, by simp,
          by intro a ha hb; rw [List.mem_singleton.mp hb] at ha; exact hv ha⟩

/-- The `distances` table as a function of the pop history: insert each pop's
combination on first occurrence. -/
def dbTableAux (acc : List (Nat × Nat)) : List (DbBoardState × Nat) → List (Nat × Nat)
  | [] => acc
  | x :: rest =>
      dbTableAux (if dbCombination x.1 ∈ acc.map Prod.fst then acc
        else acc ++ [(dbCombination x.1, x.2)]) rest

theorem dbTableAux_append (acc : List (Nat × Nat)) (l : List (DbBoardState × Nat))
    (x : DbBoardState × Nat) :
    dbTableAux acc (l ++ [x]) =
      (if dbCombination x.1 ∈ (dbTableAux acc l).map Prod.fst then dbTableAux acc l
        else dbTableAux acc l ++ [(dbCombination x.1, x.2)]) := by
  induction l generalizing acc with
  | nil => rfl
  | cons y rest ih =>
      show dbTableAux _ (rest ++ [x]) = _
      rw [ih]
      rfl

theorem dbTableAux_keys_mem (acc : List (Nat × Nat)) (l : List (DbBoardState × Nat))
    (c : Nat) :
    c ∈ (dbTableAux acc l).map Prod.fst ↔
      c ∈ acc.map Prod.fst ∨ ∃ p ∈ l, dbCombination p.1 = c := by
  induction l generalizing acc with
  | nil => simp [dbTableAux]
  | cons x rest ih =>
      show c ∈ (dbTableAux _ rest).map Prod.fst ↔ _
      rw [ih]
      by_cases hc : dbCombination x.1 ∈ acc.map Prod.fst
      · rw [if_pos hc]
        constructor
        · rintro (h | h)
          · exact Or.inl h
          · exact Or.inr (by obtain ⟨p, hp, hpc⟩ := h; exact ⟨p, List.mem_cons_of_mem _ hp, hpc⟩)
        · rintro (h | ⟨p, hp, hpc⟩)
          · exact Or.inl h
          · rcases List.mem_cons.mp hp with rfl | hp2
            · exact Or.inl (hpc ▸ hc)
            · exact Or.inr ⟨p, hp2, hpc⟩
      · rw [if_neg hc]
        constructor
        · rintro (h | h)
          · rcases List.mem_map.mp h with ⟨e, he, hec⟩
            rcases List.mem_append.mp he with he2 | he2
            · exact Or.inl (List.mem_map.mpr ⟨e, he2, hec⟩)
            · rw [List.mem_singleton.mp he2] at hec
              exact Or.inr ⟨x, List.mem_cons_self _ _, hec⟩
          · exact Or.inr (by obtain ⟨p, hp, hpc⟩ := h; exact ⟨p, List.mem_cons_of_mem _ hp, hpc⟩)
        · rintro (h | ⟨p, hp, hpc⟩)
          · refine Or.inl ?_
            rcases List.mem_map.mp h with ⟨e, he, hec⟩
            exact List.mem_map.mpr ⟨e, List.mem_append.mpr (Or.inl he), hec⟩
          · rcases List.mem_cons.mp hp with rfl | hp2
            · exact Or.inl (List.mem_map.mpr ⟨(dbCombination p.1, p.2), by simp, hpc⟩)
            · exact Or.inr ⟨p, hp2, hpc⟩

theorem dbTableAux_mem_source (acc : List (Nat × Nat)) (l : List (DbBoardState × Nat))
    (c v : Nat) (h : (c, v) ∈ dbTableAux acc l) :
    (c, v) ∈ acc ∨ ∃ p ∈ l, dbCombination p.1 = c ∧ p.2 = v := by
  induction l generalizing acc with
  | nil => exact Or.inl h
  | cons x rest ih =>
      rcases ih _ h with hacc | ⟨p, hp, hpc⟩
      · by_cases hc : dbCombination x.1 ∈ acc.map Prod.fst
        · rw [if_pos hc] at hacc
          exact Or.inl hacc
        · rw [if_neg hc] at hacc
          rcases List.mem_append.mp hacc with h2 | h2
          · exact Or.inl h2
          · rw [List.mem_singleton] at h2
            rw [Prod.mk.injEq] at h2
            exact Or.inr ⟨x, List.mem_cons_self _ _, h2.1.symm, h2.2.symm⟩
      · exact Or.inr ⟨p, List.mem_cons_of_mem _ hp, hpc⟩

theorem dbTableAux_mem_of_key (acc : List (Nat × Nat)) (l : List (DbBoardState × Nat))
    (c v : Nat) (h : (c, v) ∈ dbTableAux acc l) (hc : c ∈ acc.map Prod.fst) :
    (c, v) ∈ acc := by
  induction l generalizing acc with
  | nil => exact h
  | cons x rest ih =>
      by_cases hx : dbCombination x.1 ∈ acc.map Prod.fst
      · rw [show dbTableAux acc (x :: rest) = dbTableAux acc rest by
          show dbTableAux _ rest = _; rw [if_pos hx]] at h
        exact ih acc h hc
      · rw [show dbTableAux acc (x :: rest) =
            dbTableAux (acc ++ [(dbCombination x.1, x.2)]) rest by
          show dbTableAux _ rest = _; rw [if_neg hx]] at h
        have := ih _ h (by rw [List.map_append]; exact List.mem_append.mpr (Or.inl hc))
        rcases List.mem_append.mp this with h2 | h2
        · exact h2
        · rw [List.mem_singleton] at h2
          rw [Prod.mk.injEq] at h2
          exact absurd (h2.1 ▸ hc) hx

theorem dbTableAux_min (l : List (DbBoardState × Nat))
    (hsort : l.Pairwise fun a b => a.2 ≤ b.2) :
    ∀ acc, (∀ cv ∈ acc, ∀ p ∈ l, dbCombination p.1 = cv.1 → cv.2 ≤ p.2) →
    ∀ c v, (c, v) ∈ dbTableAux acc l →
    ∀ p ∈ l, dbCombination p.1 = c → v ≤ p.2 := by
  induction l with
  | nil => intro acc hacc c v h p hp; simp at hp
  | cons x rest ih =>
      intro acc hacc c v h p hp hpc
      rw [List.pairwise_cons] at hsort
      have hstep : ∀ cv ∈ (if dbCombination x.1 ∈ acc.map Prod.fst then acc
          else acc ++ [(dbCombination x.1, x.2)]), ∀ q ∈ rest,
          dbCombination q.1 = cv.1 → cv.2 ≤ q.2 := by
        intro cv hcv q hq hqc
        by_cases hx : dbCombination x.1 ∈ acc.map Prod.fst
        · rw [if_pos hx] at hcv
          exact hacc cv hcv q (List.mem_cons_of_mem _ hq) hqc
        · rw [if_neg hx] at hcv
          rcases List.mem_append.mp hcv with h2 | h2
          · exact hacc cv h2 q (List.mem_cons_of_mem _ hq) hqc
          · rw [List.mem_singleton.mp h2]
            exact hsort.1 q hq
      rcases List.mem_cons.mp hp with rfl | hp2
      · -- p is the head x
        by_cases hx : dbCombination p.1 ∈ acc.map Prod.fst
        · have hmem : (c, v) ∈ acc := by
            refine dbTableAux_mem_of_key _ rest c v ?_ (hpc ▸ hx)
            rw [show dbTableAux acc (p :: rest) = dbTableAux acc rest by
              show dbTableAux _ rest = _; rw [if_pos hx]] at h
            exact h
          exact hacc (c, v) hmem p (List.mem_cons_self _ _) hpc
        · rw [show dbTableAux acc (p :: rest) =
              dbTableAux (acc ++ [(dbCombination p.1, p.2)]) rest by
            show dbTableAux _ rest = _; rw [if_neg hx]] at h
          have hmem : (c, v) ∈ acc ++ [(dbCombination p.1, p.2)] := by
            refine dbTableAux_mem_of_key _ rest c v h ?_
            rw [List.map_append]
            refine List.mem_append.mpr (Or.inr ?_)
            simp [hpc]
          rcases List.mem_append.mp hmem with h2 | h2
          · exact absurd (by rw [hpc]; exact List.mem_map.mpr ⟨(c, v), h2, rfl⟩) hx
          · rw [List.mem_singleton] at h2
            rw [Prod.mk.injEq] at h2
            omega
      · -- p in the tail
        refine ih hsort.2 _ hstep c v ?_ p hp2 hpc
        exact h

theorem dbApply_take_succ (s : DbBoardState) (ds : List Direction) (i : Nat)
    (hi : i < ds.length) :
    dbApply s (ds.take (i + 1)) = dbMove (dbApply s (ds.take i)) (ds.get ⟨i, hi⟩) := by
  rw [List.take_succ, dbApply_append]
  simp [List.getElem?_eq_getElem hi, dbApply]

theorem dbLegalSeq_get {s : DbBoardState} {ds : List Direction}
    (h : dbLegalSeq s ds) (i : Nat) (hi : i < ds.length) :
    dbLegal (dbApply s (ds.take i)) (ds.get ⟨i, hi⟩) := by
  induction ds generalizing s i with
  | nil => exact absurd hi (by simp)
  | cons d tl ih =>
      obtain ⟨h1, h2⟩ := h
      cases i with
      | zero => simpa [dbApply_nil] using h1
      | succ i =>
          rw [List.take_succ_cons, dbApply_cons]
          exact ih h2 i (by simpa using hi)

theorem dbCost_take_succ (s : DbBoardState) (ds : List Direction) (i : Nat)
    (hi : i < ds.length) :
    dbCost s (ds.take (i + 1)) =
      dbCost s (ds.take i) + dbMoveCost (dbApply s (ds.take i)) (ds.get ⟨i, hi⟩) := by
  rw [List.take_succ, dbCost_append]
  simp [List.getElem?_eq_getElem hi, dbCost]

/-- The loop invariant of `Database::new`: the visited set splits into the pop
history and the frontier; pop keys are exact distances (`pmin` with `preal`);
every neighbour of a popped state is visited, and if it still sits on the
frontier its key is at most the popped key plus the edge cost (`closure` — the
step that makes the visited-on-push scheme exact on this parity-rigid graph);
the distance table is the first-pop table of the history. -/
structure DbInv (i0 : DbBoardState) (st : DbLoopState) : Prop where
  vperm : st.visited.Perm (st.popped.map Prod.fst ++ st.frontier.map Prod.fst)
  vnodup : st.visited.Nodup
  wf : ∀ s ∈ st.visited, DbWF s
  mono : ∀ p ∈ st.popped, ∀ f ∈ st.frontier, p.2 ≤ f.2
  psorted : st.popped.Pairwise fun a b => a.2 ≤ b.2
  preal : ∀ p ∈ st.popped, ∃ ds, dbLegalSeq i0 ds ∧ dbApply i0 ds = p.1 ∧
    dbCost i0 ds = p.2
  freal : ∀ f ∈ st.frontier, ∃ ds, dbLegalSeq i0 ds ∧ dbApply i0 ds = f.1 ∧
    dbCost i0 ds = f.2
  pmin : ∀ p ∈ st.popped, ∀ ds, dbLegalSeq i0 ds → dbApply i0 ds = p.1 →
    p.2 ≤ dbCost i0 ds
  flink : ∀ f ∈ st.frontier, (f = (i0, 0) ∧ st.popped = []) ∨
    ∃ p ∈ st.popped, ∃ d, dbLegal p.1 d ∧ dbMove p.1 d = f.1 ∧
      f.2 = p.2 + dbMoveCost p.1 d
  closure : ∀ p ∈ st.popped, ∀ d, dbLegal p.1 d →
    dbMove p.1 d ∈ st.visited ∧
    ∀ k, (dbMove p.1 d, k) ∈ st.frontier → k ≤ p.2 + dbMoveCost p.1 d
  dist : st.distances = dbTableAux [] st.popped
  phead : st.popped ≠ [] → st.popped.head? = some (i0, 0)
  init0 : st.popped = [] → st.visited = [i0] ∧ st.frontier = [(i0, 0)] ∧
    st.distances = []

theorem dbInv_init (i0 : DbBoardState) (hwf : DbWF i0) :
    DbInv i0 ⟨[i0], [(i0, 0)], [], []⟩ := by
  refine ⟨by simp, by simp, ?_, by simp, by simp, by simp, ?_, by simp, ?_,
    by simp, rfl, by simp, fun hp => ⟨rfl, rfl, rfl⟩⟩
  · intro s hs
    rw [List.mem_singleton.mp hs]
    exact hwf
  · intro f hf
    rw [List.mem_singleton.mp hf]
    exact ⟨[], trivial, dbApply_nil i0, rfl⟩
  · intro f hf
    exact Or.inl ⟨List.mem_singleton.mp hf, rfl⟩

theorem DbPopMin.mem_frontier {F : List (DbBoardState × Nat)} {x : DbBoardState × Nat}
    {rest : List (DbBoardState × Nat)} (h : DbPopMin F x rest) : x ∈ F := by
  obtain ⟨⟨i, hget, -⟩, -⟩ := h
  exact hget ▸ List.get_mem F i.val i.isLt

theorem DbPopMin.rest_of_ne {F : List (DbBoardState × Nat)}
    {x : DbBoardState × Nat} {rest : List (DbBoardState × Nat)}
    (h : DbPopMin F x rest) {y : DbBoardState × Nat} (hy : y ∈ F) (hne : y ≠ x) :
    y ∈ rest := by
  obtain ⟨⟨i, hget, hrest⟩, -⟩ := h
  rw [hrest]
  refine mem_eraseIdx_of_ne F i.val x y ?_ hy hne
  rw [List.getElem?_eq_getElem i.isLt]
  rw [← hget]
  rfl

theorem DbPopMin.sub_frontier {F : List (DbBoardState × Nat)}
    {x : DbBoardState × Nat} {rest : List (DbBoardState × Nat)}
    (h : DbPopMin F x rest) {y : DbBoardState × Nat} (hy : y ∈ rest) : y ∈ F := by
  obtain ⟨⟨i, -, hrest⟩, -⟩ := h
  rw [hrest] at hy
  exact List.eraseIdx_subset F i.val hy

theorem DbPopMin.perm {F : List (DbBoardState × Nat)} {x : DbBoardState × Nat}
    {rest : List (DbBoardState × Nat)} (h : DbPopMin F x rest) :
    F.Perm (x :: rest) := by
  obtain ⟨⟨i, hget, hrest⟩, -⟩ := h
  have hsplit : F = F.take i.val ++ F[i.val] :: F.drop (i.val + 1) := by
    conv_lhs => rw [← List.take_append_drop i.val F]
    congr 1
    rw [List.drop_eq_getElem_cons i.isLt]
  have hx : F[i.val] = x := by
    rw [← hget]
    rfl
  have hr : rest = F.take i.val ++ F.drop (i.val + 1) := by
    rw [hrest, List.eraseIdx_eq_take_drop_succ]
  rw [hr, ← hx]
  conv_lhs => rw [hsplit]
  exact List.perm_middle

theorem dbPop_exact {i0 : DbBoardState} {st : DbLoopState} (hinv : DbInv i0 st)
    {x : DbBoardState × Nat} {rest : List (DbBoardState × Nat)}
    (hpop : DbPopMin st.frontier x rest) :
    ∀ ds, dbLegalSeq i0 ds → dbApply i0 ds = x.1 → x.2 ≤ dbCost i0 ds := by
  intro ds hleg happ
  by_cases hP : st.popped = []
  · obtain ⟨-, hF, -⟩ := hinv.init0 hP
    have hx := hpop.mem_frontier
    rw [hF] at hx
    rw [List.mem_singleton.mp hx]
    exact Nat.zero_le _
  · have hpfnd : (st.popped.map Prod.fst ++ st.frontier.map Prod.fst).Nodup :=
      hinv.vperm.nodup hinv.vnodup
    have hxF : x.1 ∈ st.frontier.map Prod.fst :=
      List.mem_map.mpr ⟨x, hpop.mem_frontier, rfl⟩
    have hxnotP : x.1 ∉ st.popped.map Prod.fst := by
      intro hcon
      rw [List.nodup_append] at hpfnd
      exact hpfnd.2.2 hcon hxF
    have hi0P : i0 ∈ st.popped.map Prod.fst := by
      have := hinv.phead hP
      cases hp : st.popped with
      | nil => exact absurd hp hP
      | cons a tl =>
          rw [hp] at this
          have ha : a = (i0, 0) := by simpa using this
          rw [ha]
          simp
    have hQL : dbApply i0 (ds.take ds.length) ∉ st.popped.map Prod.fst := by
      rw [List.take_length, happ]
      exact hxnotP
    have hex : ∃ i, dbApply i0 (ds.take i) ∉ st.popped.map Prod.fst :=
      ⟨ds.length, hQL⟩
    have hfind := Nat.find_spec hex
    have hfle : Nat.find hex ≤ ds.length := Nat.find_min' hex hQL
    have hfpos : 1 ≤ Nat.find hex := by
      rcases Nat.eq_zero_or_pos (Nat.find hex) with h0 | h
      · exfalso
        rw [h0] at hfind
        exact hfind (by rw [List.take_zero, dbApply_nil]; exact hi0P)
      · exact h
    obtain ⟨j, hjeq⟩ : ∃ j, Nat.find hex = j + 1 := ⟨Nat.find hex - 1, by omega⟩
    have hjlt : j < ds.length := by omega
    have hjP : dbApply i0 (ds.take j) ∈ st.popped.map Prod.fst := by
      by_contra hcon
      have := Nat.find_min hex (show j < Nat.find hex by omega)
      exact this hcon
    rcases List.mem_map.mp hjP with ⟨p, hpP, hpfst⟩
    have hkj : p.2 ≤ dbCost i0 (ds.take j) :=
      hinv.pmin p hpP _ (dbLegalSeq_take i0 hleg j) hpfst.symm
    have hlegj : dbLegal p.1 (ds.get ⟨j, hjlt⟩) := by
      rw [hpfst]
      exact dbLegalSeq_get hleg j hjlt
    obtain ⟨hvis, hkey⟩ := hinv.closure p hpP _ hlegj
    have hnext : dbMove p.1 (ds.get ⟨j, hjlt⟩) = dbApply i0 (ds.take (j + 1)) := by
      rw [dbApply_take_succ i0 ds j hjlt, hpfst]
    have hnextF : dbMove p.1 (ds.get ⟨j, hjlt⟩) ∈ st.frontier.map Prod.fst := by
      have hmem := (hinv.vperm.mem_iff).mp hvis
      rcases List.mem_append.mp hmem with hmem | hmem
      · exfalso
        rw [hnext] at hmem
        rw [hjeq] at hfind
        exact hfind hmem
      · exact hmem
    rcases List.mem_map.mp hnextF with ⟨f, hfF, hffst⟩
    have hkf : f.2 ≤ p.2 + dbMoveCost p.1 (ds.get ⟨j, hjlt⟩) := by
      refine hkey f.2 ?_
      rw [← hffst]
      simpa using hfF
    have hcost : dbCost i0 (ds.take (j + 1)) =
        dbCost i0 (ds.take j) + dbMoveCost p.1 (ds.get ⟨j, hjlt⟩) := by
      rw [dbCost_take_succ i0 ds j hjlt, hpfst]
    have hctl := dbCost_take_le i0 ds (j + 1)
    have hmin := hpop.2 f hfF
    omega

theorem dbMoveCost_le_one (s : DbBoardState) (d : Direction) :
    dbMoveCost s d ≤ 1 := by
  unfold dbMoveCost
  split <;> omega

theorem dbInv_step {i0 : DbBoardState} (hwfi : DbWF i0) {st st' : DbLoopState}
    (hinv : DbInv i0 st) (hstep : DbStep st st') : DbInv i0 st' := by
  cases hstep with
  | pop x rest hpop =>
  have hxmem := hpop.mem_frontier
  have hxvis : x.1 ∈ st.visited :=
    (hinv.vperm.mem_iff).mpr
      (List.mem_append.mpr (Or.inr (List.mem_map.mpr ⟨x, hxmem, rfl⟩)))
  have hxwf : DbWF x.1 := hinv.wf x.1 hxvis
  have hxreal := hinv.freal x hxmem
  have hxexact := dbPop_exact hinv hpop
  have hEvis := dbExpand_visited (dbNeighbours x.1) x.2 st.visited
  have hpushd : ∀ f ∈ (dbExpand (dbNeighbours x.1) x.2 st.visited).2,
      f.1 ∉ st.visited ∧ ∃ d, dbLegal x.1 d ∧ dbMove x.1 d = f.1 ∧
        f.2 = x.2 + dbMoveCost x.1 d := by
    intro f hf
    obtain ⟨hnv, m, hmem, hk⟩ := dbExpand_push_mem
      (show (f.1, f.2) ∈ _ by simpa using hf)
    obtain ⟨d, hleg, heq⟩ := mem_dbNeighbours_iff.mp hmem
    refine ⟨hnv, d, hleg, ?_, ?_⟩
    · rw [show dbMove x.1 d = (dbCreateNeighbour x.1 d).1 from rfl, ← heq]
    · rw [hk]
      congr 1
      rw [show dbMoveCost x.1 d =
        if (dbCreateNeighbour x.1 d).2 then 1 else 0 from rfl, ← heq]
  have hPle : ∀ p ∈ st.popped, p.2 ≤ x.2 := fun p hp => hinv.mono p hp x hxmem
  have hrestF : ∀ f ∈ rest, f ∈ st.frontier := fun f hf => hpop.sub_frontier hf
  have hrest0 : st.popped = [] → rest = [] := by
    intro hP
    obtain ⟨-, hF, -⟩ := hinv.init0 hP
    obtain ⟨⟨i, -, hrest⟩, -⟩ := hpop
    have hlen1 : st.frontier.length = 1 := by rw [hF]; rfl
    have hi1 : i.val < 1 := lt_of_lt_of_eq i.isLt hlen1
    have hi0 : i.val = 0 := by omega
    rw [hrest, hi0, hF]
    rfl
  refine ⟨?_, ?_, ?_, ?_, ?_, ?_, ?_, ?_, ?_, ?_, ?_, ?_, ?_⟩
  · -- vperm
    show (dbExpand (dbNeighbours x.1) x.2 st.visited).1.Perm _
    have h2 : (st.frontier.map Prod.fst).Perm
        (x.1 :: rest.map Prod.fst) := by
      have := hpop.perm.map Prod.fst
      simpa using this
    rw [hEvis]
    refine (hinv.vperm.append_right _).trans ?_
    refine ((h2.append_left _).append_right _).trans ?_
    have hfin : (st.popped.map Prod.fst ++ (x.1 :: rest.map Prod.fst)) ++
          (dbExpand (dbNeighbours x.1) x.2 st.visited).2.map Prod.fst =
        (st.popped ++ [x]).map Prod.fst ++
          (rest ++ (dbExpand (dbNeighbours x.1) x.2 st.visited).2).map
            Prod.fst := by simp
    exact hfin ▸ List.Perm.refl _
  · exact dbExpand_nodup _ _ hinv.vnodup
  · -- wf
    intro s hs
    rw [hEvis] at hs
    rcases List.mem_append.mp hs with hs | hs
    · exact hinv.wf s hs
    · rcases List.mem_map.mp hs with ⟨f, hf, hffst⟩
      obtain ⟨-, d, hleg, hmv, -⟩ := hpushd f hf
      rw [← hffst, ← hmv]
      exact dbMove_wf hxwf hleg
  · -- mono
    intro p hp f hf
    rcases List.mem_append.mp hp with hp | hp
    · rcases List.mem_append.mp hf with hf | hf
      · exact hinv.mono p hp f (hrestF f hf)
      · obtain ⟨-, d, -, -, hk⟩ := hpushd f hf
        have := hPle p hp
        omega
    · rw [List.mem_singleton.mp hp]
      rcases List.mem_append.mp hf with hf | hf
      · exact hpop.2 f (hrestF f hf)
      · obtain ⟨-, d, -, -, hk⟩ := hpushd f hf
        omega
  · -- psorted
    refine List.pairwise_append.mpr ⟨hinv.psorted, by simp, ?_⟩
    intro a ha b hb
    rw [List.mem_singleton.mp hb]
    exact hPle a ha
  · -- preal
    intro p hp
    rcases List.mem_append.mp hp with hp | hp
    · exact hinv.preal p hp
    · rw [List.mem_singleton.mp hp]
      exact hxreal
  · -- freal
    intro f hf
    rcases List.mem_append.mp hf with hf | hf
    · exact hinv.freal f (hrestF f hf)
    · obtain ⟨-, d, hleg, hmv, hk⟩ := hpushd f hf
      obtain ⟨ds, hdsleg, hdsapp, hdscost⟩ := hxreal
      refine ⟨ds ++ [d], ?_, ?_, ?_⟩
      · exact (dbLegalSeq_append i0 ds [d]).mpr
          ⟨hdsleg, by rw [hdsapp]; exact ⟨hleg, trivial⟩⟩
      · rw [dbApply_append, hdsapp]
        exact hmv
      · rw [dbCost_append, hdsapp, hdscost]
        show x.2 + (dbMoveCost x.1 d + 0) = f.2
        omega
  · -- pmin
    intro p hp
    rcases List.mem_append.mp hp with hp | hp
    · exact hinv.pmin p hp
    · rw [List.mem_singleton.mp hp]
      exact hxexact
  · -- flink
    intro f hf
    rcases List.mem_append.mp hf with hf | hf
    · rcases hinv.flink f (hrestF f hf) with ⟨-, hP⟩ | ⟨q, hq, d, hleg, hmv, hk⟩
      · exfalso
        rw [hrest0 hP] at hf
        simp at hf
      · exact Or.inr ⟨q, List.mem_append.mpr (Or.inl hq), d, hleg, hmv, hk⟩
    · obtain ⟨-, d, hleg, hmv, hk⟩ := hpushd f hf
      exact Or.inr ⟨x, List.mem_append.mpr (Or.inr (by simp)), d, hleg, hmv, hk⟩
  · -- closure
    intro p hp d hleg
    rcases List.mem_append.mp hp with hp | hp
    · obtain ⟨hvis, hbound⟩ := hinv.closure p hp d hleg
      constructor
      · exact dbExpand_vis_subset _ _ _ hvis
      · intro k hk
        rcases List.mem_append.mp hk with hk | hk
        · exact hbound k (hrestF _ hk)
        · obtain ⟨hnv, -, -, -, -⟩ := hpushd _ hk
          exact absurd hvis hnv
    · obtain rfl : x = p := (List.mem_singleton.mp hp).symm
      constructor
      · refine dbExpand_covers _ _ _ (dbMove x.1 d) (dbCreateNeighbour x.1 d).2 ?_
        exact mem_dbNeighbours_iff.mpr ⟨d, hleg, rfl⟩
      · intro k hk
        rcases List.mem_append.mp hk with hk | hk
        · -- already on the frontier
          have hkF : (dbMove x.1 d, k) ∈ st.frontier := hrestF _ hk
          rcases hinv.flink _ hkF with ⟨hf0, hP⟩ | ⟨q, hq, dq, hlegq, hmvq, hkq⟩
          · exfalso
            have := hrest0 hP
            rw [this] at hk
            simp at hk
          · have hq2 : q.2 ≤ x.2 := hPle q hq
            have hwq := dbMoveCost_le_one q.1 dq
            have hw := dbMoveCost_le_one x.1 d
            rcases le_or_lt (dbMoveCost q.1 dq) (dbMoveCost x.1 d) with
              hle | hgt
            · simp only at hkq
              omega
            · -- cost 1 push of a cost-0 neighbour: parity forces equality
              have hwq1 : dbMoveCost q.1 dq = 1 := by omega
              have hw0 : dbMoveCost x.1 d = 0 := by omega
              obtain ⟨dsk, hkleg, hkapp, hkcost⟩ := hinv.freal _ hkF
              have hphik := dbPhi_path i0 dsk hwfi hkleg
              obtain ⟨dsx, hxleg, hxapp, hxcost⟩ := hxreal
              have hphix := dbPhi_path i0 dsx hwfi hxleg
              have hphie := dbPhi_move x.1 d hxwf hleg
              have hxmin2 := hpop.2 _ hkF
              simp only at hxmin2
              rw [hkapp] at hphik
              rw [hxapp] at hphix
              rw [hw0] at hphie
              simp only at hkq
              rw [hkcost] at hphik
              rw [hxcost] at hphix
              dsimp only at hphik hxmin2 hkq
              omega
        · obtain ⟨-, d2, hleg2, hmv2, hk2⟩ := hpushd _ hk
          dsimp only at hmv2 hk2
          have hd2 : d2 = d := dbMove_blank_inj hxwf hleg2 hleg (by rw [hmv2])
          subst hd2
          omega
  · -- dist
    show (if dbCombination x.1 ∈ st.distances.map Prod.fst then st.distances
      else st.distances ++ [(dbCombination x.1, x.2)]) = _
    rw [dbTableAux_append, ← hinv.dist]
  · -- phead
    intro h
    cases hP : st.popped with
    | nil =>
        obtain ⟨-, hF, -⟩ := hinv.init0 hP
        have hx0 : x = (i0, 0) := by
          have hxm2 := hxmem
          rw [hF] at hxm2
          exact List.mem_singleton.mp hxm2
        rw [hx0]
        rfl
    | cons a tl =>
        have hh := hinv.phead (by rw [hP]; simp)
        rw [hP] at hh
        simpa using hh
  · -- init0
    intro h
    simp at h


theorem dbInv_reaches {i0 : DbBoardState} (hwfi : DbWF i0) {st st' : DbLoopState}
    (hinv : DbInv i0 st) (h : DbReaches st st') : DbInv i0 st' := by
  induction h with
  | refl => exact hinv
  | tail hab hbc ih => exact dbInv_step hwfi ih hbc

/-- A positional digit code for the tracked elements, base 16. -/
def dbElemCode : List (Nat × Nat) → Nat
  | [] => 0
  | e :: rest => (e.1 * 4 + e.2) + 16 * dbElemCode rest

/-- A numeric code for a reduced board state, injective on well-formed
states: four element digits, a blank digit and the ignore-last flag. -/
def dbStateCode (s : DbBoardState) : Nat :=
  dbElemCode s.elements + 65536 * (s.blank.1 * 4 + s.blank.2) +
    1048576 * (cond s.ignoreLast 1 0)

theorem dbElemCode_lt (l : List (Nat × Nat)) (hb : ∀ e ∈ l, e.1 ≤ 3 ∧ e.2 ≤ 3) :
    dbElemCode l < 16 ^ l.length := by
  induction l with
  | nil => simp [dbElemCode]
  | cons e rest ih =>
      have he := hb e (List.mem_cons_self _ _)
      have hr := ih (fun x hx => hb x (List.mem_cons_of_mem _ hx))
      show (e.1 * 4 + e.2) + 16 * dbElemCode rest < 16 ^ (rest.length + 1)
      rw [pow_succ]
      omega

theorem dbElemCode_inj : ∀ (l1 l2 : List (Nat × Nat)), l1.length = l2.length →
    (∀ e ∈ l1, e.1 ≤ 3 ∧ e.2 ≤ 3) → (∀ e ∈ l2, e.1 ≤ 3 ∧ e.2 ≤ 3) →
    dbElemCode l1 = dbElemCode l2 → l1 = l2 := by
  intro l1
  induction l1 with
  | nil =>
      intro l2 hlen _ _ _
      cases l2 with
      | nil => rfl
      | cons b r2 => simp at hlen
  | cons a r1 ih =>
      intro l2 hlen h1 h2 hcode
      cases l2 with
      | nil => simp at hlen
      | cons b r2 =>
          have ha := h1 a (List.mem_cons_self _ _)
          have hb := h2 b (List.mem_cons_self _ _)
          have hcr : dbElemCode (a :: r1) = (a.1 * 4 + a.2) + 16 * dbElemCode r1 :=
            rfl
          have hcs : dbElemCode (b :: r2) = (b.1 * 4 + b.2) + 16 * dbElemCode r2 :=
            rfl
          rw [hcr, hcs] at hcode
          have haeq : a = b := by
            apply Prod.ext <;> (dsimp only; omega)
          have hrest : r1 = r2 := by
            refine ih r2 (by simpa using hlen)
              (fun x hx => h1 x (List.mem_cons_of_mem _ hx))
              (fun x hx => h2 x (List.mem_cons_of_mem _ hx)) (by omega)
          rw [haeq, hrest]

theorem dbStateCode_inj {s t : DbBoardState} (hs : DbWF s) (ht : DbWF t)
    (h : dbStateCode s = dbStateCode t) : s = t := by
  obtain ⟨hsl, hsb, hsb1, hsb2⟩ := hs
  obtain ⟨htl, htb, htb1, htb2⟩ := ht
  have hse : dbElemCode s.elements < 65536 :=
    lt_of_lt_of_eq (hsl ▸ dbElemCode_lt s.elements hsb) (by norm_num)
  have hte : dbElemCode t.elements < 65536 :=
    lt_of_lt_of_eq (htl ▸ dbElemCode_lt t.elements htb) (by norm_num)
  unfold dbStateCode at h
  have hig : s.ignoreLast = t.ignoreLast := by
    cases hsi : s.ignoreLast <;> cases hti : t.ignoreLast <;>
        rw [hsi, hti] at h <;>
      simp only [Bool.cond_true, Bool.cond_false] at h <;>
      first
        | rfl
        | exact absurd h (by omega)
  rw [hig] at h
  have hE : dbElemCode s.elements = dbElemCode t.elements := by omega
  have hel : s.elements = t.elements :=
    dbElemCode_inj s.elements t.elements (by rw [hsl, htl]) hsb htb hE
  have hblank : s.blank = t.blank := by
    apply Prod.ext <;> (dsimp only; omega)
  calc s = ⟨s.elements, s.blank, s.ignoreLast⟩ := rfl
    _ = ⟨t.elements, t.blank, t.ignoreLast⟩ := by rw [hel, hblank, hig]
    _ = t := rfl

theorem dbVisited_length_le (l : List DbBoardState) (hnd : l.Nodup)
    (hwf : ∀ s ∈ l, DbWF s) : l.length ≤ 2097152 := by
  have hcode : ∀ s ∈ l, dbStateCode s < 2097152 := by
    intro s hsl
    obtain ⟨hsl4, hsb, hb1, hb2⟩ := hwf s hsl
    have hse : dbElemCode s.elements < 65536 :=
      lt_of_lt_of_eq (hsl4 ▸ dbElemCode_lt s.elements hsb) (by norm_num)
    have hc1 : cond s.ignoreLast 1 0 ≤ 1 := by
      cases s.ignoreLast <;> simp
    unfold dbStateCode
    omega
  have hmapnd : (l.map fun s =>
      (⟨dbStateCode s % 2097152, Nat.mod_lt _ (by norm_num)⟩ :
        Fin 2097152)).Nodup := by
    refine List.Nodup.map_on ?_ hnd
    intro a ha b hb hab
    have ha2 := hcode a ha
    have hb2 := hcode b hb
    have hmod : dbStateCode a % 2097152 = dbStateCode b % 2097152 := by
      simpa [Fin.ext_iff] using hab
    rw [Nat.mod_eq_of_lt ha2, Nat.mod_eq_of_lt hb2] at hmod
    exact dbStateCode_inj (hwf a ha) (hwf b hb) hmod
  have hcard := List.Nodup.length_le_card hmapnd
  rw [List.length_map, Fintype.card_fin] at hcard
  exact hcard

/-- The termination measure of the `Database::new` loop: visited growth is
bounded by the number of well-formed reduced board states. -/
def dbMeasure (st : DbLoopState) : Nat :=
  (2097153 - st.visited.length) * 2 + st.frontier.length

theorem dbExists_min (F : List (DbBoardState × Nat)) (hF : F ≠ []) :
    ∃ i : Fin F.length, ∀ y ∈ F, (F.get i).2 ≤ y.2 := by
  induction F with
  | nil => exact absurd rfl hF
  | cons a tl ih =>
      by_cases htl : tl = []
      · subst htl
        refine ⟨⟨0, by simp⟩, ?_⟩
        intro y hy
        have hya : y = a := by simpa using hy
        rw [hya]
        exact le_refl _
      · obtain ⟨j, hj⟩ := ih htl
        rcases le_or_lt a.2 (tl.get j).2 with hle | hlt
        · refine ⟨⟨0, by simp⟩, ?_⟩
          intro y hy
          rcases List.mem_cons.mp hy with rfl | hmem
          · exact le_refl _
          · exact le_trans hle (hj y hmem)
        · refine ⟨⟨j.val + 1, by simp [j.isLt]⟩, ?_⟩
          intro y hy
          have hget : (a :: tl).get ⟨j.val + 1, by simp [j.isLt]⟩ = tl.get j := rfl
          rw [hget]
          rcases List.mem_cons.mp hy with rfl | hmem
          · exact le_of_lt hlt
          · exact hj y hmem

theorem dbStep_exists (st : DbLoopState) (hF : st.frontier ≠ []) :
    ∃ st', DbStep st st' := by
  obtain ⟨i, hmin⟩ := dbExists_min st.frontier hF
  exact ⟨_, DbStep.pop st (st.frontier.get i) (st.frontier.eraseIdx i.val)
    ⟨⟨i, rfl, rfl⟩, hmin⟩⟩

theorem dbRun_to_empty {i0 : DbBoardState} (hwf : DbWF i0) :
    ∀ μ st, dbMeasure st ≤ μ → DbInv i0 st →
      ∃ stf, DbReaches st stf ∧ stf.frontier = [] ∧ DbInv i0 stf := by
  intro μ
  induction μ using Nat.strong_induction_on with
  | _ μ IH =>
  intro st hμ hinv
  by_cases hF : st.frontier = []
  · exact ⟨st, Relation.ReflTransGen.refl, hF, hinv⟩
  · obtain ⟨st', hstep⟩ := dbStep_exists st hF
    have hinv' := dbInv_step hwf hinv hstep
    have hvlen' : st'.visited.length ≤ 2097152 :=
      dbVisited_length_le _ hinv'.vnodup hinv'.wf
    have hdec : dbMeasure st' < dbMeasure st := by
      cases hstep with
      | pop x rest hpop =>
          obtain ⟨⟨i, -, hrest⟩, -⟩ := hpop
          have hlr : rest.length = st.frontier.length - 1 := by
            rw [hrest]
            simp [List.length_eraseIdx, i.isLt]
          have hFpos : 0 < st.frontier.length := List.length_pos.mpr hF
          have hvis := dbExpand_visited (dbNeighbours x.1) x.2 st.visited
          dsimp only at hvlen'
          rw [hvis, List.length_append, List.length_map] at hvlen'
          show (2097153 -
              (dbExpand (dbNeighbours x.1) x.2 st.visited).1.length) * 2 +
              (rest ++ (dbExpand (dbNeighbours x.1) x.2 st.visited).2).length <
            (2097153 - st.visited.length) * 2 + st.frontier.length
          rw [List.length_append, hvis, List.length_append, List.length_map]
          omega
    obtain ⟨stf, hreach', hFf, hinvf⟩ :=
      IH _ (lt_of_lt_of_le hdec hμ) st' le_rfl hinv'
    exact ⟨stf, Relation.ReflTransGen.head hstep hreach', hFf, hinvf⟩

theorem dbTerminal_popped {i0 : DbBoardState} {stf : DbLoopState}
    (hinv : DbInv i0 stf) (hF : stf.frontier = []) :
    ∀ ds, dbLegalSeq i0 ds → dbApply i0 ds ∈ stf.popped.map Prod.fst := by
  have hvis : ∀ s ∈ stf.visited, s ∈ stf.popped.map Prod.fst := by
    intro s hs
    have hmem := hinv.vperm.mem_iff.mp hs
    rw [hF] at hmem
    simpa using hmem
  have hP : stf.popped ≠ [] := by
    intro hp
    obtain ⟨-, hFr, -⟩ := hinv.init0 hp
    rw [hF] at hFr
    simp at hFr
  have hi0 : i0 ∈ stf.popped.map Prod.fst := by
    have hhd := hinv.phead hP
    cases hp : stf.popped with
    | nil => exact absurd hp hP
    | cons a tl =>
        rw [hp] at hhd
        have ha : a = (i0, 0) := by simpa using hhd
        rw [ha]
        simp
  intro ds
  induction ds using List.reverseRecOn with
  | nil =>
      intro _
      rw [dbApply_nil]
      exact hi0
  | append_singleton l d ih =>
      intro hleg
      rw [dbLegalSeq_append] at hleg
      obtain ⟨hlegl, hlegd⟩ := hleg
      have hmem := ih hlegl
      rcases List.mem_map.mp hmem with ⟨p, hpP, hpfst⟩
      have hlegp : dbLegal p.1 d := by
        rw [hpfst]
        exact hlegd.1
      obtain ⟨hvismem, -⟩ := hinv.closure p hpP d hlegp
      rw [dbApply_append]
      show dbMove (dbApply i0 l) d ∈ _
      rw [← hpfst]
      exact hvis _ hvismem

theorem dbTable_spec {i0 : DbBoardState} {stf : DbLoopState}
    (hinv : DbInv i0 stf) (hF : stf.frontier = []) :
    (∀ c, c ∈ stf.distances.map Prod.fst ↔
      ∃ ds, dbLegalSeq i0 ds ∧ dbCombination (dbApply i0 ds) = c) ∧
    ∀ c v, (c, v) ∈ stf.distances →
      (∃ ds, dbLegalSeq i0 ds ∧ dbCombination (dbApply i0 ds) = c ∧
        dbCost i0 ds = v) ∧
      ∀ ds, dbLegalSeq i0 ds → dbCombination (dbApply i0 ds) = c →
        v ≤ dbCost i0 ds := by
  have hterm := dbTerminal_popped hinv hF
  constructor
  · intro c
    rw [hinv.dist, dbTableAux_keys_mem]
    simp only [List.map_nil, List.not_mem_nil, false_or]
    constructor
    · rintro ⟨p, hpP, hpc⟩
      obtain ⟨ds, hleg, happ, -⟩ := hinv.preal p hpP
      exact ⟨ds, hleg, by rw [happ, hpc]⟩
    · rintro ⟨ds, hleg, hc⟩
      have hmem := hterm ds hleg
      rcases List.mem_map.mp hmem with ⟨p, hpP, hpfst⟩
      exact ⟨p, hpP, by rw [hpfst, hc]⟩
  · intro c v hcv
    rw [hinv.dist] at hcv
    rcases dbTableAux_mem_source [] stf.popped c v hcv with hacc | ⟨p, hpP, hpc, hpv⟩
    · simp at hacc
    · constructor
      · obtain ⟨ds, hleg, happ, hcost⟩ := hinv.preal p hpP
        exact ⟨ds, hleg, by rw [happ, hpc], by rw [hcost, hpv]⟩
      · intro ds hleg hc
        have hmem := hterm ds hleg
        rcases List.mem_map.mp hmem with ⟨q, hqP, hqfst⟩
        have hq2 : q.2 ≤ dbCost i0 ds := hinv.pmin q hqP ds hleg hqfst.symm
        have hvq : v ≤ q.2 := by
          refine dbTableAux_min stf.popped hinv.psorted [] (by simp) c v hcv q hqP
            ?_
          rw [hqfst, hc]
        omega

theorem dbInitial_wf (firstIdx : Nat) (ignoreLast : Bool)
    (hfi : firstIdx ≤ 15) : DbWF (dbInitial firstIdx ignoreLast) := by
  refine ⟨rfl, ?_, le_refl 3, le_refl 3⟩
  intro e he
  have hq : firstIdx / 4 ≤ 3 := by omega
  simp only [dbInitial, List.mem_cons, List.mem_singleton,
    List.not_mem_nil, or_false] at he
  rcases he with rfl | rfl | rfl | rfl <;> exact ⟨hq, by norm_num⟩


/-- C4: for each tile group — any first element index up to 15 with or
without the ignore-last dummy — the `Database::new` loop terminates (the
frontier empties after finitely many iterations), and at every terminal
state of the loop the distance table covers exactly the combinations of
reduced board states reachable from the solved arrangement by legal blank
moves, and each recorded entry maps its combination to the minimum, over
all legal blank-move sequences from the solved arrangement reaching a
reduced board state carrying that combination, of the number of moves that
relocate a tracked element (blank moves that displace no tracked element
contribute nothing to the count). -/
theorem C4_database_minimal (firstIdx : Nat) (ignoreLast : Bool)
    (hfi : firstIdx ≤ 15) :
    (∃ stf, DbReaches (dbInitLoop firstIdx ignoreLast) stf ∧
      stf.frontier = []) ∧
    ∀ stf, DbReaches (dbInitLoop firstIdx ignoreLast) stf →
      stf.frontier = [] →
      (∀ c, c ∈ stf.distances.map Prod.fst ↔
        ∃ ds, dbLegalSeq (dbInitial firstIdx ignoreLast) ds ∧
          dbCombination (dbApply (dbInitial firstIdx ignoreLast) ds) = c) ∧
      ∀ c v, (c, v) ∈ stf.distances →
        (∃ ds, dbLegalSeq (dbInitial firstIdx ignoreLast) ds ∧
          dbCombination (dbApply (dbInitial firstIdx ignoreLast) ds) = c ∧
          dbCost (dbInitial firstIdx ignoreLast) ds = v) ∧
        ∀ ds, dbLegalSeq (dbInitial firstIdx ignoreLast) ds →
          dbCombination (dbApply (dbInitial firstIdx ignoreLast) ds) = c →
          v ≤ dbCost (dbInitial firstIdx ignoreLast) ds := by
  have hwf := dbInitial_wf firstIdx ignoreLast hfi
  have hinv0 : DbInv (dbInitial firstIdx ignoreLast)
      (dbInitLoop firstIdx ignoreLast) := dbInv_init _ hwf
  constructor
  · obtain ⟨stf, hreach, hF, -⟩ :=
      dbRun_to_empty hwf (dbMeasure (dbInitLoop firstIdx ignoreLast))
        (dbInitLoop firstIdx ignoreLast) le_rfl hinv0
    exact ⟨stf, hreach, hF⟩
  · intro stf hreach hF
    exact dbTable_spec (dbInv_reaches hwf hinv0 hreach) hF

theorem C4_database_minimal_witness :
    (0 : Nat) ≤ 15 ∧
    ((∃ stf, DbReaches (dbInitLoop 0 false) stf ∧ stf.frontier = []) ∧
    ∀ stf, DbReaches (dbInitLoop 0 false) stf → stf.frontier = [] →
      (∀ c, c ∈ stf.distances.map Prod.fst ↔
        ∃ ds, dbLegalSeq (dbInitial 0 false) ds ∧
          dbCombination (dbApply (dbInitial 0 false) ds) = c) ∧
      ∀ c v, (c, v) ∈ stf.distances →
        (∃ ds, dbLegalSeq (dbInitial 0 false) ds ∧
          dbCombination (dbApply (dbInitial 0 false) ds) = c ∧
          dbCost (dbInitial 0 false) ds = v) ∧
        ∀ ds, dbLegalSeq (dbInitial 0 false) ds →
          dbCombination (dbApply (dbInitial 0 false) ds) = c →
          v ≤ dbCost (dbInitial 0 false) ds) :=
  ⟨Nat.zero_le 15, C4_database_minimal 0 false (Nat.zero_le 15)⟩


theorem sum_map_two_cells {α : Type _} [DecidableEq α] (L : List α) (hnd : L.Nodup)
    {p q : α} (hp : p ∈ L) (hq : q ∈ L) (hpq : p ≠ q) (f g : α → Nat)
    (hother : ∀ x ∈ L, x ≠ p → x ≠ q → f x = g x) :
    (L.map f).sum + g p + g q = (L.map g).sum + f p + f q := by
  have hqe : q ∈ L.erase p := (List.mem_erase_of_ne hpq.symm).mpr hq
  have hperm1 : L.Perm (p :: L.erase p) := List.perm_cons_erase hp
  have hperm2 : (L.erase p).Perm (q :: (L.erase p).erase q) :=
    List.perm_cons_erase hqe
  have hperm : L.Perm (p :: q :: (L.erase p).erase q) :=
    hperm1.trans (List.Perm.cons p hperm2)
  have hnd1 : (L.erase p).Nodup := hnd.erase p
  have hrest : ((L.erase p).erase q).map f = ((L.erase p).erase q).map g := by
    refine List.map_congr_left ?_
    intro x hx
    have hx1 : x ∈ L.erase p := List.mem_of_mem_erase hx
    have hx2 : x ∈ L := List.mem_of_mem_erase hx1
    have hxp : x ≠ p := by
      intro hcon
      exact hnd.not_mem_erase (hcon ▸ hx1)
    have hxq : x ≠ q := by
      intro hcon
      exact hnd1.not_mem_erase (hcon ▸ hx)
    exact hother x hx2 hxp hxq
  have hsf := (hperm.map f).sum_eq
  have hsg := (hperm.map g).sum_eq
  simp only [List.map_cons, List.sum_cons] at hsf hsg
  rw [hrest] at hsf
  omega

theorem manhattanHeuristic_move {n : Nat} [NeZero n] {b : Board n}
    (hb : ValidBoard b) {d : Direction} (hd : legalMove b d) :
    manhattanHeuristic b ≤ manhattanHeuristic (createNeighbourMoveState b d) + 1 := by
  obtain ⟨sw, hne, hc1, hc2, heq⟩ := legalMove_swap b d hd
  obtain ⟨v, hv⟩ : ∃ v, b sw.1 sw.2 = some v := by
    cases hsv : b sw.1 sw.2 with
    | none => exact absurd hsv (hb.ne_none_of_ne_blank hne)
    | some v => exact ⟨v, rfl⟩
  have hother : ∀ x ∈ cellList n, x ≠ blankPos b → x ≠ sw →
      createNeighbourMoveState b d x.1 x.2 = b x.1 x.2 := by
    intro x hx hxp hxq
    rw [heq]
    simp only
    rw [if_neg (by simpa using hxp), if_neg (by simpa using hxq)]
  have hb'β : createNeighbourMoveState b d (blankPos b).1 (blankPos b).2 =
      some v := by
    rw [heq]
    simp only
    rw [if_pos (by simp), hv]
  have hb'sw : createNeighbourMoveState b d sw.1 sw.2 = none := by
    rw [heq]
    simp only
    rw [if_neg (by simpa using hne), if_pos (by simp)]
  have hβnone := hb.blank_none
  have hkey := sum_map_two_cells (cellList n) (cellList_nodup n)
    (mem_cellList (blankPos b)) (mem_cellList sw) (fun hcon => hne hcon.symm)
    (fun rc => match b rc.1 rc.2 with
      | some v => Nat.dist rc.1.val ((v - 1) / n) + Nat.dist rc.2.val ((v - 1) % n)
      | none => 0)
    (fun rc => match createNeighbourMoveState b d rc.1 rc.2 with
      | some v => Nat.dist rc.1.val ((v - 1) / n) + Nat.dist rc.2.val ((v - 1) % n)
      | none => 0)
    (by
      intro x hx hxp hxq
      dsimp only
      rw [hother x hx hxp hxq])
  unfold manhattanHeuristic
  dsimp only at hkey
  rw [hβnone, hb'β, hb'sw, hv] at hkey
  dsimp only at hkey
  have htri : Nat.dist sw.1.val ((v - 1) / n) + Nat.dist sw.2.val ((v - 1) % n) ≤
      (Nat.dist (blankPos b).1.val ((v - 1) / n) +
        Nat.dist (blankPos b).2.val ((v - 1) % n)) + 1 := by
    cases d <;> simp only [Direction.asCoordinates] at hc1 hc2 <;>
      simp only [Nat.dist] <;> omega
  omega

theorem manhattan_consistent {n : Nat} [NeZero n] (hn : n ≤ 4) :
    Consistent (@manhattanHeuristic n) := by
  intro s hs d hd
  show manhattanHeuristic s.readableNumbers ≤
    manhattanHeuristic (s.createNeighbourMoveState d).readableNumbers + 1
  rw [hs.readable_step hn hd]
  exact manhattanHeuristic_move hs.1 hd

theorem manhattanHeuristic_goalBoard (n : Nat) [NeZero n] :
    manhattanHeuristic (goalBoard n) = 0 := by
  unfold manhattanHeuristic
  refine List.sum_eq_zero ?_
  intro x hx
  rcases List.mem_map.mp hx with ⟨rc, -, rfl⟩
  show (match goalBoard n rc.1 rc.2 with
    | some v => Nat.dist rc.1.val ((v - 1) / n) + Nat.dist rc.2.val ((v - 1) % n)
    | none => 0) = 0
  unfold goalBoard
  by_cases hLast : flatIdx (rc.1, rc.2) = n * n - 1
  · rw [if_pos hLast]
  · rw [if_neg hLast]
    show Nat.dist rc.1.val ((flatIdx (rc.1, rc.2) + 1 - 1) / n) +
      Nat.dist rc.2.val ((flatIdx (rc.1, rc.2) + 1 - 1) % n) = 0
    have hflat : flatIdx (rc.1, rc.2) = n * rc.1.val + rc.2.val := by
      unfold flatIdx
      ring
    have hc := rc.2.isLt
    rw [hflat]
    simp only [Nat.add_sub_cancel]
    rw [Nat.mul_add_div (NeZero.pos n), Nat.mul_add_mod, Nat.div_eq_of_lt hc,
      Nat.mod_eq_of_lt hc]
    simp [Nat.dist_self]

theorem manhattanHeuristic_eq_zero_iff {n : Nat} [NeZero n] (hn2 : 2 ≤ n)
    {b : Board n} (hb : ValidBoard b) :
    manhattanHeuristic b = 0 ↔ b = goalBoard n := by
  constructor
  · intro h0
    have hplace : ∀ rc : Fin n × Fin n, ∀ v, b rc.1 rc.2 = some v →
        rc.1.val = (v - 1) / n ∧ rc.2.val = (v - 1) % n := by
      intro rc v hrc
      have hmem : (match b rc.1 rc.2 with
          | some v => Nat.dist rc.1.val ((v - 1) / n) + Nat.dist rc.2.val ((v - 1) % n)
          | none => 0) ∈ (cellList n).map (fun rc =>
            match b rc.1 rc.2 with
            | some v => Nat.dist rc.1.val ((v - 1) / n) +
                Nat.dist rc.2.val ((v - 1) % n)
            | none => 0) :=
        List.mem_map.mpr ⟨rc, mem_cellList rc, rfl⟩
      have hz := List.sum_eq_zero_iff.mp h0 _ hmem
      rw [hrc] at hz
      have hz2 : Nat.dist rc.1.val ((v - 1) / n) +
          Nat.dist rc.2.val ((v - 1) % n) = 0 := hz
      simp only [Nat.dist] at hz2
      constructor <;> omega
    have hvflat : ∀ rc : Fin n × Fin n, ∀ v, b rc.1 rc.2 = some v →
        v = flatIdx rc + 1 := by
      intro rc v hrc
      obtain ⟨h1, h2⟩ := hplace rc v hrc
      have hv1 := (hb.mem_values hrc).1
      unfold flatIdx
      rw [h1, h2, Nat.mul_comm, Nat.div_add_mod]
      omega
    have hlastnone : b (homeCell n).1 (homeCell n).2 = none := by
      cases hhome : b (homeCell n).1 (homeCell n).2 with
      | none => rfl
      | some v =>
          exfalso
          have := hvflat (homeCell n) v hhome
          rw [flatIdx_homeCell] at this
          have hle := (hb.mem_values hhome).2
          have hpos := NeZero.pos n
          have : 1 ≤ n * n := Nat.one_le_iff_ne_zero.mpr (by positivity)
          omega
    funext r c
    by_cases hLast : flatIdx (r, c) = n * n - 1
    · have hrc : (r, c) = homeCell n := by
        refine flatIdx_inj ?_
        rw [hLast, flatIdx_homeCell]
      unfold goalBoard
      rw [if_pos hLast]
      rw [show r = (homeCell n).1 from congrArg Prod.fst hrc,
        show c = (homeCell n).2 from congrArg Prod.snd hrc]
      exact hlastnone
    · unfold goalBoard
      rw [if_neg hLast]
      cases hrc : b r c with
      | none =>
          exfalso
          have h1 : (r, c) = blankPos b := @ValidBoard.eq_blankPos_of_none _ _ _ hb (r, c) hrc
          have h2 : homeCell n = blankPos b :=
            @ValidBoard.eq_blankPos_of_none _ _ _ hb (homeCell n) hlastnone
          rw [← h2] at h1
          have := congrArg flatIdx h1
          rw [flatIdx_homeCell] at this
          exact hLast this
      | some v =>
          have := hvflat (r, c) v hrc
          rw [this]
  · intro h
    rw [h]
    exact manhattanHeuristic_goalBoard n

theorem manhattan_admissible {n : Nat} [NeZero n] (hn2 : 2 ≤ n) (hn : n ≤ 4) :
    Admissible (@manhattanHeuristic n) := by
  intro s hs ds hleg hsol
  have htel := consistent_telescope hn (manhattan_consistent hn) hs hleg
  have hread := (boardIsSolved_iff hn2 _).mp hsol
  have hend : (applyS s ds).calculateHeuristic (@manhattanHeuristic n) = 0 := by
    show manhattanHeuristic (applyS s ds).readableNumbers = 0
    rw [hread]
    exact manhattanHeuristic_goalBoard n
  rw [hend] at htel
  simpa using htel


/-- The cell written into `numbers_representation` for value `v` in
`DisjointDatabases::calculate`: the coordinates of the cell holding `v`, and
the array initializer `(0, 0)` when `v` is absent from the board. -/
def findValue (b : Board 4) (v : Nat) : Nat × Nat :=
  match (cellList 4).find? fun rc => decide (b rc.1 rc.2 = some v) with
  | some rc => (rc.1.val, rc.2.val)
  | none => (0, 0)

theorem findValue_some {b : Board 4} (hb : ValidBoard b) {r c : Fin 4} {v : Nat}
    (hv : b r c = some v) : findValue b v = (r.val, c.val) := by
  unfold findValue
  cases hfind : (cellList 4).find? fun rc => decide (b rc.1 rc.2 = some v) with
  | none =>
      exfalso
      have hnone := List.find?_eq_none.mp hfind (r, c) (mem_cellList _)
      simp only [decide_eq_true_eq] at hnone
      exact hnone hv
  | some rc =>
      have hsat := List.find?_some hfind
      simp only [decide_eq_true_eq] at hsat
      have hinj := List.inj_on_of_nodup_map hb.values_nodup
      have hrc : rc = (r, c) :=
        hinj (mem_cellList rc) (mem_cellList (r, c)) (by rw [hsat, hv])
      rw [hrc]

theorem exists_cell_of_le {b : Board 4} (hb : ValidBoard b) {v : Nat}
    (h1 : 1 ≤ v) (h15 : v ≤ 15) : ∃ rc : Fin 4 × Fin 4, b rc.1 rc.2 = some v := by
  have hmem : some v ∈ (cellList 4).map fun rc => b rc.1 rc.2 := by
    rw [hb.mem_iff]
    refine List.mem_cons.mpr (Or.inr ?_)
    refine List.mem_map.mpr ⟨v - 1, ?_, by rw [Nat.sub_add_cancel h1]⟩
    simp only [List.mem_range]
    omega
  rcases List.mem_map.mp hmem with ⟨rc, -, hrc⟩
  exact ⟨rc, hrc⟩

theorem findValue_le (b : Board 4) (v : Nat) :
    (findValue b v).1 ≤ 3 ∧ (findValue b v).2 ≤ 3 := by
  unfold findValue
  cases hfind : (cellList 4).find? fun rc => decide (b rc.1 rc.2 = some v) with
  | none => exact ⟨Nat.zero_le 3, Nat.zero_le 3⟩
  | some rc =>
      show rc.1.val ≤ 3 ∧ rc.2.val ≤ 3
      have h1 := rc.1.isLt
      have h2 := rc.2.isLt
      omega

/-- The row of `numbers_representation` for the tile group starting at value
`f + 1`, as assembled by `DisjointDatabases::calculate` (for a valid board the
value-16 slot of the last group is never written and keeps `(0, 0)`, which is
what `findValue` returns for the absent value). -/
def ddReadableRow (b : Board 4) (f : Nat) : List (Nat × Nat) :=
  [findValue b (f + 1), findValue b (f + 2), findValue b (f + 3),
    findValue b (f + 4)]

/-- The per-group lookup key `Combination::from_readable(row, ignore_last)`
computed by `DisjointDatabases::calculate`. -/
def ddKey (b : Board 4) (f : Nat) (ig : Bool) : Nat :=
  combinationLoop ig (ddReadableRow b f) 0

/-- The reduced `BoardState` corresponding to the full board for one tile
group: the tracked tiles\' cells, the blank cell, and — for the ignore-last
group — the dummy fourth element pinned at `(3, 3)`. -/
def ddProj (b : Board 4) (f : Nat) (ig : Bool) : DbBoardState :=
  ⟨[findValue b (f + 1), findValue b (f + 2), findValue b (f + 3),
    cond ig (3, 3) (findValue b (f + 4))],
    ((blankPos b).1.val, (blankPos b).2.val), ig⟩

theorem ddKey_eq_proj (b : Board 4) (f : Nat) (ig : Bool) :
    dbCombination (ddProj b f ig) = ddKey b f ig := by
  cases ig with
  | false => rfl
  | true =>
      unfold dbCombination ddProj ddKey ddReadableRow
      simp [combinationLoop]

theorem moveElementsLoop_first (nb : Nat × Nat) (diff : Int × Int) (ig : Bool) :
    ∀ (l : List (Nat × Nat)) (idx j : Nat) (hj : j < l.length),
    l.get ⟨j, hj⟩ = nb → (∀ i, i < j → ∀ hi : i < l.length, l.get ⟨i, hi⟩ ≠ nb) →
    ¬(ig = true ∧ idx + j = 3) →
    moveElementsLoop nb diff ig l idx =
      (l.set j (((nb.1 : Int) + diff.1 * (-1)).toNat,
        ((nb.2 : Int) + diff.2 * (-1)).toNat), true) := by
  intro l
  induction l with
  | nil =>
      intro idx j hj
      simp at hj
  | cons e rest ih =>
      intro idx j hj hget hbef hnig
      cases j with
      | zero =>
          have he : e = nb := hget
          unfold moveElementsLoop
          rw [if_pos he]
          rw [if_neg (by simpa using hnig)]
          rw [he]
          rfl
      | succ j =>
          have hne : e ≠ nb := by
            have := hbef 0 (Nat.succ_pos j) (by simp)
            simpa using this
          unfold moveElementsLoop
          rw [if_neg hne]
          dsimp only
          rw [ih (idx + 1) j (by simpa using hj) hget
            (fun i hij hi => hbef (i + 1) (by omega) (by simpa using hi))
            (fun hcon => hnig ⟨hcon.1, by have := hcon.2; omega⟩)]
          rfl

theorem moveElementsLoop_noMatch (nb : Nat × Nat) (diff : Int × Int) (ig : Bool) :
    ∀ (l : List (Nat × Nat)) (idx : Nat),
    (∀ i (hi : i < l.length), l.get ⟨i, hi⟩ = nb → ig = true ∧ idx + i = 3) →
    moveElementsLoop nb diff ig l idx = (l, false) := by
  intro l
  induction l with
  | nil => intro idx h; rfl
  | cons e rest ih =>
      intro idx h
      unfold moveElementsLoop
      by_cases he : e = nb
      · rw [if_pos he]
        obtain ⟨hig0, hidx0⟩ := h 0 (by simp) he
        rw [if_pos ⟨hig0, by omega⟩]
      · rw [if_neg he]
        dsimp only
        rw [ih (idx + 1) (fun i hi hg => by
          obtain ⟨hg1, hg2⟩ := h (i + 1) (by simpa using hi) hg
          exact ⟨hg1, by omega⟩)]


theorem findValue_move_moved {b : Board 4} (hb : ValidBoard b) {d : Direction}
    (hd : legalMove b d) {sw : Fin 4 × Fin 4} (hne : sw ≠ blankPos b)
    (heq : createNeighbourMoveState b d = fun r c =>
      if (r, c) = blankPos b then b sw.1 sw.2
      else if (r, c) = sw then none else b r c)
    {v : Nat} (hv : b sw.1 sw.2 = some v) :
    findValue (createNeighbourMoveState b d) v =
      ((blankPos b).1.val, (blankPos b).2.val) := by
  have hb' : ValidBoard (createNeighbourMoveState b d) := hb.createNeighbour hd
  have hval : createNeighbourMoveState b d (blankPos b).1 (blankPos b).2 =
      some v := by
    rw [heq]
    simp only
    rw [if_pos (by simp), hv]
  exact findValue_some hb' hval

theorem findValue_move_other {b : Board 4} (hb : ValidBoard b) {d : Direction}
    (hd : legalMove b d) {sw : Fin 4 × Fin 4}
    (heq : createNeighbourMoveState b d = fun r c =>
      if (r, c) = blankPos b then b sw.1 sw.2
      else if (r, c) = sw then none else b r c)
    {v : Nat} (hv : b sw.1 sw.2 = some v)
    {w : Nat} (hw1 : 1 ≤ w) (hw15 : w ≤ 15) (hwv : w ≠ v) :
    findValue (createNeighbourMoveState b d) w = findValue b w := by
  have hb' : ValidBoard (createNeighbourMoveState b d) := hb.createNeighbour hd
  obtain ⟨rcw, hrcw⟩ := exists_cell_of_le hb hw1 hw15
  have hrcwβ : rcw ≠ blankPos b := by
    intro hcon
    rw [hcon, hb.blank_none] at hrcw
    exact Option.noConfusion hrcw
  have hrcwsw : rcw ≠ sw := by
    intro hcon
    rw [hcon, hv] at hrcw
    injection hrcw with hvw
    exact hwv hvw.symm
  have hval : createNeighbourMoveState b d rcw.1 rcw.2 = some w := by
    rw [heq]
    simp only
    rw [if_neg (by simpa using hrcwβ), if_neg (by simpa using hrcwsw)]
    exact hrcw
  rw [findValue_some hb' hval, findValue_some hb hrcw]

theorem ddProj_move {b : Board 4} (hb : ValidBoard b) {d : Direction}
    (hd : legalMove b d) {sw : Fin 4 × Fin 4} (hne : sw ≠ blankPos b)
    (hc1 : (sw.1.val : Int) = ((blankPos b).1.val : Int) + d.asCoordinates.1)
    (hc2 : (sw.2.val : Int) = ((blankPos b).2.val : Int) + d.asCoordinates.2)
    (heq : createNeighbourMoveState b d = fun r c =>
      if (r, c) = blankPos b then b sw.1 sw.2
      else if (r, c) = sw then none else b r c)
    {v : Nat} (hv : b sw.1 sw.2 = some v) (f : Nat) (ig : Bool)
    (hgrp : ((f = 0 ∨ f = 4 ∨ f = 8) ∧ ig = false) ∨ (f = 12 ∧ ig = true)) :
    dbLegal (ddProj b f ig) d ∧
    dbMove (ddProj b f ig) d = ddProj (createNeighbourMoveState b d) f ig ∧
    dbMoveCost (ddProj b f ig) d = (if f < v ∧ v ≤ f + 4 then 1 else 0) := by
  have hb' : ValidBoard (createNeighbourMoveState b d) := hb.createNeighbour hd
  have hv1 := (hb.mem_values hv).1
  have hv15 : v ≤ 15 := by
    have := (hb.mem_values hv).2
    omega
  have hleg : dbLegal (ddProj b f ig) d := by cases d <;> exact hd
  refine ⟨hleg, ?_⟩
  have hβ1 := (blankPos b).1.isLt
  have hβ2 := (blankPos b).2.isLt
  have hs1 := sw.1.isLt
  have hs2 := sw.2.isLt
  have hnb : ((((blankPos b).1.val : Int) + d.asCoordinates.1).toNat,
      (((blankPos b).2.val : Int) + d.asCoordinates.2).toNat) =
      ((sw.1.val : Nat), (sw.2.val : Nat)) := by
    apply Prod.ext <;> (dsimp only; omega)
  have hbp' : blankPos (createNeighbourMoveState b d) = sw := by
    obtain ⟨hm1, hm2⟩ := blankPos_move hb hd
    apply Prod.ext <;> apply Fin.ext <;> omega
  have hnewc : ((((sw.1.val : Nat) : Int) + d.asCoordinates.1 * (-1)).toNat,
      (((sw.2.val : Nat) : Int) + d.asCoordinates.2 * (-1)).toNat) =
      (((blankPos b).1.val : Nat), ((blankPos b).2.val : Nat)) := by
    apply Prod.ext <;> (dsimp only; omega)
  have hfvv : findValue b v = ((sw.1.val : Nat), (sw.2.val : Nat)) :=
    findValue_some hb hv
  have hnotsw : ∀ w, 1 ≤ w → w ≤ 15 → w ≠ v →
      findValue b w ≠ ((sw.1.val : Nat), (sw.2.val : Nat)) := by
    intro w hw1 hw15 hwv hcon
    obtain ⟨rcw, hrcw⟩ := exists_cell_of_le hb hw1 hw15
    rw [findValue_some hb hrcw] at hcon
    rw [Prod.mk.injEq] at hcon
    have hrcsw : rcw = sw := by
      apply Prod.ext <;> apply Fin.ext
      · exact hcon.1
      · exact hcon.2
    rw [hrcsw, hv] at hrcw
    injection hrcw with hvw
    exact hwv hvw.symm
  have hoth : ∀ w, 1 ≤ w → w ≤ 15 → w ≠ v →
      findValue (createNeighbourMoveState b d) w = findValue b w :=
    fun w hw1 hw15 hwv => findValue_move_other hb hd heq hv hw1 hw15 hwv
  rcases hgrp with ⟨hf08, hig⟩ | ⟨hf12, hig⟩ <;> subst hig
  · -- a regular group: f ∈ {0, 4, 8}, all four slots tracked
    have hf8 : f ≤ 8 := by omega
    by_cases hvg : f < v ∧ v ≤ f + 4
    · have hvE : v = f + 1 ∨ v = f + 2 ∨ v = f + 3 ∨ v = f + 4 := by omega
      rcases hvE with hveq | hveq | hveq | hveq
      · have hml := moveElementsLoop_first ((sw.1.val : Nat), (sw.2.val : Nat))
          d.asCoordinates false
          [findValue b (f + 1), findValue b (f + 2), findValue b (f + 3),
            cond false (3, 3) (findValue b (f + 4))] 0 0
          (by show (0 : Nat) < 4; omega)
          (by show findValue b (f + 1) = _; rw [← hveq]; exact hfvv)
          (fun i hij hi => absurd hij (by omega))
          (by simp)
        constructor
        · show (dbCreateNeighbour (ddProj b f false) d).1 = _
          unfold dbCreateNeighbour
          dsimp only [ddProj]
          rw [hnb, hml]
          dsimp only [List.set]
          rw [hnewc, hbp', ← hveq, findValue_move_moved hb hd hne heq hv,
            hoth (f + 2) (by omega) (by omega) (by omega),
            hoth (f + 3) (by omega) (by omega) (by omega),
            hoth (f + 4) (by omega) (by omega) (by omega)]
        · show (if (dbCreateNeighbour (ddProj b f false) d).2 = true
              then 1 else 0) = _
          unfold dbCreateNeighbour
          dsimp only [ddProj]
          rw [hnb, hml]
          rw [if_pos hvg]
          rfl
      · have hml := moveElementsLoop_first ((sw.1.val : Nat), (sw.2.val : Nat))
          d.asCoordinates false
          [findValue b (f + 1), findValue b (f + 2), findValue b (f + 3),
            cond false (3, 3) (findValue b (f + 4))] 0 1
          (by show (1 : Nat) < 4; omega)
          (by show findValue b (f + 2) = _; rw [← hveq]; exact hfvv)
          (fun i hij hi => by
            have hi0 : i = 0 := by omega
            subst hi0
            show findValue b (f + 1) ≠ _
            exact hnotsw (f + 1) (by omega) (by omega) (by omega))
          (by simp)
        constructor
        · show (dbCreateNeighbour (ddProj b f false) d).1 = _
          unfold dbCreateNeighbour
          dsimp only [ddProj]
          rw [hnb, hml]
          dsimp only [List.set]
          rw [hnewc, hbp', ← hveq, findValue_move_moved hb hd hne heq hv,
            hoth (f + 1) (by omega) (by omega) (by omega),
            hoth (f + 3) (by omega) (by omega) (by omega),
            hoth (f + 4) (by omega) (by omega) (by omega)]
        · show (if (dbCreateNeighbour (ddProj b f false) d).2 = true
              then 1 else 0) = _
          unfold dbCreateNeighbour
          dsimp only [ddProj]
          rw [hnb, hml]
          rw [if_pos hvg]
          rfl
      · have hml := moveElementsLoop_first ((sw.1.val : Nat), (sw.2.val : Nat))
          d.asCoordinates false
          [findValue b (f + 1), findValue b (f + 2), findValue b (f + 3),
            cond false (3, 3) (findValue b (f + 4))] 0 2
          (by show (2 : Nat) < 4; omega)
          (by show findValue b (f + 3) = _; rw [← hveq]; exact hfvv)
          (fun i hij hi => by
            have hi01 : i = 0 ∨ i = 1 := by omega
            rcases hi01 with hi0 | hi0 <;> subst hi0
            · show findValue b (f + 1) ≠ _
              exact hnotsw (f + 1) (by omega) (by omega) (by omega)
            · show findValue b (f + 2) ≠ _
              exact hnotsw (f + 2) (by omega) (by omega) (by omega))
          (by simp)
        constructor
        · show (dbCreateNeighbour (ddProj b f false) d).1 = _
          unfold dbCreateNeighbour
          dsimp only [ddProj]
          rw [hnb, hml]
          dsimp only [List.set]
          rw [hnewc, hbp', ← hveq, findValue_move_moved hb hd hne heq hv,
            hoth (f + 1) (by omega) (by omega) (by omega),
            hoth (f + 2) (by omega) (by omega) (by omega),
            hoth (f + 4) (by omega) (by omega) (by omega)]
        · show (if (dbCreateNeighbour (ddProj b f false) d).2 = true
              then 1 else 0) = _
          unfold dbCreateNeighbour
          dsimp only [ddProj]
          rw [hnb, hml]
          rw [if_pos hvg]
          rfl
      · have hml := moveElementsLoop_first ((sw.1.val : Nat), (sw.2.val : Nat))
          d.asCoordinates false
          [findValue b (f + 1), findValue b (f + 2), findValue b (f + 3),
            cond false (3, 3) (findValue b (f + 4))] 0 3
          (by show (3 : Nat) < 4; omega)
          (by show findValue b (f + 4) = _; rw [← hveq]; exact hfvv)
          (fun i hij hi => by
            have hi01 : i = 0 ∨ i = 1 ∨ i = 2 := by omega
            rcases hi01 with hi0 | hi0 | hi0 <;> subst hi0
            · show findValue b (f + 1) ≠ _
              exact hnotsw (f + 1) (by omega) (by omega) (by omega)
            · show findValue b (f + 2) ≠ _
              exact hnotsw (f + 2) (by omega) (by omega) (by omega)
            · show findValue b (f + 3) ≠ _
              exact hnotsw (f + 3) (by omega) (by omega) (by omega))
          (by simp)
        constructor
        · show (dbCreateNeighbour (ddProj b f false) d).1 = _
          unfold dbCreateNeighbour
          dsimp only [ddProj]
          rw [hnb, hml]
          dsimp only [List.set]
          rw [hnewc, hbp', ← hveq, findValue_move_moved hb hd hne heq hv,
            hoth (f + 1) (by omega) (by omega) (by omega),
            hoth (f + 2) (by omega) (by omega) (by omega),
            hoth (f + 3) (by omega) (by omega) (by omega)]
          simp only [Bool.cond_false]
        · show (if (dbCreateNeighbour (ddProj b f false) d).2 = true
              then 1 else 0) = _
          unfold dbCreateNeighbour
          dsimp only [ddProj]
          rw [hnb, hml]
          rw [if_pos hvg]
          rfl
    · have hml := moveElementsLoop_noMatch ((sw.1.val : Nat), (sw.2.val : Nat))
        d.asCoordinates false
        [findValue b (f + 1), findValue b (f + 2), findValue b (f + 3),
          cond false (3, 3) (findValue b (f + 4))] 0
        (fun i hi hg => by
          exfalso
          have hi4 : i < 4 := hi
          have hi03 : i = 0 ∨ i = 1 ∨ i = 2 ∨ i = 3 := by omega
          rcases hi03 with hi0 | hi0 | hi0 | hi0 <;> subst hi0
          · exact hnotsw (f + 1) (by omega) (by omega) (by omega) hg
          · exact hnotsw (f + 2) (by omega) (by omega) (by omega) hg
          · exact hnotsw (f + 3) (by omega) (by omega) (by omega) hg
          · exact hnotsw (f + 4) (by omega) (by omega) (by omega) hg)
      constructor
      · show (dbCreateNeighbour (ddProj b f false) d).1 = _
        unfold dbCreateNeighbour
        dsimp only [ddProj]
        rw [hnb, hml]
        rw [hbp',
          hoth (f + 1) (by omega) (by omega) (by omega),
          hoth (f + 2) (by omega) (by omega) (by omega),
          hoth (f + 3) (by omega) (by omega) (by omega),
          hoth (f + 4) (by omega) (by omega) (by omega)]
      · show (if (dbCreateNeighbour (ddProj b f false) d).2 = true
            then 1 else 0) = _
        unfold dbCreateNeighbour
        dsimp only [ddProj]
        rw [hnb, hml]
        rw [if_neg hvg]
        rfl
  · -- the ignore-last group: tiles 13, 14, 15 tracked, slot 3 is the dummy
    subst hf12
    by_cases hvg : 12 < v ∧ v ≤ 12 + 4
    · have hvE : v = 13 ∨ v = 14 ∨ v = 15 := by omega
      rcases hvE with hveq | hveq | hveq
      · have hml := moveElementsLoop_first ((sw.1.val : Nat), (sw.2.val : Nat))
          d.asCoordinates true
          [findValue b (12 + 1), findValue b (12 + 2), findValue b (12 + 3),
            cond true (3, 3) (findValue b (12 + 4))] 0 0
          (by show (0 : Nat) < 4; omega)
          (by show findValue b (12 + 1) = _
              rw [show (12 : Nat) + 1 = v from by omega]
              exact hfvv)
          (fun i hij hi => absurd hij (by omega))
          (by simp)
        constructor
        · show (dbCreateNeighbour (ddProj b 12 true) d).1 = _
          unfold dbCreateNeighbour
          dsimp only [ddProj]
          rw [hnb, hml]
          dsimp only [List.set]
          rw [hnewc, hbp',
            show (12 : Nat) + 1 = v from by omega,
            findValue_move_moved hb hd hne heq hv,
            hoth (12 + 2) (by omega) (by omega) (by omega),
            hoth (12 + 3) (by omega) (by omega) (by omega)]
          simp only [Bool.cond_true]
        · show (if (dbCreateNeighbour (ddProj b 12 true) d).2 = true
              then 1 else 0) = _
          unfold dbCreateNeighbour
          dsimp only [ddProj]
          rw [hnb, hml]
          rw [if_pos hvg]
          rfl
      · have hml := moveElementsLoop_first ((sw.1.val : Nat), (sw.2.val : Nat))
          d.asCoordinates true
          [findValue b (12 + 1), findValue b (12 + 2), findValue b (12 + 3),
            cond true (3, 3) (findValue b (12 + 4))] 0 1
          (by show (1 : Nat) < 4; omega)
          (by show findValue b (12 + 2) = _
              rw [show (12 : Nat) + 2 = v from by omega]
              exact hfvv)
          (fun i hij hi => by
            have hi0 : i = 0 := by omega
            subst hi0
            show findValue b (12 + 1) ≠ _
            exact hnotsw (12 + 1) (by omega) (by omega) (by omega))
          (by simp)
        constructor
        · show (dbCreateNeighbour (ddProj b 12 true) d).1 = _
          unfold dbCreateNeighbour
          dsimp only [ddProj]
          rw [hnb, hml]
          dsimp only [List.set]
          rw [hnewc, hbp',
            show (12 : Nat) + 2 = v from by omega,
            findValue_move_moved hb hd hne heq hv,
            hoth (12 + 1) (by omega) (by omega) (by omega),
            hoth (12 + 3) (by omega) (by omega) (by omega)]
          simp only [Bool.cond_true]
        · show (if (dbCreateNeighbour (ddProj b 12 true) d).2 = true
              then 1 else 0) = _
          unfold dbCreateNeighbour
          dsimp only [ddProj]
          rw [hnb, hml]
          rw [if_pos hvg]
          rfl
      · have hml := moveElementsLoop_first ((sw.1.val : Nat), (sw.2.val : Nat))
          d.asCoordinates true
          [findValue b (12 + 1), findValue b (12 + 2), findValue b (12 + 3),
            cond true (3, 3) (findValue b (12 + 4))] 0 2
          (by show (2 : Nat) < 4; omega)
          (by show findValue b (12 + 3) = _
              rw [show (12 : Nat) + 3 = v from by omega]
              exact hfvv)
          (fun i hij hi => by
            have hi01 : i = 0 ∨ i = 1 := by omega
            rcases hi01 with hi0 | hi0 <;> subst hi0
            · show findValue b (12 + 1) ≠ _
              exact hnotsw (12 + 1) (by omega) (by omega) (by omega)
            · show findValue b (12 + 2) ≠ _
              exact hnotsw (12 + 2) (by omega) (by omega) (by omega))
          (by simp)
        constructor
        · show (dbCreateNeighbour (ddProj b 12 true) d).1 = _
          unfold dbCreateNeighbour
          dsimp only [ddProj]
          rw [hnb, hml]
          dsimp only [List.set]
          rw [hnewc, hbp',
            show (12 : Nat) + 3 = v from by omega,
            findValue_move_moved hb hd hne heq hv,
            hoth (12 + 1) (by omega) (by omega) (by omega),
            hoth (12 + 2) (by omega) (by omega) (by omega)]
          simp only [Bool.cond_true]
        · show (if (dbCreateNeighbour (ddProj b 12 true) d).2 = true
              then 1 else 0) = _
          unfold dbCreateNeighbour
          dsimp only [ddProj]
          rw [hnb, hml]
          rw [if_pos hvg]
          rfl
    · have hml := moveElementsLoop_noMatch ((sw.1.val : Nat), (sw.2.val : Nat))
        d.asCoordinates true
        [findValue b (12 + 1), findValue b (12 + 2), findValue b (12 + 3),
          cond true (3, 3) (findValue b (12 + 4))] 0
        (fun i hi hg => by
          have hi4 : i < 4 := hi
          have hi03 : i = 0 ∨ i = 1 ∨ i = 2 ∨ i = 3 := by omega
          rcases hi03 with hi0 | hi0 | hi0 | hi0 <;> subst hi0
          · exact absurd hg (hnotsw (12 + 1) (by omega) (by omega) (by omega))
          · exact absurd hg (hnotsw (12 + 2) (by omega) (by omega) (by omega))
          · exact absurd hg (hnotsw (12 + 3) (by omega) (by omega) (by omega))
          · exact ⟨rfl, by omega⟩)
      constructor
      · show (dbCreateNeighbour (ddProj b 12 true) d).1 = _
        unfold dbCreateNeighbour
        dsimp only [ddProj]
        rw [hnb, hml]
        rw [hbp',
          hoth (12 + 1) (by omega) (by omega) (by omega),
          hoth (12 + 2) (by omega) (by omega) (by omega),
          hoth (12 + 3) (by omega) (by omega) (by omega)]
        simp only [Bool.cond_true]
      · show (if (dbCreateNeighbour (ddProj b 12 true) d).2 = true
            then 1 else 0) = _
        unfold dbCreateNeighbour
        dsimp only [ddProj]
        rw [hnb, hml]
        rw [if_neg hvg]
        rfl


theorem legalSeqS_reverse {n : Nat} [NeZero n] (hn : n ≤ 4) {s : PuzzleState n}
    (hs : ValidState s) {ds : List Direction} (hleg : legalSeqS s ds) :
    legalSeqS (applyS s ds) ((ds.map Direction.opposite).reverse) ∧
    applyS (applyS s ds) ((ds.map Direction.opposite).reverse) = s := by
  induction ds generalizing s with
  | nil => exact ⟨trivial, rfl⟩
  | cons d tl ih =>
      obtain ⟨h1, h2⟩ := hleg
      have hsd := hs.step hn h1
      obtain ⟨ihl, iha⟩ := ih hsd h2
      have hinv := hs.step_inverse hn h1
      constructor
      · show legalSeqS (applyS s (d :: tl))
          ((List.map Direction.opposite (d :: tl)).reverse)
        rw [List.map_cons, List.reverse_cons, applyS_cons, legalSeqS_append]
        refine ⟨ihl, ?_⟩
        rw [iha]
        exact ⟨hinv.1, trivial⟩
      · show applyS (applyS s (d :: tl))
          ((List.map Direction.opposite (d :: tl)).reverse) = s
        rw [List.map_cons, List.reverse_cons, applyS_cons, applyS_append, iha]
        exact hinv.2

/-- The reduced board state seen by one tile group for a solver
configuration. -/
def ddProjS (s : PuzzleState 4) (f : Nat) (ig : Bool) : DbBoardState :=
  ddProj s.readableNumbers f ig

theorem ddProjS_step {s : PuzzleState 4} (hs : ValidState s) {d : Direction}
    (hd : legalS s d) (f : Nat) (ig : Bool)
    (hgrp : ((f = 0 ∨ f = 4 ∨ f = 8) ∧ ig = false) ∨ (f = 12 ∧ ig = true)) :
    dbLegal (ddProjS s f ig) d ∧
    dbMove (ddProjS s f ig) d = ddProjS (s.createNeighbourMoveState d) f ig := by
  obtain ⟨sw, hne, hc1, hc2, heq⟩ := legalMove_swap s.readableNumbers d hd
  obtain ⟨v, hv⟩ : ∃ v, s.readableNumbers sw.1 sw.2 = some v := by
    cases hsv : s.readableNumbers sw.1 sw.2 with
    | none => exact absurd hsv (hs.1.ne_none_of_ne_blank hne)
    | some v => exact ⟨v, rfl⟩
  obtain ⟨hl, hm, -⟩ := ddProj_move hs.1 hd hne hc1 hc2 heq hv f ig hgrp
  have hread := hs.readable_step (le_refl 4) hd
  refine ⟨hl, ?_⟩
  show dbMove (ddProj s.readableNumbers f ig) d = ddProj _ f ig
  rw [hm, hread]

theorem ddProjS_path {s : PuzzleState 4} (hs : ValidState s) {ds : List Direction}
    (hleg : legalSeqS s ds) (f : Nat) (ig : Bool)
    (hgrp : ((f = 0 ∨ f = 4 ∨ f = 8) ∧ ig = false) ∨ (f = 12 ∧ ig = true)) :
    dbLegalSeq (ddProjS s f ig) ds ∧
    dbApply (ddProjS s f ig) ds = ddProjS (applyS s ds) f ig := by
  induction ds generalizing s with
  | nil => exact ⟨trivial, rfl⟩
  | cons d tl ih =>
      obtain ⟨h1, h2⟩ := hleg
      obtain ⟨hl, hm⟩ := ddProjS_step hs h1 f ig hgrp
      obtain ⟨ihl, iha⟩ := ih (hs.step (le_refl 4) h1) h2
      constructor
      · exact ⟨hl, by
          show dbLegalSeq (dbMove (ddProjS s f ig) d) tl
          rw [hm]
          exact ihl⟩
      · show dbApply (dbMove (ddProjS s f ig) d) tl =
          ddProjS (applyS s (d :: tl)) f ig
        rw [applyS_cons, hm]
        exact iha

theorem ddProjS_cost {s : PuzzleState 4} (hs : ValidState s) {ds : List Direction}
    (hleg : legalSeqS s ds) :
    dbCost (ddProjS s 0 false) ds + dbCost (ddProjS s 4 false) ds +
      dbCost (ddProjS s 8 false) ds + dbCost (ddProjS s 12 true) ds ≤
      ds.length := by
  induction ds generalizing s with
  | nil => simp [dbCost]
  | cons d tl ih =>
      obtain ⟨h1, h2⟩ := hleg
      obtain ⟨sw, hne, hc1, hc2, heq⟩ := legalMove_swap s.readableNumbers d h1
      obtain ⟨v, hv⟩ : ∃ v, s.readableNumbers sw.1 sw.2 = some v := by
        cases hsv : s.readableNumbers sw.1 sw.2 with
        | none => exact absurd hsv (hs.1.ne_none_of_ne_blank hne)
        | some v => exact ⟨v, rfl⟩
      have hv1 := (hs.1.mem_values hv).1
      have hv15 : v ≤ 15 := by
        have := (hs.1.mem_values hv).2
        omega
      have hread := hs.readable_step (le_refl 4) h1
      have h0 := ddProj_move hs.1 h1 hne hc1 hc2 heq hv 0 false
        (Or.inl ⟨Or.inl rfl, rfl⟩)
      have h4 := ddProj_move hs.1 h1 hne hc1 hc2 heq hv 4 false
        (Or.inl ⟨Or.inr (Or.inl rfl), rfl⟩)
      have h8 := ddProj_move hs.1 h1 hne hc1 hc2 heq hv 8 false
        (Or.inl ⟨Or.inr (Or.inr rfl), rfl⟩)
      have h12 := ddProj_move hs.1 h1 hne hc1 hc2 heq hv 12 true
        (Or.inr ⟨rfl, rfl⟩)
      have htl := ih (hs.step (le_refl 4) h1) h2
      have hmv : ∀ f : Nat, ∀ ig : Bool,
          dbMove (ddProj s.readableNumbers f ig) d =
            ddProj (createNeighbourMoveState s.readableNumbers d) f ig →
          dbCost (dbMove (ddProjS s f ig) d) tl =
            dbCost (ddProjS (s.createNeighbourMoveState d) f ig) tl := by
        intro f ig hm
        show dbCost (dbMove (ddProj s.readableNumbers f ig) d) tl = _
        rw [hm]
        unfold ddProjS
        rw [hread]
      show dbMoveCost (ddProjS s 0 false) d + dbCost (dbMove (ddProjS s 0 false) d) tl +
        (dbMoveCost (ddProjS s 4 false) d + dbCost (dbMove (ddProjS s 4 false) d) tl) +
        (dbMoveCost (ddProjS s 8 false) d + dbCost (dbMove (ddProjS s 8 false) d) tl) +
        (dbMoveCost (ddProjS s 12 true) d + dbCost (dbMove (ddProjS s 12 true) d) tl) ≤
        tl.length + 1
      rw [hmv 0 false h0.2.1, hmv 4 false h4.2.1, hmv 8 false h8.2.1,
        hmv 12 true h12.2.1]
      have hc0 : dbMoveCost (ddProjS s 0 false) d =
          (if 0 < v ∧ v ≤ 0 + 4 then 1 else 0) := h0.2.2
      have hc4 : dbMoveCost (ddProjS s 4 false) d =
          (if 4 < v ∧ v ≤ 4 + 4 then 1 else 0) := h4.2.2
      have hc8 : dbMoveCost (ddProjS s 8 false) d =
          (if 8 < v ∧ v ≤ 8 + 4 then 1 else 0) := h8.2.2
      have hc12 : dbMoveCost (ddProjS s 12 true) d =
          (if 12 < v ∧ v ≤ 12 + 4 then 1 else 0) := h12.2.2
      have hone : (if 0 < v ∧ v ≤ 0 + 4 then 1 else 0) +
          (if 4 < v ∧ v ≤ 4 + 4 then 1 else 0) +
          (if 8 < v ∧ v ≤ 8 + 4 then 1 else 0) +
          (if 12 < v ∧ v ≤ 12 + 4 then 1 else 0) = 1 := by
        split_ifs <;> omega
      rw [hc0, hc4, hc8, hc12]
      omega

theorem dbApply_wf {s : DbBoardState} (hwf : DbWF s) {ds : List Direction}
    (hleg : dbLegalSeq s ds) : DbWF (dbApply s ds) := by
  induction ds generalizing s with
  | nil => exact hwf
  | cons d tl ih => exact ih (dbMove_wf hwf hleg.1) hleg.2

theorem dbApply_ignoreLast (s : DbBoardState) (ds : List Direction) :
    (dbApply s ds).ignoreLast = s.ignoreLast := by
  induction ds generalizing s with
  | nil => rfl
  | cons d tl ih =>
      show (dbApply (dbMove s d) tl).ignoreLast = s.ignoreLast
      rw [ih, dbMove_ignoreLast]

theorem dbCost_zero_elements {s : DbBoardState} (hwf : DbWF s)
    {ds : List Direction} (hleg : dbLegalSeq s ds) (h0 : dbCost s ds = 0) :
    (dbApply s ds).elements = s.elements := by
  induction ds generalizing s with
  | nil => rfl
  | cons d tl ih =>
      have hsum : dbMoveCost s d + dbCost (dbMove s d) tl = 0 := h0
      have hflag : (dbCreateNeighbour s d).2 = false := by
        by_cases hb2 : (dbCreateNeighbour s d).2 = true
        · exfalso
          have hcost : dbMoveCost s d = 1 := by
            unfold dbMoveCost
            rw [if_pos hb2]
          omega
        · simpa using hb2
      rcases dbMove_elements_spec s d hwf hleg.1 with ⟨-, hel⟩ | ⟨hf, -⟩
      · show (dbApply (dbMove s d) tl).elements = s.elements
        rw [ih (dbMove_wf hwf hleg.1) hleg.2 (by omega), hel]
      · rw [hf] at hflag
        exact absurd hflag (by simp)

theorem dbCost_zero_combination {s : DbBoardState} (hwf : DbWF s)
    {ds : List Direction} (hleg : dbLegalSeq s ds) (h0 : dbCost s ds = 0) :
    dbCombination (dbApply s ds) = dbCombination s := by
  unfold dbCombination
  rw [dbCost_zero_elements hwf hleg h0, dbApply_ignoreLast]

theorem combinationLoop_false_eval (a b c e : Nat × Nat) :
    combinationLoop false [a, b, c, e] 0 =
      (a.1 * 4 + a.2) + ((b.1 * 4 + b.2) * 16 + ((c.1 * 4 + c.2) * 256 +
        (e.1 * 4 + e.2) * 4096)) := by
  simp [combinationLoop]

theorem combinationLoop_true_eval (a b c e : Nat × Nat) :
    combinationLoop true [a, b, c, e] 0 =
      (a.1 * 4 + a.2) + ((b.1 * 4 + b.2) * 16 + (c.1 * 4 + c.2) * 256) := by
  simp [combinationLoop]

theorem combinationLoop_inj {x1 x2 x3 x4 y1 y2 y3 y4 : Nat × Nat} (ig : Bool)
    (hb : ∀ p ∈ [x1, x2, x3, x4, y1, y2, y3, y4], p.1 ≤ 3 ∧ p.2 ≤ 3)
    (h : combinationLoop ig [x1, x2, x3, x4] 0 =
      combinationLoop ig [y1, y2, y3, y4] 0) :
    x1 = y1 ∧ x2 = y2 ∧ x3 = y3 ∧ (ig = false → x4 = y4) := by
  have h1 := hb x1 (by simp)
  have h2 := hb x2 (by simp)
  have h3 := hb x3 (by simp)
  have h4 := hb x4 (by simp)
  have h5 := hb y1 (by simp)
  have h6 := hb y2 (by simp)
  have h7 := hb y3 (by simp)
  have h8 := hb y4 (by simp)
  cases ig with
  | false =>
      rw [combinationLoop_false_eval, combinationLoop_false_eval] at h
      refine ⟨?_, ?_, ?_, fun _ => ?_⟩ <;> apply Prod.ext <;> omega
  | true =>
      rw [combinationLoop_true_eval, combinationLoop_true_eval] at h
      refine ⟨?_, ?_, ?_, fun hcon => absurd hcon (by simp)⟩ <;>
        apply Prod.ext <;> omega

theorem goalBoard4_valid : ValidBoard (goalBoard 4) := by decide

theorem ddProj_goal_0 : ddProj (goalBoard 4) 0 false = dbInitial 0 false := by
  decide

theorem ddProj_goal_4 : ddProj (goalBoard 4) 4 false = dbInitial 4 false := by
  decide

theorem ddProj_goal_8 : ddProj (goalBoard 4) 8 false = dbInitial 8 false := by
  decide

theorem ddProj_goal_12 : ddProj (goalBoard 4) 12 true = dbInitial 12 true := by
  decide

theorem eq_goal_of_all_home {b : Board 4} (hb : ValidBoard b)
    (hhome : ∀ w, 1 ≤ w → w ≤ 15 → findValue b w = findValue (goalBoard 4) w) :
    b = goalBoard 4 := by
  refine (manhattanHeuristic_eq_zero_iff (by omega) hb).mp ?_
  unfold manhattanHeuristic
  refine List.sum_eq_zero ?_
  intro x hx
  rcases List.mem_map.mp hx with ⟨rc, -, rfl⟩
  cases hrc : b rc.1 rc.2 with
  | none => rfl
  | some v =>
      show Nat.dist rc.1.val ((v - 1) / 4) + Nat.dist rc.2.val ((v - 1) % 4) = 0
      have hv1 := (hb.mem_values hrc).1
      have hv15 : v ≤ 15 := by
        have := (hb.mem_values hrc).2
        omega
      have h1 := findValue_some hb hrc
      have h2 := hhome v hv1 hv15
      have hgoalv : findValue (goalBoard 4) v = ((v - 1) / 4, (v - 1) % 4) := by
        interval_cases v <;> decide
      rw [h1, hgoalv, Prod.mk.injEq] at h2
      rw [h2.1, h2.2, Nat.dist_self, Nat.dist_self]


theorem ddLookup_bound {s : PuzzleState 4} (hs : ValidState s)
    {ds : List Direction} (hleg : legalSeqS s ds)
    (hsol : (applyS s ds).isSolved) (f : Nat) (ig : Bool)
    (hgrp : ((f = 0 ∨ f = 4 ∨ f = 8) ∧ ig = false) ∨ (f = 12 ∧ ig = true))
    (hgoalproj : ddProj (goalBoard 4) f ig = dbInitial f ig)
    {stf : DbLoopState} (hre : DbReaches (dbInitLoop f ig) stf)
    (hfr : stf.frontier = []) :
    (∃ v, (ddKey s.readableNumbers f ig, v) ∈ stf.distances) ∧
    ∀ v, (ddKey s.readableNumbers f ig, v) ∈ stf.distances →
      v ≤ dbCost (ddProjS (applyS s ds) f ig)
        ((ds.map Direction.opposite).reverse) := by
  have hf15 : f ≤ 15 := by rcases hgrp with ⟨h, -⟩ | ⟨h, -⟩ <;> omega
  have hwf := dbInitial_wf f ig hf15
  have hinv := dbInv_reaches hwf (dbInv_init _ hwf) hre
  have hspec := dbTable_spec hinv hfr
  have ht := validState_applyS (le_refl 4) hs hleg
  obtain ⟨hrleg, hrapp⟩ := legalSeqS_reverse (le_refl 4) hs hleg
  have hgoal : (applyS s ds).readableNumbers = goalBoard 4 :=
    (boardIsSolved_iff (by omega) _).mp hsol
  have hstart : ddProjS (applyS s ds) f ig = dbInitial f ig := by
    unfold ddProjS
    rw [hgoal, hgoalproj]
  obtain ⟨hpleg, happ⟩ := ddProjS_path ht hrleg f ig hgrp
  have hcomb : dbCombination (dbApply (dbInitial f ig)
      ((ds.map Direction.opposite).reverse)) = ddKey s.readableNumbers f ig := by
    rw [← hstart, happ, hrapp]
    exact ddKey_eq_proj s.readableNumbers f ig
  have hlegseq : dbLegalSeq (dbInitial f ig)
      ((ds.map Direction.opposite).reverse) := by
    rw [← hstart]
    exact hpleg
  constructor
  · have hkey : ddKey s.readableNumbers f ig ∈ stf.distances.map Prod.fst :=
      (hspec.1 _).mpr ⟨_, hlegseq, hcomb⟩
    rcases List.mem_map.mp hkey with ⟨p, hp, hpf⟩
    refine ⟨p.2, ?_⟩
    rw [← hpf]
    exact hp
  · intro v hv
    have hmin := (hspec.2 _ _ hv).2 _ hlegseq hcomb
    rw [hstart]
    exact hmin

/-- C3: for every valid 4×4 configuration, `ManhattanDistance::calculate` and
`DisjointDatabases::calculate` are admissible — whenever a legal blank-move
sequence solves the configuration, the Manhattan estimate and the sum of the
four database lookups (which all succeed) are bounded by the sequence length —
and each estimate is zero exactly at the goal configuration; the database
lookups are taken in any terminal state of the four `Database::new` loops. -/
theorem C3_heuristics_admissible (s : PuzzleState 4) (hs : ValidState s)
    (stf0 stf4 stf8 stf12 : DbLoopState)
    (h0 : DbReaches (dbInitLoop 0 false) stf0) (hf0 : stf0.frontier = [])
    (h4 : DbReaches (dbInitLoop 4 false) stf4) (hf4 : stf4.frontier = [])
    (h8 : DbReaches (dbInitLoop 8 false) stf8) (hf8 : stf8.frontier = [])
    (h12 : DbReaches (dbInitLoop 12 true) stf12) (hf12 : stf12.frontier = []) :
    (∀ ds, legalSeqS s ds → (applyS s ds).isSolved →
      manhattanHeuristic s.readableNumbers ≤ ds.length ∧
      (∃ v, (ddKey s.readableNumbers 0 false, v) ∈ stf0.distances) ∧
      (∃ v, (ddKey s.readableNumbers 4 false, v) ∈ stf4.distances) ∧
      (∃ v, (ddKey s.readableNumbers 8 false, v) ∈ stf8.distances) ∧
      (∃ v, (ddKey s.readableNumbers 12 true, v) ∈ stf12.distances) ∧
      ∀ v0 v4 v8 v12,
        (ddKey s.readableNumbers 0 false, v0) ∈ stf0.distances →
        (ddKey s.readableNumbers 4 false, v4) ∈ stf4.distances →
        (ddKey s.readableNumbers 8 false, v8) ∈ stf8.distances →
        (ddKey s.readableNumbers 12 true, v12) ∈ stf12.distances →
        v0 + v4 + v8 + v12 ≤ ds.length) ∧
    (manhattanHeuristic s.readableNumbers = 0 ↔
      s.readableNumbers = goalBoard 4) ∧
    (∀ v0 v4 v8 v12,
      (ddKey s.readableNumbers 0 false, v0) ∈ stf0.distances →
      (ddKey s.readableNumbers 4 false, v4) ∈ stf4.distances →
      (ddKey s.readableNumbers 8 false, v8) ∈ stf8.distances →
      (ddKey s.readableNumbers 12 true, v12) ∈ stf12.distances →
      (v0 + v4 + v8 + v12 = 0 ↔ s.readableNumbers = goalBoard 4)) := by
  have hw0 : DbWF (dbInitial 0 false) := dbInitial_wf 0 false (by omega)
  have hw4 : DbWF (dbInitial 4 false) := dbInitial_wf 4 false (by omega)
  have hw8 : DbWF (dbInitial 8 false) := dbInitial_wf 8 false (by omega)
  have hw12 : DbWF (dbInitial 12 true) := dbInitial_wf 12 true (by omega)
  have hinv0 := dbInv_reaches hw0 (dbInv_init _ hw0) h0
  have hinv4 := dbInv_reaches hw4 (dbInv_init _ hw4) h4
  have hinv8 := dbInv_reaches hw8 (dbInv_init _ hw8) h8
  have hinv12 := dbInv_reaches hw12 (dbInv_init _ hw12) h12
  have hspec0 := dbTable_spec hinv0 hf0
  have hspec4 := dbTable_spec hinv4 hf4
  have hspec8 := dbTable_spec hinv8 hf8
  have hspec12 := dbTable_spec hinv12 hf12
  refine ⟨?_, manhattanHeuristic_eq_zero_iff (by omega) hs.1, ?_⟩
  · intro ds hleg hsol
    have hman := manhattan_admissible (by omega) (by omega) s hs ds hleg hsol
    obtain ⟨hcov0, hbd0⟩ := ddLookup_bound hs hleg hsol 0 false
      (Or.inl ⟨Or.inl rfl, rfl⟩) ddProj_goal_0 h0 hf0
    obtain ⟨hcov4, hbd4⟩ := ddLookup_bound hs hleg hsol 4 false
      (Or.inl ⟨Or.inr (Or.inl rfl), rfl⟩) ddProj_goal_4 h4 hf4
    obtain ⟨hcov8, hbd8⟩ := ddLookup_bound hs hleg hsol 8 false
      (Or.inl ⟨Or.inr (Or.inr rfl), rfl⟩) ddProj_goal_8 h8 hf8
    obtain ⟨hcov12, hbd12⟩ := ddLookup_bound hs hleg hsol 12 true
      (Or.inr ⟨rfl, rfl⟩) ddProj_goal_12 h12 hf12
    refine ⟨hman, hcov0, hcov4, hcov8, hcov12, ?_⟩
    intro v0 v4 v8 v12 hm0 hm4 hm8 hm12
    have ht := validState_applyS (le_refl 4) hs hleg
    obtain ⟨hrleg, -⟩ := legalSeqS_reverse (le_refl 4) hs hleg
    have hcost := ddProjS_cost ht hrleg
    have hlen : ((ds.map Direction.opposite).reverse).length = ds.length := by
      simp
    have hb0 := hbd0 v0 hm0
    have hb4 := hbd4 v4 hm4
    have hb8 := hbd8 v8 hm8
    have hb12 := hbd12 v12 hm12
    omega
  · intro v0 v4 v8 v12 hm0 hm4 hm8 hm12
    constructor
    · intro hsum
      have hz0 : v0 = 0 := by omega
      have hz4 : v4 = 0 := by omega
      have hz8 : v8 = 0 := by omega
      have hz12 : v12 = 0 := by omega
      subst hz0 hz4 hz8 hz12
      have hkeyeq : ∀ (f : Nat) (ig : Bool) (i0 : DbBoardState), DbWF i0 →
          ∀ {stf : DbLoopState}, DbInv i0 stf → stf.frontier = [] →
          ∀ v, v = 0 → (ddKey s.readableNumbers f ig, v) ∈ stf.distances →
          ddProj (goalBoard 4) f ig = dbInitial f ig → i0 = dbInitial f ig →
          ddKey s.readableNumbers f ig = ddKey (goalBoard 4) f ig := by
        intro f ig i0 hwf stf hinv hfr v hv0 hmem hgp hi0
        subst hv0 hi0
        obtain ⟨ps, hpsleg, hpscomb, hpscost⟩ :=
          ((dbTable_spec hinv hfr).2 _ _ hmem).1
        have hzero : dbCombination (dbApply (dbInitial f ig) ps) =
            dbCombination (dbInitial f ig) :=
          dbCost_zero_combination hwf hpsleg hpscost
        have hgkey : dbCombination (dbInitial f ig) =
            ddKey (goalBoard 4) f ig := by
          rw [← hgp]
          exact ddKey_eq_proj _ f ig
        calc ddKey s.readableNumbers f ig
            = dbCombination (dbApply (dbInitial f ig) ps) := hpscomb.symm
          _ = dbCombination (dbInitial f ig) := hzero
          _ = ddKey (goalBoard 4) f ig := hgkey
      have hk0 := hkeyeq 0 false _ hw0 hinv0 hf0 0 rfl hm0 ddProj_goal_0 rfl
      have hk4 := hkeyeq 4 false _ hw4 hinv4 hf4 0 rfl hm4 ddProj_goal_4 rfl
      have hk8 := hkeyeq 8 false _ hw8 hinv8 hf8 0 rfl hm8 ddProj_goal_8 rfl
      have hk12 := hkeyeq 12 true _ hw12 hinv12 hf12 0 rfl hm12 ddProj_goal_12 rfl
      have hbound : ∀ (bb : Board 4) (w1 w2 w3 w4 u1 u2 u3 u4 : Nat),
          ∀ p ∈ [findValue bb w1, findValue bb w2, findValue bb w3,
            findValue bb w4, findValue (goalBoard 4) u1,
            findValue (goalBoard 4) u2, findValue (goalBoard 4) u3,
            findValue (goalBoard 4) u4], p.1 ≤ 3 ∧ p.2 ≤ 3 := by
        intro bb w1 w2 w3 w4 u1 u2 u3 u4 p hp
        simp only [List.mem_cons, List.not_mem_nil, or_false] at hp
        rcases hp with rfl | rfl | rfl | rfl | rfl | rfl | rfl | rfl <;>
          exact findValue_le _ _
      have hinj0 := combinationLoop_inj false
        (hbound s.readableNumbers 1 2 3 4 1 2 3 4) hk0
      have hinj4 := combinationLoop_inj false
        (hbound s.readableNumbers 5 6 7 8 5 6 7 8) hk4
      have hinj8 := combinationLoop_inj false
        (hbound s.readableNumbers 9 10 11 12 9 10 11 12) hk8
      have hinj12 := combinationLoop_inj true
        (hbound s.readableNumbers 13 14 15 16 13 14 15 16) hk12
      have hhome : ∀ w, 1 ≤ w → w ≤ 15 →
          findValue s.readableNumbers w = findValue (goalBoard 4) w := by
        have k1 : findValue s.readableNumbers 1 = findValue (goalBoard 4) 1 :=
          hinj0.1
        have k2 : findValue s.readableNumbers 2 = findValue (goalBoard 4) 2 :=
          hinj0.2.1
        have k3 : findValue s.readableNumbers 3 = findValue (goalBoard 4) 3 :=
          hinj0.2.2.1
        have k4 : findValue s.readableNumbers 4 = findValue (goalBoard 4) 4 :=
          hinj0.2.2.2 rfl
        have k5 : findValue s.readableNumbers 5 = findValue (goalBoard 4) 5 :=
          hinj4.1
        have k6 : findValue s.readableNumbers 6 = findValue (goalBoard 4) 6 :=
          hinj4.2.1
        have k7 : findValue s.readableNumbers 7 = findValue (goalBoard 4) 7 :=
          hinj4.2.2.1
        have k8 : findValue s.readableNumbers 8 = findValue (goalBoard 4) 8 :=
          hinj4.2.2.2 rfl
        have k9 : findValue s.readableNumbers 9 = findValue (goalBoard 4) 9 :=
          hinj8.1
        have k10 : findValue s.readableNumbers 10 = findValue (goalBoard 4) 10 :=
          hinj8.2.1
        have k11 : findValue s.readableNumbers 11 = findValue (goalBoard 4) 11 :=
          hinj8.2.2.1
        have k12 : findValue s.readableNumbers 12 = findValue (goalBoard 4) 12 :=
          hinj8.2.2.2 rfl
        have k13 : findValue s.readableNumbers 13 = findValue (goalBoard 4) 13 :=
          hinj12.1
        have k14 : findValue s.readableNumbers 14 = findValue (goalBoard 4) 14 :=
          hinj12.2.1
        have k15 : findValue s.readableNumbers 15 = findValue (goalBoard 4) 15 :=
          hinj12.2.2.1
        intro w h1 h15
        interval_cases w <;> assumption
      exact eq_goal_of_all_home hs.1 hhome
    · intro hgoal
      have hz : ∀ (f : Nat) (ig : Bool) (i0 : DbBoardState), DbWF i0 →
          ∀ {stf : DbLoopState}, DbInv i0 stf → stf.frontier = [] →
          ∀ v, (ddKey s.readableNumbers f ig, v) ∈ stf.distances →
          ddProj (goalBoard 4) f ig = dbInitial f ig → i0 = dbInitial f ig →
          v = 0 := by
        intro f ig i0 hwf stf hinv hfr v hmem hgp hi0
        subst hi0
        have hcombnil : dbCombination (dbApply (dbInitial f ig) []) =
            ddKey s.readableNumbers f ig := by
          show dbCombination (dbInitial f ig) = _
          rw [hgoal, ← hgp]
          exact ddKey_eq_proj _ f ig
        have hmin := ((dbTable_spec hinv hfr).2 _ _ hmem).2 [] trivial hcombnil
        have hnil : dbCost (dbInitial f ig) [] = 0 := rfl
        omega
      have hz0 := hz 0 false _ hw0 hinv0 hf0 v0 hm0 ddProj_goal_0 rfl
      have hz4 := hz 4 false _ hw4 hinv4 hf4 v4 hm4 ddProj_goal_4 rfl
      have hz8 := hz 8 false _ hw8 hinv8 hf8 v8 hm8 ddProj_goal_8 rfl
      have hz12 := hz 12 true _ hw12 hinv12 hf12 v12 hm12 ddProj_goal_12 rfl
      omega


theorem C3_heuristics_admissible_witness :
    ValidState goalState4 ∧
    ∃ stf0 stf4 stf8 stf12 : DbLoopState,
      DbReaches (dbInitLoop 0 false) stf0 ∧ stf0.frontier = [] ∧
      DbReaches (dbInitLoop 4 false) stf4 ∧ stf4.frontier = [] ∧
      DbReaches (dbInitLoop 8 false) stf8 ∧ stf8.frontier = [] ∧
      DbReaches (dbInitLoop 12 true) stf12 ∧ stf12.frontier = [] ∧
      (manhattanHeuristic goalState4.readableNumbers = 0 ↔
        goalState4.readableNumbers = goalBoard 4) := by
  have hvs : ValidState goalState4 :=
    ValidState.ofBoard (le_refl 4) goalBoard4_valid
  obtain ⟨s0, r0, f0, -⟩ := dbRun_to_empty (dbInitial_wf 0 false (by omega))
    (dbMeasure (dbInitLoop 0 false)) (dbInitLoop 0 false) le_rfl
    (dbInv_init _ (dbInitial_wf 0 false (by omega)))
  obtain ⟨s4, r4, f4, -⟩ := dbRun_to_empty (dbInitial_wf 4 false (by omega))
    (dbMeasure (dbInitLoop 4 false)) (dbInitLoop 4 false) le_rfl
    (dbInv_init _ (dbInitial_wf 4 false (by omega)))
  obtain ⟨s8, r8, f8, -⟩ := dbRun_to_empty (dbInitial_wf 8 false (by omega))
    (dbMeasure (dbInitLoop 8 false)) (dbInitLoop 8 false) le_rfl
    (dbInv_init _ (dbInitial_wf 8 false (by omega)))
  obtain ⟨s12, r12, f12, -⟩ := dbRun_to_empty (dbInitial_wf 12 true (by omega))
    (dbMeasure (dbInitLoop 12 true)) (dbInitLoop 12 true) le_rfl
    (dbInv_init _ (dbInitial_wf 12 true (by omega)))
  refine ⟨hvs, s0, s4, s8, s12, r0, f0, r4, f4, r8, f8, r12, f12, ?_⟩
  exact (C3_heuristics_admissible goalState4 hvs s0 s4 s8 s12
    r0 f0 r4 f4 r8 f8 r12 f12).2.1

end Puzzle
